

import Mathlib

/-!
Verification of the mlir-graphblas sparse core.

This file gives a shallow embedding of the two components of the repository:

* the compressed sparse tensor storage engine
  (`SparseTensorUtils.cpp`: `SparseTensorStorage`, `fromCOO`, `verify`,
  `dup`, `lexInsert`), and
* the GraphBLAS lowering patterns
  (`GraphBLASPasses.cpp`: `LowerConvertLayoutRewrite`, `LowerNumValsRewrite`,
  `rewriteMatrixMatrixMultiplication`),

together with theorems settling the testable properties stated for it.

Machine integers: the C++ code works on `uint64_t` sizes and offsets and on a
template value type `V`.  All quantities embedded here are `Nat` (sizes,
pointers, indices) or an abstract value type `V`; none of the embedded
arithmetic can overflow in the source (buffer sizes bound every value that is
ever added), so no modular reduction is inserted.
-/

/-! ## Compressed sparse pair-of-buffers model

`SparseBuf` models the buffer triple `(pointers[d], indices[d], values)` of a
`SparseTensorStorage` whose storage layout has one compressed dimension: for a
CSR matrix the segments are rows, for a CSC matrix the segments are columns,
and for a rank-1 sparse vector there is a single segment.  `nouter` is the
extent of the segment dimension (the number of pointer-delimited segments) and
`ninner` the extent of the dimension the `ind` entries index into. -/
structure SparseBuf (V : Type) where
  nouter : Nat
  ninner : Nat
  ptr : List Nat
  ind : List Nat
  val : List V
deriving Repr, DecidableEq

/-- Entry `p` of a pointer buffer, read as the C++ code reads `ptr[p]`
(reads are always in bounds in the source; out-of-range reads default to 0). -/
def ptrAt (M : SparseBuf V) (p : Nat) : Nat := M.ptr.getD p 0

/-- The `(index, value)` pairs of segment `s`, i.e. the entries at positions
`[ptr[s], ptr[s+1])` of the `ind`/`val` buffers — the access pattern every
loop of the source uses (`for jj = Ap[row] .. Ap[row+1]`). -/
def segmentPairs (M : SparseBuf V) (s : Nat) : List (Nat × V) :=
  (((M.ind.zip M.val).drop (ptrAt M s)).take (ptrAt M (s + 1) - ptrAt M s))

/-- The stored indices of segment `s`. -/
def segmentInds (M : SparseBuf V) (s : Nat) : List Nat :=
  (segmentPairs M s).map Prod.fst

/-- All stored entries as `(segment, index, value)` triples, in storage order
(outer dimension ascending, then position ascending) — the visitation order of
every two-level loop in the source. -/
def allTriples (M : SparseBuf V) : List (Nat × Nat × V) :=
  (List.range M.nouter).flatMap
    (fun s => (segmentPairs M s).map (fun p => (s, p.1, p.2)))

/-- Pointer buffer of a freshly assembled tensor: one entry per segment plus a
final entry, entry `s` being the running total of entries before segment `s`
(the source computes this by a count pass followed by the cumulative-sum
loop). -/
def ptrsFrom (a : Nat) : List (List (Nat × V)) → List Nat
  | [] => [a]
  | g :: gs => a :: ptrsFrom (a + g.length) gs

/-- Assemble a `SparseBuf` from a list of segments (the functional result of
the count / cumulative-sum / fill passes: pointers are the exclusive prefix
sums of the segment lengths, indices and values are the concatenations). -/
def ofSegs (ninner : Nat) (segs : List (List (Nat × V))) : SparseBuf V :=
  { nouter := segs.length
    ninner := ninner
    ptr := ptrsFrom 0 segs
    ind := segs.flatMap (fun g => g.map Prod.fst)
    val := segs.flatMap (fun g => g.map Prod.snd) }

/-! ## Layout conversion (`LowerConvertLayoutRewrite`)

`LowerConvertLayoutRewrite` (GraphBLASPasses.cpp) lowers
`graphblas.convert_layout` to a counting-sort transpose of the compressed
buffers: it counts the entries per target segment, turns the counts into
pointers by a cumulative sum, and then walks the input in storage order
(outer dimension ascending, position ascending), placing each entry at the
next free slot of its target segment (`dest = Bp[col]; Bi[dest] = row;
Bx[dest] = Ax[jj]; Bp[col]++`) before shifting the pointer buffer back.
Functionally the output is therefore: segment `c` of the result holds, in
input-storage order, exactly the input entries whose stored index is `c`.
`transpose` is that function. -/
def transpose (M : SparseBuf V) : SparseBuf V :=
  ofSegs M.nouter
    ((List.range M.ninner).map (fun c =>
      ((allTriples M).filter (fun t => t.2.1 = c)).map (fun t => (t.1, t.2.2))))

/-- A rank-2 sparse tensor as the lowering sees it: compressed buffers plus
the layout (`false` = row-major / CSR, `true` = column-major / CSC), which in
the storage engine is the `rev` dimension-order map. -/
structure SpMatrix (V : Type) where
  buf : SparseBuf V
  csc : Bool
deriving Repr, DecidableEq

/-- `graphblas.convert_layout` as lowered by `LowerConvertLayoutRewrite`:
if the requested layout equals the current one the op is replaced by its own
input unchanged (the `inputType == outputType` shortcut, lines 163-168);
otherwise the buffers are rebuilt by the counting-sort transpose and the
dimension order flipped. -/
def convertLayout (T : SpMatrix V) (targetCSC : Bool) : SpMatrix V :=
  if T.csc = targetCSC then T
  else { buf := transpose T.buf, csc := targetCSC }

/-- Swapping the two coordinates of a stored entry. -/
def tripleSwap (t : Nat × Nat × V) : Nat × Nat × V := (t.2.1, t.1, t.2.2)

/-! ## `graphblas.num_vals` (`LowerNumValsRewrite`)

The lowering loads the pointer buffer of storage dimension `rank - 1` (the
compressed dimension), computes `npointers` as the extent of the pointer
dimension (`1` for a rank-1 tensor, the row count for CSR, the column count
for CSC — in this model always `nouter`), and returns the load
`ptrs[npointers]`, i.e. the final pointer entry, index-cast to the
coordinate width. -/
def numVals (M : SparseBuf V) : Nat := ptrAt M M.nouter

/-- Well-formed compressed buffers, as the storage invariants of §3 state
them for one compressed dimension: pointer buffer of length `nouter + 1`,
starting at 0, non-decreasing, ending at the index count; one value per
index; indices in bounds. -/
def WfBuf (M : SparseBuf V) : Prop :=
  M.ptr.length = M.nouter + 1 ∧
  ptrAt M 0 = 0 ∧
  (∀ s ∈ List.range M.nouter, ptrAt M s ≤ ptrAt M (s + 1)) ∧
  ptrAt M M.nouter = M.ind.length ∧
  M.ind.length = M.val.length ∧
  (∀ i ∈ M.ind, i < M.ninner)

/-! ## Masked semiring matrix multiplication
(`rewriteMatrixMatrixMultiplication`)

The lowering requires `A` row-major (CSR: segments are rows), `B`
column-major (CSC: segments are columns) and the mask row-major (the DWIM
rewrites insert `graphblas.convert_layout` until this holds).  It then runs:

* pass 1 (count): for each row `r` of `A`, the number of surviving output
  columns, computed by `computeNumOverlaps` over the allowed column list —
  the mask row's indices, their complement (`buildMaskComplement`), or
  `0..ncol` when there is no mask — where a column `j` survives iff the
  column set of `A[r,:]` intersects the row set of `B[:,j]`;
* pass 2: exclusive cumulative sum of the counts into `Cp`, resize of the
  index/value buffers to the total;
* pass 3 (fill): per row, `computeInnerProduct` writes the surviving columns
  in ascending order together with the semiring inner product.

`computeNumOverlaps`, `computeInnerProduct` and `buildMaskComplement` live in
`GraphBLASArrayUtils.cpp`, which is not part of the sources; their behaviour
below is modelled from the spec (§4.2 and §8). -/

/-- A semiring descriptor: the three operator blocks a
`graphblas.matrix_multiply_generic` op carries (`ADD_IDENTITY`, `ADD`,
`MULT`). -/
structure SemiringOps (V : Type) where
  addIdentity : V
  add : V → V → V
  mult : V → V → V

/-- Modelled from the spec: `populateSemiring` for the built-in
`plus_times` semiring — additive identity 0, additive combine `+`,
multiplicative combine `*`. -/
def plusTimes : SemiringOps Int := ⟨0, (· + ·), (· * ·)⟩

/-- The stored value of `M` at segment `s`, index `i` (`none` when the
coordinate is absent). -/
def entryAt (M : SparseBuf V) (s i : Nat) : Option V :=
  ((segmentPairs M s).find? (fun p => p.1 = i)).map Prod.snd

/-- The contraction indices `k` stored both in row `r` of `A` (CSR) and in
column `j` of `B` (CSC) — the overlap set the scratch-array marking of
`computeNumOverlaps` / `computeInnerProduct` detects. -/
def overlapKeys (A B : SparseBuf V) (r j : Nat) : List Nat :=
  (segmentInds B j).filter (fun k => decide (k ∈ segmentInds A r))

/-- The value `A[r,k]` (default `d` when absent; the inner product only uses
it at stored positions). -/
def lookupVal (M : SparseBuf V) (s i : Nat) (d : V) : V :=
  match (segmentPairs M s).find? (fun p => p.1 = i) with
  | some p => p.2
  | none => d

/-- Modelled from the spec: the semiring inner product of row `r` of `A` and
column `j` of `B` — `⊕` over the overlap `k` of `⊗(A[r,k], B[k,j])`,
accumulated from the additive identity. -/
def dotProduct (sr : SemiringOps V) (A B : SparseBuf V) (r j : Nat) : V :=
  ((segmentPairs B j).filter (fun q => decide (q.1 ∈ segmentInds A r))).foldl
    (fun acc q => sr.add acc (sr.mult (lookupVal A r q.1 sr.addIdentity) q.2))
    sr.addIdentity

/-- Modelled from the spec: `buildMaskComplement` — walk `0..ncol`, emit
every column index not present in the mask row. -/
def maskComplement (ncol : Nat) (maskRow : List Nat) : List Nat :=
  (List.range ncol).filter (fun j => decide (¬ j ∈ maskRow))

/-- The column list pass 1 / pass 3 iterate for output row `r`: the mask
row's stored columns (`Mj[Mp[r] .. Mp[r+1]]`), their complement when
`mask_complement = true`, or all of `0..ncol` when no mask is given. -/
def allowedCols (ncol : Nat) (mask : Option (SparseBuf V)) (cmp : Bool)
    (r : Nat) : List Nat :=
  match mask with
  | none => List.range ncol
  | some M => if cmp then maskComplement ncol (segmentInds M r)
              else segmentInds M r

/-- The surviving output columns of row `r`: allowed columns whose overlap
with row `r` of `A` is nonempty (what pass 1 counts and pass 3 emits). -/
def survivors (A B : SparseBuf V) (mask : Option (SparseBuf V)) (cmp : Bool)
    (r : Nat) : List Nat :=
  (allowedCols B.nouter mask cmp r).filter
    (fun j => decide (¬ overlapKeys A B r j = []))

/-- `graphblas.matrix_multiply_generic` on two matrices, as lowered by
`rewriteMatrixMatrixMultiplication`: the result is CSR with `A.nouter` rows
and `B.nouter` columns; row `r` holds the surviving columns with their inner
products; the pointer buffer is the pass-2 exclusive cumulative sum of the
pass-1 counts. -/
def multiply (sr : SemiringOps V) (A B : SparseBuf V)
    (mask : Option (SparseBuf V)) (cmp : Bool) : SparseBuf V :=
  ofSegs B.nouter
    ((List.range A.nouter).map (fun r =>
      (survivors A B mask cmp r).map (fun j => (j, dotProduct sr A B r j))))

/-! ## The storage object (`SparseTensorStorage<P, I, V>`)

The buffer members of a storage instance (SparseTensorUtils.cpp): per-storage
dimension sizes, the "reverse" permutation `rev` (dim_order), the insertion
cursor `idx`, per-dimension pointer and index buffers, and the flat value
buffer. -/
structure TensorData (V : Type) where
  sizes : List Nat
  rev : List Nat
  idx : List Nat
  pointers : List (List Nat)
  indices : List (List Nat)
  values : List V
deriving Repr, DecidableEq

/-- The empty storage object (used as the out-of-bounds default of heap
reads, which the source never performs). -/
def emptyTD : TensorData V := ⟨[], [], [], [], [], []⟩

/-- `SparseTensorStorage(void *other)`, the constructor `dup()` invokes: the
member-initializer list copies `sizes`, `rev`, `pointers`, `indices` and
`values` from `*other`; the cursor `idx` is default-constructed empty. -/
def dupData (T : TensorData V) : TensorData V :=
  { sizes := T.sizes, rev := T.rev, idx := [],
    pointers := T.pointers, indices := T.indices, values := T.values }

/-- A heap of storage objects; an address is an index.  `dup()` allocates a
fresh object (`new SparseTensorStorage<P,I,V>(this)`) and returns its
address. -/
def dupAt (h : List (TensorData V)) (a : Nat) :
    List (TensorData V) × Nat :=
  (h ++ [dupData (h.getD a emptyTD)], h.length)

/-- `std::vector::resize(n)`: truncate or zero-extend to length `n`. -/
def resizeList (l : List α) (n : Nat) (pad : α) : List α :=
  l.take n ++ List.replicate (n - l.length) pad

/-- The buffer mutations the storage class exposes
(SparseTensorUtils.cpp lines 725-748). -/
inductive Mut (V : Type) where
  | assignRev (d i : Nat)
  | resizePointers (d n : Nat)
  | resizeIndex (d n : Nat)
  | resizeValues (n : Nat)
  | resizeDim (d n : Nat)
  | swapRev (l : List Nat)
  | swapSizes (l : List Nat)
  | swapPointers (l : List (List Nat))
  | swapIndices (l : List (List Nat))
  | swapValues (l : List V)

/-- Apply one mutation to a storage object (`pad` is the value-type zero
used by `std::vector<V>::resize`). -/
def applyMut (m : Mut V) (pad : V) (T : TensorData V) : TensorData V :=
  match m with
  | .assignRev d i => { T with rev := T.rev.set d i }
  | .resizePointers d n =>
      { T with pointers := T.pointers.set d (resizeList (T.pointers.getD d []) n 0) }
  | .resizeIndex d n =>
      { T with indices := T.indices.set d (resizeList (T.indices.getD d []) n 0) }
  | .resizeValues n => { T with values := resizeList T.values n pad }
  | .resizeDim d n => { T with sizes := T.sizes.set d n }
  | .swapRev l => { T with rev := l }
  | .swapSizes l => { T with sizes := l }
  | .swapPointers l => { T with pointers := l }
  | .swapIndices l => { T with indices := l }
  | .swapValues l => { T with values := l }

/-- Apply a mutation through a heap address (a method call on the object at
address `a`). -/
def applyMutAt (h : List (TensorData V)) (a : Nat) (m : Mut V) (pad : V) :
    List (TensorData V) :=
  h.set a (applyMut m pad (h.getD a emptyTD))

/-! ## Lexicographic insertion (`lexInsert`, lines 416-427 and 585-640)

C++ `assert` failures are modelled as `Except.error` carrying the assertion
message. -/

/-- `isCompressedDim(d)`: a dimension is compressed iff its pointer buffer
is nonempty. -/
def isCompressedDim (T : TensorData V) (d : Nat) : Bool :=
  !(T.pointers.getD d []).isEmpty

/-- Push `indices[d].size()` onto `pointers[d]`. -/
def pushPtrDim (T : TensorData V) (d : Nat) : TensorData V :=
  { T with pointers :=
      T.pointers.set d ((T.pointers.getD d []) ++ [(T.indices.getD d []).length]) }

/-- Push index `i` onto `indices[d]`. -/
def pushIdxDim (T : TensorData V) (d : Nat) (i : Nat) : TensorData V :=
  { T with indices := T.indices.set d ((T.indices.getD d []) ++ [i]) }

/-- `endDim(d)`: ends a deeper, never seen before dimension — pushes a zero
value at the value level, a pointer entry at a compressed dimension, and
recurses over the whole extent at a dense dimension.  The fuel argument is
`rank + 1 - d`, always sufficient since `d` increases at each call. -/
def endDimIns (zero : V) : Nat → TensorData V → Nat → TensorData V
  | 0, T, _ => T
  | fuel + 1, T, d =>
    if d = T.sizes.length then { T with values := T.values ++ [zero] }
    else if isCompressedDim T d then pushPtrDim T d
    else (List.range (T.sizes.getD d 0)).foldl
      (fun Tacc _ => endDimIns zero fuel Tacc (d + 1)) T

/-- `endPath(diff)`: wraps up a single insertion path, inner to outer. -/
def endPath (zero : V) (T0 : TensorData V) (diff : Nat) : TensorData V :=
  (List.range (T0.sizes.length - diff)).foldl
    (fun T i =>
      let d := T.sizes.length - i - 1
      if isCompressedDim T d then pushPtrDim T d
      else (List.range (T.sizes.getD d 0 - (T.idx.getD d 0 + 1))).foldl
        (fun Tacc _ => endDimIns zero (T.sizes.length + 1 - (d + 1)) Tacc (d + 1)) T)
    T0

/-- `insPath(cursor, diff, top, val)`: continues a single insertion path,
outer to inner. -/
def insPath (zero : V) (T0 : TensorData V) (cursor : List Nat)
    (diff top : Nat) (val : V) : TensorData V :=
  let st := (List.range' diff (T0.sizes.length - diff)).foldl
    (fun (st : TensorData V × Nat) d =>
      let T := st.1
      let i := cursor.getD d 0
      let T1 :=
        if isCompressedDim T d then pushIdxDim T d i
        else (List.range (i - st.2)).foldl
          (fun Tacc _ => endDimIns zero (T.sizes.length + 1 - (d + 1)) Tacc (d + 1)) T
      ({ T1 with idx := T1.idx.set d i }, 0))
    (T0, top)
  { st.1 with values := st.1.values ++ [val] }

/-- `lexDiff(cursor)`: find the first dimension where the cursor exceeds the
previous insertion cursor `idx`; assert-fails when the cursor is
lexicographically smaller (`non-lexicographic insertion`) or equal
(`duplication insertion`). -/
def lexDiffGo (idx cursor : List Nat) : Nat → Nat → Except String Nat
  | 0, _ => .error "duplication insertion"
  | remaining + 1, r =>
    if cursor.getD r 0 > idx.getD r 0 then .ok r
    else if cursor.getD r 0 = idx.getD r 0 then lexDiffGo idx cursor remaining (r + 1)
    else .error "non-lexicographic insertion"

def lexDiff (T : TensorData V) (cursor : List Nat) : Except String Nat :=
  lexDiffGo T.idx cursor T.sizes.length 0

/-- `lexInsert(cursor, val)`: wrap up the pending insertion path, then
continue with the new one. -/
def lexInsert (zero : V) (T : TensorData V) (cursor : List Nat) (v : V) :
    Except String (TensorData V) :=
  if T.values.isEmpty then .ok (insPath zero T cursor 0 0 v)
  else
    match lexDiff T cursor with
    | .error e => .error e
    | .ok diff =>
      let T1 := endPath zero T (diff + 1)
      let top := T1.idx.getD diff 0 + 1
      .ok (insPath zero T1 cursor diff top v)

/-! ## COO ingestion (`fromCOO`, lines 518-560, and the storage constructor)

`fromCOO(elements, lo, hi, d)` walks a lexicographically sorted element
interval, grouping consecutive elements with the same index at dimension `d`
into segments.  For a compressed dimension it pushes one index per segment
and, after the interval, one pointer entry equal to `indices[d].size()`; for
a dense dimension it fills skipped positions with `endDim(d+1)` before and
after the segments.  Once the dimensions are exhausted it pushes
`elements[lo].value` — the first value of the (possibly duplicated) group.

The embedding represents one call's appended output as `Deltas` (per
remaining dimension, the pointer and index entries it pushes, plus the
values), since all buffer writes are `push_back`s; the vector of current
index-buffer lengths (`off`) is threaded because pushed pointer entries are
the current `indices[d].size()`. -/

/-- A sorted element interval, grouped by the coordinate at the current
dimension: each group is the common index plus the elements with their
leading coordinate stripped.  (`fromCOO`'s inner `while (seg < hi ...)`
scan.) -/
def segGroups : List (List Nat × V) → List (Nat × List (List Nat × V))
  | [] => []
  | e :: rest =>
    let c := e.1.headD 0
    (c, ((e :: rest.takeWhile (fun f => f.1.headD 0 = c)).map
        (fun f => (f.1.tail, f.2)))) ::
      segGroups (rest.dropWhile (fun f => f.1.headD 0 = c))
termination_by l => l.length
decreasing_by
  simp only [List.length_cons]
  exact Nat.lt_succ_of_le ((rest.dropWhile_sublist _).length_le)

/-- The output a `fromCOO`/`endDim` call appends: pointer and index entries
per remaining dimension, and values. -/
structure Deltas (V : Type) where
  ptrs : List (List Nat)
  idxs : List (List Nat)
  vals : List V
deriving Repr, DecidableEq

def emptyDeltas (n : Nat) : Deltas V :=
  ⟨List.replicate n [], List.replicate n [], []⟩

/-- Sequential composition of appended output. -/
def Deltas.append (D E : Deltas V) : Deltas V :=
  ⟨List.zipWith (· ++ ·) D.ptrs E.ptrs,
   List.zipWith (· ++ ·) D.idxs E.idxs,
   D.vals ++ E.vals⟩

/-- Output of a deeper call, seen one dimension up. -/
def Deltas.below (D : Deltas V) : Deltas V :=
  ⟨[] :: D.ptrs, [] :: D.idxs, D.vals⟩

/-- Index-buffer lengths after appending `D`. -/
def offAfter (off : List Nat) (D : Deltas V) : List Nat :=
  List.zipWith (· + ·) off (D.idxs.map List.length)

/-- `endDim(d)` during construction, expressed over the remaining
`(size, compressed)` dimension list. -/
def endDimF (zero : V) : List (Nat × Bool) → List Nat → Deltas V
  | [], _ => ⟨[], [], [zero]⟩
  | (_, true) :: rest, off =>
      ⟨[off.headD 0] :: List.replicate rest.length [],
       [] :: List.replicate rest.length [], []⟩
  | (sz, false) :: rest, off =>
      ((List.range sz).foldl
        (fun D _ => D.append (endDimF zero rest (offAfter off.tail D)))
        (emptyDeltas rest.length)).below

/-- `n` sequential `endDim` calls on the remaining dimensions, continuing
from accumulated output `D0`. -/
def iterEndDim (zero : V) (rest : List (Nat × Bool)) (off : List Nat)
    (D0 : Deltas V) (n : Nat) : Deltas V :=
  (List.range n).foldl
    (fun D _ => D.append (endDimF zero rest (offAfter off D))) D0

/-- `fromCOO` on a sorted element interval. -/
def fromCOOF (zero : V) : List (Nat × Bool) → List Nat →
    List (List Nat × V) → Deltas V
  | [], _, elems =>
    -- d == rank: push the first value of the group (`elements[lo].value`).
    -- The source asserts `lo < hi` here; an empty interval at d == rank is
    -- reachable only for a rank-0 build from no elements, where the source
    -- assert-fails instead of building.  That corner returns no values
    -- below, and no theorem of this file relies on it.
    ⟨[], [], match elems with | [] => [] | e :: _ => [e.2]⟩
  | (_, true) :: rest, off, elems =>
      let groups := segGroups elems
      let Drest := groups.foldl
        (fun D g => D.append (fromCOOF zero rest (offAfter off.tail D) g.2))
        (emptyDeltas rest.length)
      ⟨[off.headD 0 + groups.length] :: Drest.ptrs,
       (groups.map Prod.fst) :: Drest.idxs, Drest.vals⟩
  | (sz, false) :: rest, off, elems =>
      let groups := segGroups elems
      let st := groups.foldl
        (fun (st : Deltas V × Nat) g =>
          let D1 := iterEndDim zero rest off.tail st.1 (g.1 - st.2)
          let D2 := D1.append (fromCOOF zero rest (offAfter off.tail D1) g.2)
          (D2, max st.2 g.1 + 1))
        ((emptyDeltas rest.length : Deltas V), 0)
      (iterEndDim zero rest off.tail st.1 (sz - st.2)).below

/-- `SparseTensorCOO::lexOrder` (lines 192-202): strict lexicographic
comparison of coordinate vectors (ranks are always equal in the source; the
shorter-list case is never hit there). -/
def lexLtB : List Nat → List Nat → Bool
  | _, [] => false
  | [], _ :: _ => true
  | a :: as, b :: bs =>
    if a < b then true else if b < a then false else lexLtB as bs

/-- The sorting relation `std::sort(elements, lexOrder)` establishes:
consecutive sorted elements `e`, `f` satisfy `¬ lexOrder(f, e)`. -/
def cooLe (e f : (List Nat × V)) : Prop := lexLtB f.1 e.1 = false

instance : DecidableRel (fun (e f : (List Nat × V)) => cooLe e f) := by
  intro e f
  unfold cooLe
  infer_instance

/-- `from_coordinates`: the storage constructor
`SparseTensorStorage(szs, perm, sparsity, tensor)` with a coordinate-scheme
source.  It stores the reverse permutation (`rev[perm[r]] = r`), seeds each
compressed dimension's pointer buffer with `[0]`, lexicographically sorts the
elements (`tensor->sort()`), and runs `fromCOO` over the whole element
range.  The insertion cursor `idx` is sized to the rank. -/
def buildStorage (zero : V) (sizes : List Nat) (perm : List Nat)
    (sparsity : List Bool) (elems : List (List Nat × V)) : TensorData V :=
  let rank := sizes.length
  let sorted := List.insertionSort (fun e f => cooLe e f) elems
  let D := fromCOOF zero (sizes.zip sparsity) (List.replicate rank 0) sorted
  { sizes := sizes
    rev := (List.range rank).map (fun i => List.indexOf i perm)
    idx := List.replicate rank 0
    pointers := List.zipWith (· ++ ·)
      (sparsity.map (fun c => if c then ([0] : List Nat) else [])) D.ptrs
    indices := D.idxs
    values := D.vals }

/-! ## Integrity verification (`verify`, lines 766-948)

A faithful Bool-valued translation: every `fprintf` + `rv = false` pair is a
conjunct, every `return false` an early exit (`none` below), in source
order.  The helpers `issorted` and `isincreasing` (lines 78-112) are
translated on the extracted sublists. -/

def issortedB : List Nat → Bool
  | [] => true
  | [_] => true
  | a :: b :: rest => (a ≤ b) && issortedB (b :: rest)

def isincreasingB : List Nat → Bool
  | [] => true
  | [_] => true
  | a :: b :: rest => (a < b) && isincreasingB (b :: rest)

/-- The `check_idx` segment loop: `start = ptr[0]`, then for each later
pointer entry `end`, fail if `end > len(idx)`, otherwise require
`isincreasing(idx, start, end)`. -/
def segIncOk (idx : List Nat) : Nat → List Nat → Bool
  | _, [] => true
  | start, e :: rest =>
    (if idx.length < e then false
     else isincreasingB ((idx.drop start).take (e - start))) &&
    segIncOk idx e rest

/-- The per-dimension loop of `verify`.  State:
`(rv, is_dense, cum_size, prev_ptr_len, prev_idx_len)`; `none` models an
early `return false`. -/
def verifyLoop : List (Nat × List Nat × List Nat) → Nat →
    (Bool × Bool × Nat × Nat × Nat) → Option (Bool × Bool × Nat × Nat × Nat)
  | [], _, st => some st
  | (size, ptr, idx) :: rest, dim, (rv, is_dense, cum, pp, pi) =>
    if size = 0 then none
    else
      let cum1 := cum * size
      if ptr.length = 0 then
        verifyLoop rest (dim + 1)
          (rv && decide (idx.length = 0), is_dense, cum1, pp, pi)
      else
        let lenOk :=
          if dim = 0 then
            decide (2 ≤ ptr.length) &&
            decide (ptr.length ≤ max 2 (idx.length + 1))
          else
            (if is_dense then decide (ptr.length = cum1 / size + 1)
             else decide (ptr.length ≤ idx.length + 1)) &&
            decide (1 ≤ ptr.length)
        let cbig := decide (ptr.length ≤ cum1 + 1) &&
          decide (idx.length ≤ cum1)
        let csort := issortedB ptr
        let cfirst := decide (ptr.getD 0 0 = 0)
        let clast := decide (ptr.getD (ptr.length - 1) 0 = idx.length)
        let cbound := idx.all (fun i => decide (i < size))
        let check_idx := csort && cfirst && clast && cbound
        let cseg := if check_idx
          then segIncOk idx (ptr.getD 0 0) (ptr.drop 1) else true
        let cred := decide (pi < ptr.length) && decide (pi ≤ idx.length) &&
          decide (pp ≤ ptr.length + 1) && decide (pp ≤ idx.length + 2)
        verifyLoop rest (dim + 1)
          (rv && lenOk && cbig && check_idx && cseg && cred,
           false, cum1, ptr.length, idx.length)

/-- `verify()`. -/
def verifyF (T : TensorData V) : Bool :=
  let ndim := T.sizes.length
  if ndim = 0 then false
  else
    let revOk :=
      if T.rev.length ≠ ndim then false
      else
        let marks := T.rev.foldl
          (fun (z : List Nat) i => if ndim ≤ i then z else z.set i 1)
          (List.replicate ndim 0)
        T.rev.all (fun i => decide (i < ndim)) &&
          marks.all (fun z => decide (z ≠ 0))
    if T.pointers.length ≠ ndim then false
    else if T.indices.length ≠ ndim then false
    else if T.sizes.length ≠ ndim then false
    else
      match verifyLoop
          ((T.sizes.zip (T.pointers.zip T.indices)).map
            (fun x => (x.1, x.2.1, x.2.2)))
          0 (revOk, true, 1, 0, 0) with
      | none => false
      | some (rv, is_dense, cum, _, pi) =>
        if is_dense then rv && decide (cum = T.values.length)
        else rv && decide (pi = T.values.length)

/-! ## The §8 example data (matrix_multiply.mlir)

`A = [[0,1,2,0],[0,0,0,3]]` and `B = [[0,7],[4,0],[5,0],[6,8]]` as CSR
buffers, the mask `[[9,0],[0,8]]`, and `B` flipped to CSC exactly as the
DWIM rewrite does — by a layout conversion. -/
def Aex : SparseBuf Int := ⟨2, 4, [0, 2, 3], [1, 2, 3], [1, 2, 3]⟩

def BexCSR : SparseBuf Int := ⟨4, 2, [0, 1, 2, 3, 5], [1, 0, 0, 0, 1], [7, 4, 5, 6, 8]⟩

def BexCSC : SparseBuf Int := transpose BexCSR

def maskEx : SparseBuf Int := ⟨2, 2, [0, 1, 2], [0, 1], [9, 8]⟩

/-- A one-element heap holding a small CSR tensor, for the C6 witness. -/
def heapEx : List (TensorData Int) :=
  [⟨[2, 2], [0, 1], [0, 0], [[], [0, 1, 2]], [[], [0, 1]], [3, 4]⟩]

/-- Whether an operation hit a C++ `assert`. -/
def isErr (x : Except String α) : Bool :=
  match x with
  | .error _ => true
  | .ok _ => false

/-- The cursor is lexicographically greater than the previous insertion
cursor: at the first differing dimension (below the rank) the cursor is
larger. -/
def cursorAdvances (idx cursor : List Nat) (rank : Nat) : Prop :=
  ∃ r ∈ List.range rank,
    (∀ s ∈ List.range r, cursor.getD s 0 = idx.getD s 0) ∧
    idx.getD r 0 < cursor.getD r 0

/-- The pointer entries successive inner-dimension calls produce: one
running total per processed segment, starting from index count `o`. -/
def cumCounts (o : Nat) : List Nat → List Nat
  | [] => []
  | n :: ns => (o + n) :: cumCounts (o + n) ns

/-- The per-row decomposition of a dense dimension: gaps before each group,
the group itself, and the trailing gap up to the extent. -/
def rowsOfGroups (full sz : Nat) : List (Nat × List α) → List (List α)
  | [] => List.replicate (sz - full) []
  | (i, g) :: gs => List.replicate (i - full) [] ++ [g] ++ rowsOfGroups (i + 1) sz gs

/-- One step of the dense-dimension loop of `fromCOO`: fill the gap up to
the group's coordinate with `endDim`, recurse into the group, and advance
`full` past it. -/
def denseStep {V : Type} (zero : V) (rest : List (Nat × Bool))
    (off' : List Nat) (st : Deltas V × Nat)
    (g : Nat × List (List Nat × V)) : Deltas V × Nat :=
  let D1 := iterEndDim zero rest off' st.1 (g.1 - st.2)
  let D2 := D1.append (fromCOOF zero rest (offAfter off' D1) g.2)
  (D2, max st.2 g.1 + 1)

/-- Run deduplication of a coordinate list: of every run of elements with
the same full coordinate, keep the first (the element whose value
`fromCOO`'s `values.push_back(elements[lo].value)` stores). -/
def dedupRuns : List (List Nat × V) → List (List Nat × V)
  | [] => []
  | e :: rest =>
    e :: dedupRuns (rest.dropWhile (fun f => f.1 = e.1))
termination_by l => l.length
decreasing_by
  simp only [List.length_cons]
  exact Nat.lt_succ_of_le ((rest.dropWhile_sublist _).length_le)

theorem ptrsFrom_length (a : Nat) (segs : List (List (Nat × V))) :
    (ptrsFrom a segs).length = segs.length + 1 := by
  induction segs generalizing a with
  | nil => rfl
  | cons g gs ih => simp [ptrsFrom, ih]

theorem zip_flatMap_fst_snd (segs : List (List (Nat × V))) :
    ((segs.flatMap (fun g => g.map Prod.fst)).zip
      (segs.flatMap (fun g => g.map Prod.snd))) = segs.flatten := by
  induction segs with
  | nil => rfl
  | cons g gs ih =>
    simp only [List.flatMap_cons, List.flatten_cons]
    rw [List.zip_append (by simp), ih, List.zip_map']
    simp

theorem ptrsFrom_getD_zero (a : Nat) (segs : List (List (Nat × V))) :
    (ptrsFrom a segs).getD 0 0 = a := by
  cases segs <;> rfl

/-- Core extraction lemma: reading segment `s` of an assembled tensor through
the pointer buffers returns exactly the `s`-th segment list. -/
theorem segmentPairs_ofSegs (ninner : Nat) (segs : List (List (Nat × V)))
    (s : Nat) (hs : s < segs.length) :
    segmentPairs (ofSegs ninner segs) s = segs.get ⟨s, hs⟩ := by
  suffices h : ∀ (segs : List (List (Nat × V))) (s : Nat) (hs : s < segs.length)
      (pre : List (Nat × V)),
      (((pre ++ segs.flatten).drop ((ptrsFrom pre.length segs).getD s 0)).take
        ((ptrsFrom pre.length segs).getD (s + 1) 0 -
          (ptrsFrom pre.length segs).getD s 0)) = segs.get ⟨s, hs⟩ by
    have := h segs s hs []
    simpa [segmentPairs, ofSegs, ptrAt, zip_flatMap_fst_snd] using this
  intro segs
  induction segs with
  | nil => intro s hs; exact absurd hs (by simp)
  | cons g gs ih =>
    intro s hs pre
    cases s with
    | zero =>
      have h0 : (ptrsFrom pre.length (g :: gs)).getD 0 0 = pre.length := rfl
      have h1 : (ptrsFrom pre.length (g :: gs)).getD 1 0 =
          pre.length + g.length := ptrsFrom_getD_zero _ _
      rw [h0, h1]
      simp only [List.flatten_cons, List.get]
      rw [show pre ++ (g ++ gs.flatten) = pre ++ g ++ gs.flatten by simp,
        List.drop_append_of_le_length (by simp), List.drop_left]
      rw [Nat.add_sub_cancel_left]
      rw [List.take_append_of_le_length (by simp), List.take_length]
    | succ s =>
      have hs' : s < gs.length := by simpa using hs
      have hpf : ptrsFrom pre.length (g :: gs) =
          pre.length :: ptrsFrom (pre.length + g.length) gs := rfl
      have hlen : (pre ++ g).length = pre.length + g.length := by simp
      have := ih s hs' (pre ++ g)
      rw [hlen] at this
      rw [hpf]
      simp only [List.getD_cons_succ, List.flatten_cons, List.get]
      rw [show pre ++ (g ++ gs.flatten) = (pre ++ g) ++ gs.flatten by simp]
      exact this

theorem flatMap_filter_eq_of_not_mem (xs : List α) (x : α) (key : α → Nat)
    (cs : List Nat) (h : ∀ c ∈ cs, ¬ key x = c) :
    cs.flatMap (fun c => (x :: xs).filter (fun y => key y = c)) =
      cs.flatMap (fun c => xs.filter (fun y => key y = c)) := by
  induction cs with
  | nil => rfl
  | cons c cs ih =>
    simp only [List.flatMap_cons]
    rw [ih (fun d hd => h d (List.mem_cons_of_mem _ hd))]
    congr 1
    rw [List.filter_cons]
    simp [h c (List.mem_cons_self c cs)]

theorem flatMap_filter_cons_perm (xs : List α) (x : α) (key : α → Nat)
    (cs : List Nat) (hnd : cs.Nodup) (hmem : key x ∈ cs) :
    (cs.flatMap (fun c => (x :: xs).filter (fun y => key y = c))).Perm
      (x :: cs.flatMap (fun c => xs.filter (fun y => key y = c))) := by
  induction cs with
  | nil => exact absurd hmem (by simp)
  | cons c cs ih =>
    rcases List.mem_cons.mp hmem with hc | hc
    · subst hc
      have hrest : ∀ d ∈ cs, ¬ key x = d := by
        intro d hd he
        exact (List.nodup_cons.mp hnd).1 (he ▸ hd)
      simp only [List.flatMap_cons]
      rw [flatMap_filter_eq_of_not_mem xs x key cs hrest]
      rw [List.filter_cons_of_pos (by simp)]
      simp
    · have hne : ¬ key x = c := by
        intro he
        exact (List.nodup_cons.mp hnd).1 (he ▸ hc)
      simp only [List.flatMap_cons]
      rw [List.filter_cons_of_neg (by simp [hne])]
      exact List.Perm.trans
        (List.Perm.append_left _ (ih (List.nodup_cons.mp hnd).2 hc))
        List.perm_middle

/-- Distributing a list over the fibers of a `Nat`-valued key and
concatenating the fibers in key order permutes the list. -/
theorem flatMap_filter_key_perm (l : List α) (key : α → Nat) (n : Nat)
    (h : ∀ x ∈ l, key x < n) :
    ((List.range n).flatMap (fun c => l.filter (fun y => key y = c))).Perm l := by
  induction l with
  | nil => simp
  | cons x xs ih =>
    have hx : key x ∈ List.range n := List.mem_range.mpr (h x (by simp))
    exact List.Perm.trans
      (flatMap_filter_cons_perm xs x key _ (List.nodup_range n) hx)
      (List.Perm.cons x (ih (fun y hy => h y (List.mem_cons_of_mem _ hy))))

theorem flatMap_congr_mem {l : List α} {f g : α → List β}
    (h : ∀ a ∈ l, f a = g a) : l.flatMap f = l.flatMap g := by
  induction l with
  | nil => rfl
  | cons a l ih =>
    simp only [List.flatMap_cons]
    rw [h a (by simp), ih (fun b hb => h b (List.mem_cons_of_mem _ hb))]

theorem allTriples_ofSegs (n : Nat) (segs : List (List (Nat × V))) :
    allTriples (ofSegs n segs) =
      (List.range segs.length).flatMap
        (fun s => (segs.getD s []).map (fun p => (s, p.1, p.2))) := by
  have hn : (ofSegs n segs).nouter = segs.length := rfl
  unfold allTriples
  rw [hn]
  apply flatMap_congr_mem
  intro s hs
  have hlt : s < segs.length := List.mem_range.mp hs
  rw [segmentPairs_ofSegs n segs s hlt, List.getD_eq_getElem?_getD,
    List.getElem?_eq_getElem hlt]
  simp

theorem tripleSwap_tripleSwap (t : Nat × Nat × V) :
    tripleSwap (tripleSwap t) = t := rfl

theorem allTriples_fst_lt (M : SparseBuf V) :
    ∀ t ∈ allTriples M, t.1 < M.nouter := by
  intro t ht
  unfold allTriples at ht
  rcases List.mem_flatMap.mp ht with ⟨s, hs, hmem⟩
  rcases List.mem_map.mp hmem with ⟨p, _, rfl⟩
  exact List.mem_range.mp hs

/-- The entries of the counting-sort transpose are a permutation of the input
entries with the two coordinates exchanged, provided the stored indices are in
bounds. -/
theorem allTriples_transpose_perm (M : SparseBuf V)
    (h : ∀ t ∈ allTriples M, t.2.1 < M.ninner) :
    (allTriples (transpose M)).Perm ((allTriples M).map tripleSwap) := by
  unfold transpose
  rw [allTriples_ofSegs]
  have hlen : ((List.range M.ninner).map (fun c =>
      ((allTriples M).filter (fun t => t.2.1 = c)).map
        (fun t => (t.1, t.2.2)))).length = M.ninner := by simp
  rw [hlen]
  have hstep : ∀ c ∈ List.range M.ninner,
      ((((List.range M.ninner).map (fun c =>
        ((allTriples M).filter (fun t => t.2.1 = c)).map
          (fun t => (t.1, t.2.2)))).getD c []).map (fun p => (c, p.1, p.2))) =
      (((allTriples M).map tripleSwap).filter (fun t => t.1 = c)) := by
    intro c hc
    have hclt : c < M.ninner := List.mem_range.mp hc
    rw [List.getD_eq_getElem?_getD, List.getElem?_map,
      List.getElem?_range hclt]
    simp only [Option.map_some', Option.getD_some, List.map_map]
    rw [List.filter_map]
    have hpred : ((fun t : Nat × Nat × V => decide (t.1 = c)) ∘ tripleSwap) =
        (fun t : Nat × Nat × V => decide (t.2.1 = c)) := rfl
    rw [hpred]
    apply List.map_congr_left
    intro t ht
    have hte : t.2.1 = c := by
      have := (List.mem_filter.mp ht).2
      exact of_decide_eq_true this
    simp [Function.comp, tripleSwap, hte]
  rw [flatMap_congr_mem hstep]
  apply flatMap_filter_key_perm
  intro t ht
  rcases List.mem_map.mp ht with ⟨u, hu, rfl⟩
  exact h u hu

theorem allTriples_transpose_bound (M : SparseBuf V) :
    ∀ t ∈ allTriples (transpose M), t.2.1 < (transpose M).ninner := by
  intro t ht
  unfold transpose at ht
  rw [allTriples_ofSegs] at ht
  rcases List.mem_flatMap.mp ht with ⟨s, _, hmem⟩
  rcases List.mem_map.mp hmem with ⟨p, hp, rfl⟩
  simp only [List.getD_eq_getElem?_getD] at hp
  by_cases hs : s < M.ninner
  · rw [List.getElem?_map, List.getElem?_range hs] at hp
    simp only [Option.map_some', Option.getD_some] at hp
    rcases List.mem_map.mp hp with ⟨u, hu, rfl⟩
    have := allTriples_fst_lt M u (List.mem_filter.mp hu).1
    simpa [transpose, ofSegs] using this
  · rw [List.getElem?_map] at hp
    rw [List.getElem?_eq_none (by simpa using Nat.le_of_not_lt hs)] at hp
    simp at hp

theorem lexLtB_trichotomy (a b : List Nat) :
    lexLtB a b = true ∨ lexLtB b a = true ∨ a = b := by
  induction a generalizing b with
  | nil => cases b with
    | nil => right; right; rfl
    | cons x xs => left; rfl
  | cons x xs ih =>
    cases b with
    | nil => right; left; rfl
    | cons y ys =>
      by_cases hxy : x < y
      · left; simp [lexLtB, hxy]
      · by_cases hyx : y < x
        · right; left; simp [lexLtB, hyx]
        · have hxyeq : x = y := Nat.le_antisymm (Nat.le_of_not_lt hyx) (Nat.le_of_not_lt hxy)
          subst hxyeq
          rcases ih ys with h | h | h
          · left; simp [lexLtB, h]
          · right; left; simp [lexLtB, h]
          · right; right; rw [h]

theorem lexLtB_irrefl (a : List Nat) : lexLtB a a = false := by
  induction a with
  | nil => rfl
  | cons x xs ih => simp [lexLtB, ih]

theorem lexLtB_asymm (a b : List Nat) (h : lexLtB a b = true) :
    lexLtB b a = false := by
  induction a generalizing b with
  | nil => cases b with
    | nil => rfl
    | cons y ys => rfl
  | cons x xs ih =>
    cases b with
    | nil => exact absurd h (by simp [lexLtB])
    | cons y ys =>
      by_cases hxy : x < y
      · show (if y < x then true else if x < y then false else lexLtB ys xs) = false
        rw [if_neg (Nat.lt_asymm hxy), if_pos hxy]
      · by_cases hyx : y < x
        · simp [lexLtB, hxy, hyx] at h
        · have hxyeq : x = y := Nat.le_antisymm (Nat.le_of_not_lt hyx) (Nat.le_of_not_lt hxy)
          subst hxyeq
          simp only [lexLtB, if_neg hxy, if_neg hxy] at h ⊢
          exact ih ys h

theorem lexLtB_trans (a b c : List Nat) (hab : lexLtB a b = true)
    (hbc : lexLtB b c = true) : lexLtB a c = true := by
  induction a generalizing b c with
  | nil =>
    cases c with
    | nil =>
      cases b with
      | nil => exact hab
      | cons y ys => exact absurd hbc (by simp [lexLtB])
    | cons z zs => rfl
  | cons x xs ih =>
    cases b with
    | nil => exact absurd hab (by simp [lexLtB])
    | cons y ys =>
      cases c with
      | nil => exact absurd hbc (by simp [lexLtB])
      | cons z zs =>
        simp only [lexLtB] at hab hbc ⊢
        by_cases hxy : x < y
        · by_cases hyz : y < z
          · simp [Nat.lt_trans hxy hyz]
          · by_cases hzy : z < y
            · simp [lexLtB, hyz, hzy] at hbc
            · have : y = z := Nat.le_antisymm (Nat.le_of_not_lt hzy) (Nat.le_of_not_lt hyz)
              subst this
              simp [hxy]
        · by_cases hyx : y < x
          · simp [hxy, hyx] at hab
          · have : x = y := Nat.le_antisymm (Nat.le_of_not_lt hyx) (Nat.le_of_not_lt hxy)
            subst this
            rw [if_neg hxy, if_neg hxy] at hab
            by_cases hyz : x < z
            · simp [hyz]
            · by_cases hzy : z < x
              · simp [hyz, hzy] at hbc
              · have : x = z := Nat.le_antisymm (Nat.le_of_not_lt hzy) (Nat.le_of_not_lt hyz)
                subst this
                rw [if_neg hyz, if_neg hyz] at hbc ⊢
                exact ih ys zs hab hbc

instance : IsTotal (List Nat × V) (fun e f => cooLe e f) := by
  constructor
  intro e f
  unfold cooLe
  rcases lexLtB_trichotomy e.1 f.1 with h | h | h
  · left; exact lexLtB_asymm _ _ h
  · right; exact lexLtB_asymm _ _ h
  · left; rw [h]; exact lexLtB_irrefl _

instance : IsTrans (List Nat × V) (fun e f => cooLe e f) := by
  constructor
  intro a b c hab hbc
  unfold cooLe at hab hbc ⊢
  by_contra h
  have hca : lexLtB c.1 a.1 = true := by
    cases hv : lexLtB c.1 a.1
    · exact absurd hv h
    · rfl
  rcases lexLtB_trichotomy a.1 b.1 with h1 | h1 | h1
  · rcases lexLtB_trichotomy b.1 c.1 with h2 | h2 | h2
    · have := lexLtB_trans _ _ _ (lexLtB_trans _ _ _ h1 h2) hca
      rw [lexLtB_irrefl] at this
      exact absurd this (by simp)
    · rw [hbc] at h2
      exact absurd h2 (by simp)
    · rw [← h2] at hca
      rw [hab] at hca
      exact absurd hca (by simp)
  · rw [h1] at hab
    exact absurd hab (by simp)
  · rcases lexLtB_trichotomy b.1 c.1 with h2 | h2 | h2
    · have := lexLtB_trans _ _ _ h2 hca
      rw [h1, lexLtB_irrefl] at this
      exact absurd this (by simp)
    · rw [hbc] at h2
      exact absurd h2 (by simp)
    · rw [← h2, ← h1, lexLtB_irrefl] at hca
      exact absurd hca (by simp)

example : BexCSC = ⟨2, 4, [0, 3, 5], [1, 2, 3, 0, 3], [4, 5, 6, 7, 8]⟩ := by decide

example : multiply plusTimes Aex BexCSC none false =
    ⟨2, 2, [0, 1, 3], [0, 0, 1], [14, 18, 24]⟩ := by decide

example : multiply plusTimes Aex BexCSC (some maskEx) false =
    ⟨2, 2, [0, 1, 2], [0, 1], [14, 24]⟩ := by decide

/-! ## Claim theorems -/

/-- C10: when the requested target layout of `convert_layout` is identical to
the tensor's current layout, the operation returns the input tensor itself
unchanged — the `inputType == outputType` shortcut replaces the op by its own
operand, building no new buffers. -/
theorem claim10_convertLayout_identity (T : SpMatrix V) :
    convertLayout T T.csc = T := by
  simp [convertLayout]

/-- C7: `num_vals()` returns the last entry of the compressed dimension's
pointer sequence (the load at position `npointers = nouter`), which for a
well-formed tensor is the stored-nonzero count. -/
theorem claim7_numVals (M : SparseBuf V) (h : WfBuf M) :
    numVals M = M.ptr.getD (M.ptr.length - 1) 0 ∧
    numVals M = M.val.length := by
  obtain ⟨hlen, _, _, hlast, hvals, _⟩ := h
  constructor
  · unfold numVals ptrAt
    rw [hlen]
    simp
  · unfold numVals
    rw [hlast, hvals]

/-- Witness for C7 at a concrete rank-1 sparse vector with two stored
values. -/
theorem claim7_numVals_witness :
    WfBuf (⟨1, 3, [0, 2], [0, 2], [(5 : Int), 7]⟩ : SparseBuf Int) ∧
    (numVals (⟨1, 3, [0, 2], [0, 2], [(5 : Int), 7]⟩ : SparseBuf Int) = 2 ∧
     numVals (⟨1, 3, [0, 2], [0, 2], [(5 : Int), 7]⟩ : SparseBuf Int) = 2) := by
  have hwf : WfBuf (⟨1, 3, [0, 2], [0, 2], [(5 : Int), 7]⟩ : SparseBuf Int) := by
    unfold WfBuf
    decide
  refine ⟨hwf, ?_⟩
  have := claim7_numVals _ hwf
  simpa using this

/-- C6: `duplicate` (`dup()`, which allocates
`new SparseTensorStorage<P,I,V>(this)`, a member-wise copy) returns a fresh
object at a fresh address; mutating any buffer of the duplicate through any
of the storage mutation methods leaves every buffer of the original
untouched, and vice versa. -/
theorem claim6_dup_independence (h : List (TensorData V)) (a : Nat) (pad : V)
    (ha : a < h.length) :
    (dupAt h a).2 ≠ a ∧
    ((dupAt h a).1).getD a emptyTD = h.getD a emptyTD ∧
    (∀ m : Mut V,
      (applyMutAt (dupAt h a).1 (dupAt h a).2 m pad).getD a emptyTD =
        h.getD a emptyTD) ∧
    (∀ m : Mut V,
      (applyMutAt (dupAt h a).1 a m pad).getD (dupAt h a).2 emptyTD =
        ((dupAt h a).1).getD (dupAt h a).2 emptyTD) := by
  have hne : h.length ≠ a := Nat.ne_of_gt ha
  have hgetD : ∀ (l : List (TensorData V)) (x : TensorData V),
      (h ++ [x]).getD a emptyTD = h.getD a emptyTD := by
    intro _ x
    rw [List.getD_eq_getElem?_getD, List.getD_eq_getElem?_getD,
      List.getElem?_append_left ha]
  refine ⟨hne, hgetD h _, ?_, ?_⟩
  · intro m
    unfold applyMutAt dupAt
    rw [List.getD_eq_getElem?_getD, List.getElem?_set_ne (by simpa using hne),
      ← List.getD_eq_getElem?_getD]
    exact hgetD h _
  · intro m
    unfold applyMutAt dupAt
    rw [List.getD_eq_getElem?_getD, List.getElem?_set_ne (by simpa using hne.symm),
      ← List.getD_eq_getElem?_getD]

/-- Witness for C6: the duplicate lives at address 1 and resizing a value
buffer on either side leaves the other side unchanged. -/
theorem claim6_dup_independence_witness :
    (dupAt heapEx 0).2 ≠ 0 ∧
    ((dupAt heapEx 0).1).getD 0 emptyTD = heapEx.getD 0 emptyTD ∧
    (applyMutAt (dupAt heapEx 0).1 (dupAt heapEx 0).2
      (Mut.resizeValues 5) 0).getD 0 emptyTD = heapEx.getD 0 emptyTD ∧
    (applyMutAt (dupAt heapEx 0).1 0 (Mut.resizeValues 5) 0).getD
      (dupAt heapEx 0).2 emptyTD =
      ((dupAt heapEx 0).1).getD (dupAt heapEx 0).2 emptyTD := by
  obtain ⟨h1, h2, h3, h4⟩ :=
    claim6_dup_independence heapEx 0 (0 : Int) (by decide)
  exact ⟨h1, h2, h3 _, h4 _⟩

theorem verifyLoop_zero_size (dims : List (Nat × List Nat × List Nat)) :
    ∀ (dim : Nat) (st : Bool × Bool × Nat × Nat × Nat),
      (∃ x ∈ dims, x.1 = 0) → verifyLoop dims dim st = none := by
  induction dims with
  | nil => intro _ _ hx; exact absurd hx (by simp)
  | cons d rest ih =>
    intro dim st hx
    obtain ⟨size, ptr, idx⟩ := d
    obtain ⟨rv, is_dense, cum, pp, pi⟩ := st
    rcases hx with ⟨x, hmem, hx0⟩
    rcases List.mem_cons.mp hmem with rfl | hmem'
    · simp only at hx0
      unfold verifyLoop
      rw [if_pos hx0]
    · unfold verifyLoop
      by_cases hsz : size = 0
      · rw [if_pos hsz]
      · rw [if_neg hsz]
        by_cases hptr : ptr.length = 0
        · rw [if_pos hptr]
          exact ih _ _ ⟨x, hmem', hx0⟩
        · rw [if_neg hptr]
          exact ih _ _ ⟨x, hmem', hx0⟩

/-- C9: `verify()` returns false for every tensor of rank 0 (the
`ndim == 0` early exit) and for every tensor with a dimension of extent 0
(the `size <= 0` early exit inside the dimension loop), regardless of the
contents of the pointer, index, and value buffers. -/
theorem claim9_verify_empty_shape (T : TensorData V)
    (h : T.sizes.length = 0 ∨ 0 ∈ T.sizes) : verifyF T = false := by
  unfold verifyF
  rcases h with h0 | hmem
  · rw [if_pos h0]
  · by_cases hrank : T.sizes.length = 0
    · rw [if_pos hrank]
    · rw [if_neg hrank]
      by_cases hp : T.pointers.length ≠ T.sizes.length
      · simp only [if_pos hp]
      · rw [if_neg hp]
        by_cases hi : T.indices.length ≠ T.sizes.length
        · simp only [if_pos hi]
        · rw [if_neg hi]
          rw [if_neg (by simp)]
          have hx : ∃ x ∈ ((T.sizes.zip (T.pointers.zip T.indices)).map
              (fun x => (x.1, x.2.1, x.2.2))), x.1 = 0 := by
            push_neg at hp hi
            rcases List.mem_iff_getElem.mp hmem with ⟨k, hk, hk0⟩
            have hkz : k < (T.sizes.zip (T.pointers.zip T.indices)).length := by
              rw [List.length_zip, List.length_zip, hp, hi]
              simp [hk]
            have hkm : k < ((T.sizes.zip (T.pointers.zip T.indices)).map
                (fun x => (x.1, x.2.1, x.2.2))).length := by simpa using hkz
            exact ⟨_, List.getElem_mem hkm,
              by rw [List.getElem_map, List.getElem_zip]; simpa using hk0⟩
          rw [verifyLoop_zero_size _ 0 _ hx]

/-- Witness for C9 at a rank-0 tensor and at a 2×0 tensor. -/
theorem claim9_verify_empty_shape_witness :
    verifyF (emptyTD : TensorData Int) = false ∧
    verifyF (⟨[2, 0], [0, 1], [0, 0], [[], [0]], [[], []], []⟩ :
      TensorData Int) = false :=
  ⟨claim9_verify_empty_shape _ (Or.inl rfl),
   claim9_verify_empty_shape _ (Or.inr (by decide))⟩

/-- Reading a row of the multiplication result returns that row's surviving
columns paired with their inner products. -/
theorem segmentPairs_multiply (sr : SemiringOps V) (A B : SparseBuf V)
    (mask : Option (SparseBuf V)) (cmp : Bool) (r : Nat) (hr : r < A.nouter) :
    segmentPairs (multiply sr A B mask cmp) r =
      (survivors A B mask cmp r).map (fun j => (j, dotProduct sr A B r j)) := by
  unfold multiply
  rw [segmentPairs_ofSegs _ _ r (by simpa using hr)]
  simp

/-- Rows past the end of the result are empty segments. -/
theorem segmentPairs_multiply_oob (sr : SemiringOps V) (A B : SparseBuf V)
    (mask : Option (SparseBuf V)) (cmp : Bool) (r : Nat) (hr : A.nouter ≤ r) :
    segmentPairs (multiply sr A B mask cmp) r = [] := by
  unfold multiply ofSegs segmentPairs ptrAt
  have hlen : (ptrsFrom 0 ((List.range A.nouter).map (fun r =>
      (survivors A B mask cmp r).map (fun j => (j, dotProduct sr A B r j))))).length =
      A.nouter + 1 := by
    rw [ptrsFrom_length]
    simp
  have hoob : (ptrsFrom 0 ((List.range A.nouter).map (fun r =>
      (survivors A B mask cmp r).map (fun j => (j, dotProduct sr A B r j))))).getD
      (r + 1) 0 = 0 := by
    apply List.getD_eq_default
    rw [hlen]
    omega
  simp only at hoob ⊢
  rw [hoob]
  simp

/-- C1: `multiply(A, B)` (no mask) has the shape (rows of A) × (columns of
B); every stored value at `(i, j)` is the semiring sum, over exactly the
contraction indices stored in both row `i` of `A` and column `j` of `B`, of
the products of the operand values; and on the §8 example (`plus_times`,
`A = [[0,1,2,0],[0,0,0,3]]`, `B = [[0,7],[4,0],[5,0],[6,8]]`) the result is
`[[14,_],[18,24]]` — stored entries 14, 18, 24 with the zeros absent. -/
theorem claim1_multiply_shape_value_law :
    (∀ (V : Type) (sr : SemiringOps V) (A B : SparseBuf V),
      (multiply sr A B none false).nouter = A.nouter ∧
      (multiply sr A B none false).ninner = B.nouter) ∧
    (∀ (V : Type) (sr : SemiringOps V) (A B : SparseBuf V) (r j : Nat) (v : V),
      entryAt (multiply sr A B none false) r j = some v →
        v = dotProduct sr A B r j) ∧
    multiply plusTimes Aex BexCSC none false =
      ⟨2, 2, [0, 1, 3], [0, 0, 1], [14, 18, 24]⟩ := by
  refine ⟨?_, ?_, by decide⟩
  · intro V sr A B
    constructor
    · show ((List.range A.nouter).map _).length = A.nouter
      simp
    · rfl
  · intro V sr A B r j v hv
    unfold entryAt at hv
    by_cases hr : r < A.nouter
    · rw [segmentPairs_multiply sr A B none false r hr] at hv
      rcases hfind : (((survivors A B none false r).map
          (fun j => (j, dotProduct sr A B r j))).find? (fun p => p.1 = j)) with
        _ | q
      · rw [hfind] at hv
        exact absurd hv (by simp)
      · rw [hfind] at hv
        have hq : q ∈ ((survivors A B none false r).map
            (fun j => (j, dotProduct sr A B r j))) := List.mem_of_find?_eq_some hfind
        have hqj : q.1 = j := by
          have := List.find?_some hfind
          exact of_decide_eq_true this
        rcases List.mem_map.mp hq with ⟨j', _, rfl⟩
        simp only at hqj
        subst hqj
        simp only [Option.map_some', Option.some_inj] at hv
        exact hv.symm
    · rw [segmentPairs_multiply_oob sr A B none false r (Nat.le_of_not_lt hr)] at hv
      exact absurd hv (by simp)

/-- Witness for C1: the stored entry at (0,0) of the example product is 14
and equals the semiring inner product. -/
theorem claim1_multiply_shape_value_law_witness :
    entryAt (multiply plusTimes Aex BexCSC none false) 0 0 = some 14 ∧
    (14 : Int) = dotProduct plusTimes Aex BexCSC 0 0 :=
  ⟨by decide,
   claim1_multiply_shape_value_law.2.1 Int plusTimes Aex BexCSC 0 0 14 (by decide)⟩

theorem mem_segmentInds_mem_ind (M : SparseBuf V) (r j : Nat)
    (h : j ∈ segmentInds M r) : j ∈ M.ind := by
  unfold segmentInds segmentPairs at h
  rcases List.mem_map.mp h with ⟨p, hp, rfl⟩
  have h1 : p ∈ M.ind.zip M.val :=
    List.mem_of_mem_drop (List.mem_of_mem_take hp)
  exact (List.of_mem_zip h1).1

/-- C2: every index stored in a row of the masked product is stored in the
same row of the unmasked product and lies in the mask row's index set (in its
complement when `mask_complement = true`); and masking the §8 plus_times
product with `[[9,0],[0,8]]` yields `[[14,_],[_,24]]`, dropping the off-mask
entries `18`. -/
theorem claim2_mask_inclusion :
    (∀ (V : Type) (sr : SemiringOps V) (A B M : SparseBuf V) (cmp : Bool)
      (r j : Nat),
      (∀ i ∈ M.ind, i < B.nouter) →
      j ∈ segmentInds (multiply sr A B (some M) cmp) r →
        j ∈ segmentInds (multiply sr A B none false) r ∧
          (if cmp then j ∉ segmentInds M r else j ∈ segmentInds M r)) ∧
    multiply plusTimes Aex BexCSC (some maskEx) false =
      ⟨2, 2, [0, 1, 2], [0, 1], [14, 24]⟩ := by
  refine ⟨?_, by decide⟩
  intro V sr A B M cmp r j hM hj
  by_cases hr : r < A.nouter
  · unfold segmentInds at hj
    rw [segmentPairs_multiply sr A B (some M) cmp r hr] at hj
    rw [List.map_map] at hj
    have hjs : j ∈ survivors A B (some M) cmp r := by
      rcases List.mem_map.mp hj with ⟨j', hj', he⟩
      have : j' = j := he
      exact this ▸ hj'
    unfold survivors at hjs
    have hallow := (List.mem_filter.mp hjs).1
    have hover := (List.mem_filter.mp hjs).2
    have hjlt : j < B.nouter := by
      unfold allowedCols at hallow
      rcases cmp with _ | _
      · simp only [Bool.false_eq_true, if_neg] at hallow
        exact hM j (mem_segmentInds_mem_ind M r j (by simpa using hallow))
      · simp only [if_pos rfl] at hallow
        unfold maskComplement at hallow
        exact List.mem_range.mp (List.mem_filter.mp hallow).1
    constructor
    · unfold segmentInds
      rw [segmentPairs_multiply sr A B none false r hr, List.map_map]
      refine List.mem_map.mpr ⟨j, ?_, rfl⟩
      unfold survivors allowedCols
      exact List.mem_filter.mpr ⟨List.mem_range.mpr hjlt, hover⟩
    · unfold allowedCols at hallow
      rcases cmp with _ | _
      · simp only [Bool.false_eq_true, if_neg] at hallow
        simpa using hallow
      · simp only [if_pos rfl] at hallow
        unfold maskComplement at hallow
        have := (List.mem_filter.mp hallow).2
        simp only [decide_eq_true_eq] at this
        simpa using this
  · unfold segmentInds at hj
    rw [segmentPairs_multiply_oob sr A B (some M) cmp r (Nat.le_of_not_lt hr)] at hj
    exact absurd hj (by simp)

/-- Witness for C2: at the example, row 1 of the masked product stores
column 1, which the unmasked product also stores and the mask row contains. -/
theorem claim2_mask_inclusion_witness :
    (∀ i ∈ maskEx.ind, i < BexCSC.nouter) ∧
    ((1 : Nat) ∈ segmentInds (multiply plusTimes Aex BexCSC (some maskEx) false) 1 →
      (1 : Nat) ∈ segmentInds (multiply plusTimes Aex BexCSC none false) 1 ∧
        (if false then (1 : Nat) ∉ segmentInds maskEx 1
         else (1 : Nat) ∈ segmentInds maskEx 1)) ∧
    (1 : Nat) ∈ segmentInds (multiply plusTimes Aex BexCSC (some maskEx) false) 1 := by
  refine ⟨by decide, ?_, by decide⟩
  intro hj
  exact claim2_mask_inclusion.1 Int plusTimes Aex BexCSC maskEx false 1 1
    (by decide) hj

/-- C3: converting a tensor's storage layout and converting the result back
yields a tensor with the same layout, the same logical shape, and the same
stored (coordinate, value) pairs (as a permutation of the storage-order
entry list), for either choice of the intermediate layout order, provided
the stored indices are in bounds. -/
theorem claim3_convertLayout_roundtrip (T : SpMatrix V) (ord : Bool)
    (hwf : ∀ t ∈ allTriples T.buf, t.2.1 < T.buf.ninner) :
    (convertLayout (convertLayout T ord) T.csc).csc = T.csc ∧
    (convertLayout (convertLayout T ord) T.csc).buf.nouter = T.buf.nouter ∧
    (convertLayout (convertLayout T ord) T.csc).buf.ninner = T.buf.ninner ∧
    (allTriples (convertLayout (convertLayout T ord) T.csc).buf).Perm
      (allTriples T.buf) := by
  by_cases hord : T.csc = ord
  · have hTo : convertLayout T ord = T := by
      unfold convertLayout
      rw [if_pos hord]
    have hTT : convertLayout T T.csc = T := by
      unfold convertLayout
      rw [if_pos rfl]
    rw [hTo, hTT]
    exact ⟨rfl, rfl, rfl, List.Perm.refl _⟩
  · have h1 : convertLayout T ord = ⟨transpose T.buf, ord⟩ := by
      unfold convertLayout
      rw [if_neg hord]
    have h2 : convertLayout (⟨transpose T.buf, ord⟩ : SpMatrix V) T.csc =
        ⟨transpose (transpose T.buf), T.csc⟩ := by
      unfold convertLayout
      rw [if_neg (by simpa using fun he => hord he.symm)]
    rw [h1, h2]
    refine ⟨rfl, by simp [transpose, ofSegs], by simp [transpose, ofSegs], ?_⟩
    have p1 := allTriples_transpose_perm (transpose T.buf)
      (allTriples_transpose_bound T.buf)
    have p2 := (allTriples_transpose_perm T.buf hwf).map tripleSwap
    have p3 := p1.trans p2
    rw [List.map_map] at p3
    have : (tripleSwap ∘ tripleSwap : Nat × Nat × V → Nat × Nat × V) = id := by
      funext t
      simp [Function.comp, tripleSwap_tripleSwap]
    rw [this, List.map_id] at p3
    exact p3

/-- Witness for C3 at the example matrix `B`: CSR → CSC → CSR restores shape
and entries. -/
theorem claim3_convertLayout_roundtrip_witness :
    (∀ t ∈ allTriples (⟨BexCSR, false⟩ : SpMatrix Int).buf,
      t.2.1 < (⟨BexCSR, false⟩ : SpMatrix Int).buf.ninner) ∧
    ((convertLayout (convertLayout (⟨BexCSR, false⟩ : SpMatrix Int) true)
        false).csc = false ∧
     (convertLayout (convertLayout (⟨BexCSR, false⟩ : SpMatrix Int) true)
        false).buf.nouter = BexCSR.nouter ∧
     (convertLayout (convertLayout (⟨BexCSR, false⟩ : SpMatrix Int) true)
        false).buf.ninner = BexCSR.ninner ∧
     (allTriples (convertLayout (convertLayout (⟨BexCSR, false⟩ : SpMatrix Int)
        true) false).buf).Perm (allTriples BexCSR)) :=
  ⟨by decide, claim3_convertLayout_roundtrip ⟨BexCSR, false⟩ true (by decide)⟩

theorem lexDiffGo_ok_iff (idx cursor : List Nat) :
    ∀ (n r0 : Nat),
      (∃ d, lexDiffGo idx cursor n r0 = .ok d) ↔
        ∃ k ∈ List.range n,
          (∀ s ∈ List.range k, cursor.getD (r0 + s) 0 = idx.getD (r0 + s) 0) ∧
          idx.getD (r0 + k) 0 < cursor.getD (r0 + k) 0 := by
  intro n
  induction n with
  | zero =>
    intro r0
    constructor
    · rintro ⟨d, hd⟩
      exact absurd hd (by unfold lexDiffGo; simp)
    · rintro ⟨k, hk, _⟩
      exact absurd hk (by simp)
  | succ n ih =>
    intro r0
    unfold lexDiffGo
    by_cases hgt : cursor.getD r0 0 > idx.getD r0 0
    · rw [if_pos hgt]
      constructor
      · intro _
        exact ⟨0, List.mem_range.mpr (Nat.succ_pos n), by simp, by simpa using hgt⟩
      · intro _
        exact ⟨r0, rfl⟩
    · rw [if_neg hgt]
      by_cases heq : cursor.getD r0 0 = idx.getD r0 0
      · rw [if_pos heq]
        rw [ih (r0 + 1)]
        constructor
        · rintro ⟨k, hk, hpre, hlt⟩
          refine ⟨k + 1, by simpa using List.mem_range.mp hk, ?_, ?_⟩
          · intro s hs
            rcases Nat.eq_zero_or_pos s with rfl | hpos
            · simpa using heq
            · have hs' : s - 1 ∈ List.range k := by
                have := List.mem_range.mp hs
                exact List.mem_range.mpr (by omega)
              have := hpre (s - 1) hs'
              have hse : r0 + 1 + (s - 1) = r0 + s := by omega
              rwa [hse] at this
          · have hse : r0 + 1 + k = r0 + (k + 1) := by omega
            rwa [← hse]
        · rintro ⟨k, hk, hpre, hlt⟩
          rcases Nat.eq_zero_or_pos k with rfl | hpos
          · simp only [Nat.add_zero] at hlt
            exact absurd hlt (by omega)
          · refine ⟨k - 1, List.mem_range.mpr (by have := List.mem_range.mp hk; omega), ?_, ?_⟩
            · intro s hs
              have := hpre (s + 1) (List.mem_range.mpr (by have := List.mem_range.mp hs; omega))
              have hse : r0 + (s + 1) = r0 + 1 + s := by omega
              rwa [hse] at this
            · have hse : r0 + k = r0 + 1 + (k - 1) := by omega
              rwa [hse] at hlt
      · rw [if_neg heq]
        constructor
        · rintro ⟨d, hd⟩
          exact absurd hd (by simp)
        · rintro ⟨k, hk, hpre, hlt⟩
          rcases Nat.eq_zero_or_pos k with rfl | hpos
          · simp only [Nat.add_zero] at hlt
            omega
          · have := hpre 0 (List.mem_range.mpr hpos)
            simp only [Nat.add_zero] at this
            exact absurd this heq

/-- C8: on a tensor holding at least one value, `lexInsert` hits an internal
assertion (`non-lexicographic insertion` in `lexDiff`, or
`duplication insertion` when the cursor repeats the previous one) exactly
when the cursor fails to be lexicographically greater than the previous
insertion cursor `idx`; under the strictly-increasing precondition the
assertion branches are unreachable and the insertion succeeds. -/
theorem claim8_lexInsert_assert (zero : V) (T : TensorData V)
    (cursor : List Nat) (v : V) (hne : T.values.isEmpty = false) :
    isErr (lexInsert zero T cursor v) = true ↔
      ¬ cursorAdvances T.idx cursor T.sizes.length := by
  unfold lexInsert
  rw [hne]
  simp only [Bool.false_eq_true, if_false]
  have hiff := lexDiffGo_ok_iff T.idx cursor T.sizes.length 0
  simp only [Nat.zero_add] at hiff
  cases hd : lexDiff T cursor with
  | error e =>
    simp only [isErr]
    constructor
    · intro _ hadv
      unfold cursorAdvances at hadv
      have := hiff.mpr hadv
      rcases this with ⟨d, hok⟩
      unfold lexDiff at hd
      rw [hd] at hok
      exact absurd hok (by simp)
    · intro _
      trivial
  | ok diff =>
    simp only [isErr]
    constructor
    · intro hfalse
      exact absurd hfalse (by simp)
    · intro hnadv
      exfalso
      apply hnadv
      unfold cursorAdvances
      apply hiff.mp
      exact ⟨diff, hd⟩

/-- Witness for C8: with previous cursor `[0, 0]`, inserting at `[0, 0]`
again hits the duplication assertion, and `cursorAdvances` is indeed false
there. -/
theorem claim8_lexInsert_assert_witness :
    ((⟨[2, 2], [0, 1], [0, 0], [[], [0, 1]], [[], [0]], [(5 : Int)]⟩ :
      TensorData Int).values.isEmpty = false) ∧
    (isErr (lexInsert 0 (⟨[2, 2], [0, 1], [0, 0], [[], [0, 1]], [[], [0]],
      [(5 : Int)]⟩ : TensorData Int) [0, 0] 7) = true ↔
      ¬ cursorAdvances [0, 0] [0, 0] 2) ∧
    isErr (lexInsert 0 (⟨[2, 2], [0, 1], [0, 0], [[], [0, 1]], [[], [0]],
      [(5 : Int)]⟩ : TensorData Int) [0, 0] 7) = true ∧
    isErr (lexInsert 0 (⟨[2, 2], [0, 1], [0, 0], [[], [0, 1]], [[], [0]],
      [(5 : Int)]⟩ : TensorData Int) [0, 1] 7) = false := by
  refine ⟨rfl, ?_, by decide, by decide⟩
  exact claim8_lexInsert_assert 0 _ [0, 0] 7 rfl

/-! ### Structure of `segGroups` on sorted, deduplicated intervals -/

theorem lexLtB_cons_same (c : Nat) (as bs : List Nat) :
    lexLtB (c :: as) (c :: bs) = lexLtB as bs := by
  show (if c < c then true else if c < c then false else lexLtB as bs) = _
  rw [if_neg (Nat.lt_irrefl c), if_neg (Nat.lt_irrefl c)]

theorem lexLtB_cons_head (a b : Nat) (as bs : List Nat)
    (h : lexLtB (a :: as) (b :: bs) = true) : a < b ∨ a = b := by
  by_cases hab : a < b
  · exact Or.inl hab
  · by_cases hba : b < a
    · unfold lexLtB at h
      rw [if_neg hab, if_pos hba] at h
      exact absurd h (by simp)
    · exact Or.inr (Nat.le_antisymm (Nat.le_of_not_lt hba) (Nat.le_of_not_lt hab))

theorem lexLtB_singleton (a b : Nat) (h : lexLtB [a] [b] = true) : a < b := by
  rcases lexLtB_cons_head a b [] [] h with h1 | h1
  · exact h1
  · subst h1
    rw [lexLtB_cons_same, lexLtB_irrefl] at h
    exact absurd h (by simp)

/-- Sorting relation plus distinct coordinates gives a strict lexicographic
order. -/
theorem lexLtB_of_cooLe (e f : (List Nat × V)) (hle : cooLe e f)
    (hne : e.1 ≠ f.1) : lexLtB e.1 f.1 = true := by
  unfold cooLe at hle
  rcases lexLtB_trichotomy e.1 f.1 with h | h | h
  · exact h
  · rw [h] at hle
    exact absurd hle (by simp)
  · exact absurd h hne

theorem segGroups_cons (e : List Nat × V) (rest : List (List Nat × V)) :
    segGroups (e :: rest) =
      (e.1.headD 0,
        ((e :: rest.takeWhile (fun f => f.1.headD 0 = e.1.headD 0)).map
          (fun f => (f.1.tail, f.2)))) ::
      segGroups (rest.dropWhile (fun f => f.1.headD 0 = e.1.headD 0)) := by
  rw [segGroups]

theorem segGroups_nil : segGroups ([] : List (List Nat × V)) = [] := by
  rw [segGroups]

/-- Reattaching the group key to every group member recovers the original
interval (coordinates are nonempty while dimensions remain). -/
theorem segGroups_flatten (l : List (List Nat × V)) (hne : ∀ e ∈ l, e.1 ≠ []) :
    (segGroups l).flatMap (fun p => p.2.map (fun q => (p.1 :: q.1, q.2))) = l := by
  induction l using segGroups.induct with
  | case1 => rw [segGroups_nil]; rfl
  | case2 e rest c ih =>
    have hc : c = e.1.headD 0 := rfl
    rw [hc] at ih
    rw [segGroups_cons]
    simp only [List.flatMap_cons]
    have hcongr : ∀ f ∈ e :: rest.takeWhile (fun f => f.1.headD 0 = e.1.headD 0),
        ((fun q => ((e.1.headD 0 : Nat) :: q.1, q.2)) ∘
          (fun f : List Nat × V => (f.1.tail, f.2))) f = id f := by
      intro f hf
      have hfl : f ∈ e :: rest := by
        rcases List.mem_cons.mp hf with rfl | hf'
        · exact List.mem_cons_self _ _
        · exact List.mem_cons_of_mem _ ((List.takeWhile_sublist _).subset hf')
      have hfne : f.1 ≠ [] := hne f hfl
      have hfc : f.1.headD 0 = e.1.headD 0 := by
        rcases List.mem_cons.mp hf with rfl | hf'
        · rfl
        · exact of_decide_eq_true (@List.mem_takeWhile_imp _
            (fun f : List Nat × V => decide (f.1.headD 0 = e.1.headD 0))
            rest f hf')
      cases hfl1 : f.1 with
      | nil => exact absurd hfl1 hfne
      | cons x xs =>
        rw [hfl1] at hfc
        simp only [List.headD_cons] at hfc
        have hre : (e.1.headD 0 : Nat) :: f.1.tail = f.1 := by
          rw [hfl1, hfc]
          rfl
        simp only [Function.comp, id]
        rw [show ((e.1.headD 0 : Nat) :: f.1.tail, f.2) = (f.1, f.2) by rw [hre]]
    rw [List.map_map, List.map_congr_left hcongr, List.map_id]
    have h2 := ih (by
      intro f hf
      exact hne f (List.mem_cons_of_mem _ ((List.dropWhile_sublist _).subset hf)))
    rw [h2]
    simp [List.takeWhile_append_dropWhile]

/-- Every group of a `segGroups` decomposition is nonempty. -/
theorem segGroups_nonempty (l : List (List Nat × V)) :
    ∀ p ∈ segGroups l, p.2 ≠ [] := by
  induction l using segGroups.induct with
  | case1 => intro p hp; rw [segGroups_nil] at hp; exact absurd hp (by simp)
  | case2 e rest c ih =>
    have hc : c = e.1.headD 0 := rfl
    rw [hc] at ih
    intro p hp
    rw [segGroups_cons] at hp
    rcases List.mem_cons.mp hp with rfl | hp'
    · simp
    · exact ih p hp'

/-- Adjacent groups carry distinct keys. -/
theorem segGroups_chain_ne (l : List (List Nat × V)) :
    (segGroups l).Chain' (fun p q => p.1 ≠ q.1) := by
  induction l using segGroups.induct with
  | case1 => rw [segGroups_nil]; simp
  | case2 e rest c ih =>
    have hc : c = e.1.headD 0 := rfl
    rw [hc] at ih
    rw [segGroups_cons]
    apply List.Chain'.cons'
    · exact ih
    · intro q hq
      cases hdw : rest.dropWhile (fun f => f.1.headD 0 = e.1.headD 0) with
      | nil =>
        rw [hdw, segGroups_nil] at hq
        exact absurd hq (by simp)
      | cons g tail =>
        rw [hdw, segGroups_cons] at hq
        simp only [List.head?_cons, Option.mem_def, Option.some_inj] at hq
        have hgne : ¬ (g.1.headD 0 = e.1.headD 0) := by
          have := List.head?_dropWhile_not
            (fun f : List Nat × V => decide (f.1.headD 0 = e.1.headD 0)) rest
          rw [hdw] at this
          simp only [List.head?_cons, Option.mem_def] at this
          simpa using this
        rw [← hq]
        simp only [ne_eq]
        intro hcon
        exact hgne (by rw [hcon])

/-- When adjacent elements have distinct leading coordinates, every group is
a singleton. -/
theorem segGroups_singletons (l : List (List Nat × V))
    (hd : l.Chain' (fun e f => e.1.headD 0 ≠ f.1.headD 0)) :
    segGroups l = l.map (fun e => ((e.1.headD 0 : Nat), [(e.1.tail, e.2)])) := by
  induction l using segGroups.induct with
  | case1 => rw [segGroups_nil]; rfl
  | case2 e rest c ih =>
    have hc : c = e.1.headD 0 := rfl
    rw [hc] at ih
    rw [segGroups_cons]
    cases rest with
    | nil =>
      rw [List.dropWhile_nil] at ih
      simp [segGroups_nil, List.takeWhile_nil]
    | cons g t =>
      have hneg : ¬ ((fun f : List Nat × V =>
          decide (f.1.headD 0 = e.1.headD 0)) g = true) := by
        simp only [decide_eq_true_eq]
        intro hcon
        exact (List.chain'_cons.mp hd).1 hcon.symm
      rw [@List.dropWhile_cons_of_neg _
        (fun f : List Nat × V => decide (f.1.headD 0 = e.1.headD 0)) g t hneg] at ih
      rw [@List.takeWhile_cons_of_neg _
        (fun f : List Nat × V => decide (f.1.headD 0 = e.1.headD 0)) g t hneg,
        @List.dropWhile_cons_of_neg _
        (fun f : List Nat × V => decide (f.1.headD 0 = e.1.headD 0)) g t hneg]
      rw [ih (List.Chain'.tail hd)]
      rfl

theorem foldDeltas_rank_zero (zero : V) (o : List Nat)
    (l : List (List Nat × V)) :
    ∀ (D0 : Deltas V), D0.ptrs = [] → D0.idxs = [] →
    ((l.map (fun e => ((e.1.headD 0 : Nat), [(e.1.tail, e.2)]))).foldl
      (fun D g => D.append (fromCOOF zero [] (offAfter o.tail D) g.2)) D0) =
      ⟨[], [], D0.vals ++ l.map Prod.snd⟩ := by
  induction l with
  | nil =>
    intro D0 hp hi
    obtain ⟨p, i, v⟩ := D0
    simp only at hp hi
    subst hp hi
    simp
  | cons e l ih =>
    intro D0 hp hi
    obtain ⟨p, i, v⟩ := D0
    simp only at hp hi
    subst hp hi
    simp only [List.map_cons, List.foldl_cons]
    have hstep : Deltas.append ⟨[], [], v⟩
        (fromCOOF zero [] (offAfter o.tail ⟨[], [], v⟩) [(e.1.tail, e.2)]) =
        ⟨[], [], v ++ [e.2]⟩ := by
      unfold fromCOOF Deltas.append
      simp
    rw [hstep, ih _ rfl rfl]
    simp

/-- `fromCOO` over the innermost compressed dimension of a sorted,
deduplicated interval: one index and one value per element, then one pointer
entry equal to the new index count. -/
theorem fromCOOF_inner_compressed (zero : V) (s1 o : Nat)
    (g : List (List Nat × V))
    (hd : g.Chain' (fun e f => e.1.headD 0 ≠ f.1.headD 0)) :
    fromCOOF zero [(s1, true)] [o] g =
      ⟨[[o + g.length]], [g.map (fun e => e.1.headD 0)], g.map Prod.snd⟩ := by
  have hsg := segGroups_singletons g hd
  unfold fromCOOF
  simp only [hsg, List.length_nil]
  rw [foldDeltas_rank_zero zero [o] g (emptyDeltas 0) rfl rfl]
  simp [emptyDeltas]

/-- One inner-compressed call per row (the per-row `fromCOO` recursion of an
outer dimension): pointer entries are the running totals, indices and values
the concatenations. -/
theorem foldRows_inner_compressed {V : Type} (zero : V) (s1 o : Nat) :
    ∀ (rows : List (List (List Nat × V))) (p0 i0 : List Nat) (v0 : List V),
    (∀ g ∈ rows, g.Chain' (fun e f => e.1.headD 0 ≠ f.1.headD 0)) →
    rows.foldl (fun (D : Deltas V) g =>
        D.append (fromCOOF zero [(s1, true)] (offAfter [o] D) g))
      (⟨[p0], [i0], v0⟩ : Deltas V) =
      (⟨[p0 ++ cumCounts (o + i0.length) (rows.map List.length)],
       [i0 ++ rows.flatMap (fun g => g.map (fun e => e.1.headD 0))],
       v0 ++ rows.flatMap (fun g => g.map Prod.snd)⟩ : Deltas V) := by
  intro rows
  induction rows with
  | nil =>
    intro p0 i0 v0 _
    simp [cumCounts]
  | cons g rows ih =>
    intro p0 i0 v0 hrows
    simp only [List.foldl_cons]
    have hoff : offAfter [o] (⟨[p0], [i0], v0⟩ : Deltas V) = [o + i0.length] := by
      unfold offAfter
      simp
    rw [hoff, fromCOOF_inner_compressed zero s1 (o + i0.length) g
      (hrows g (by simp))]
    have happ : Deltas.append ⟨[p0], [i0], v0⟩
        ⟨[[o + i0.length + g.length]], [g.map (fun e => e.1.headD 0)],
          g.map Prod.snd⟩ =
        ⟨[p0 ++ [o + i0.length + g.length]],
         [i0 ++ g.map (fun e => e.1.headD 0)], v0 ++ g.map Prod.snd⟩ := by
      unfold Deltas.append
      simp
    rw [happ, ih _ _ _ (fun g hg => hrows g (List.mem_cons_of_mem _ hg))]
    have hlen : o + (i0 ++ g.map (fun e => e.1.headD 0)).length =
        o + i0.length + g.length := by
      simp [Nat.add_assoc]
    rw [hlen]
    simp [cumCounts, List.append_assoc]

/-- While dimensions remain, `fromCOO` on an empty interval coincides with
`endDim`: a compressed dimension just records the current pointer, a dense
dimension fills its whole extent. -/
theorem fromCOOF_nil_eq_endDimF {V : Type} (zero : V) (rest : List (Nat × Bool))
    (hrest : rest ≠ []) (off : List Nat) :
    fromCOOF zero rest off [] = endDimF zero rest off := by
  cases rest with
  | nil => exact absurd rfl hrest
  | cons d r =>
    obtain ⟨sz, b⟩ := d
    cases b with
    | true =>
      unfold fromCOOF endDimF
      rw [segGroups_nil]
      simp [emptyDeltas]
    | false =>
      unfold fromCOOF endDimF
      rw [segGroups_nil]
      simp only [List.foldl_nil, Nat.sub_zero]
      rfl

/-- `iterEndDim` is a fold of empty-interval `fromCOO` calls. -/
theorem iterEndDim_eq_foldRows {V : Type} (zero : V) (rest : List (Nat × Bool))
    (hrest : rest ≠ []) (off : List Nat) :
    ∀ (n : Nat) (D0 : Deltas V),
      iterEndDim zero rest off D0 n =
        (List.replicate n ([] : List (List Nat × V))).foldl
          (fun D row => D.append (fromCOOF zero rest (offAfter off D) row)) D0 := by
  intro n
  induction n with
  | zero => intro D0; rfl
  | succ n ih =>
    intro D0
    unfold iterEndDim
    rw [List.range_succ, List.foldl_append, List.replicate_succ']
    rw [List.foldl_append]
    simp only [List.foldl_cons, List.foldl_nil]
    have hbase := ih D0
    unfold iterEndDim at hbase
    rw [← hbase]
    rw [fromCOOF_nil_eq_endDimF zero rest hrest]

theorem fromCOOF_cons_dense {V : Type} (zero : V) (sz : Nat)
    (rest : List (Nat × Bool)) (off : List Nat)
    (elems : List (List Nat × V)) :
    fromCOOF zero ((sz, false) :: rest) off elems =
      (iterEndDim zero rest off.tail
        ((segGroups elems).foldl (denseStep zero rest off.tail)
          (emptyDeltas rest.length, 0)).1
        (sz - ((segGroups elems).foldl (denseStep zero rest off.tail)
          (emptyDeltas rest.length, 0)).2)).below := rfl

theorem fromCOOF_dense_fold_aux {V : Type} (zero : V) (s0 : Nat)
    (rest : List (Nat × Bool)) (hrest : rest ≠ []) (off' : List Nat) :
    ∀ (groups : List (Nat × List (List Nat × V))) (full : Nat) (D0 : Deltas V),
      groups.Pairwise (fun p q => p.1 < q.1) →
      (∀ p ∈ groups, full ≤ p.1 ∧ p.1 < s0) →
      (iterEndDim zero rest off'
        (groups.foldl (denseStep zero rest off') (D0, full)).1
        (s0 - (groups.foldl (denseStep zero rest off') (D0, full)).2)) =
      (rowsOfGroups full s0 groups).foldl
        (fun D row => D.append (fromCOOF zero rest (offAfter off' D) row)) D0 := by
  intro groups
  induction groups with
  | nil =>
    intro full D0 _ _
    simp only [List.foldl_nil]
    rw [iterEndDim_eq_foldRows zero rest hrest off']
    rfl
  | cons g gs ih =>
    intro full D0 hpw hbnd
    obtain ⟨i, gelems⟩ := g
    simp only [List.foldl_cons]
    have hfullle : full ≤ i := (hbnd (i, gelems) (by simp)).1
    have hmax : max full i = i := Nat.max_eq_right hfullle
    have hstep : denseStep zero rest off' (D0, full) (i, gelems) =
        ((iterEndDim zero rest off' D0 (i - full)).append
          (fromCOOF zero rest
            (offAfter off' (iterEndDim zero rest off' D0 (i - full))) gelems),
         i + 1) := by
      unfold denseStep
      simp [hmax]
    rw [hstep]
    rw [rowsOfGroups]
    rw [List.foldl_append, List.foldl_append]
    rw [← iterEndDim_eq_foldRows zero rest hrest off' (i - full) D0]
    simp only [List.foldl_cons, List.foldl_nil]
    rw [ih (i + 1) _ (List.Pairwise.of_cons hpw) ?hb]
    case hb =>
      intro p hp
      refine ⟨?_, (hbnd p (List.mem_cons_of_mem _ hp)).2⟩
      have := (List.pairwise_cons.mp hpw).1 p hp
      omega

/-- `fromCOO` on a dense outer dimension is the per-row fold over the rows
`0 .. s0`, each row holding the elements with that leading coordinate. -/
theorem fromCOOF_dense_top {V : Type} (zero : V) (s0 : Nat)
    (rest : List (Nat × Bool)) (hrest : rest ≠ []) (off : List Nat)
    (elems : List (List Nat × V))
    (hpw : (segGroups elems).Pairwise (fun p q => p.1 < q.1))
    (hbnd : ∀ p ∈ segGroups elems, p.1 < s0) :
    fromCOOF zero ((s0, false) :: rest) off elems =
      ((rowsOfGroups 0 s0 (segGroups elems)).foldl
        (fun D row => D.append (fromCOOF zero rest (offAfter off.tail D) row))
        (emptyDeltas rest.length)).below := by
  rw [fromCOOF_cons_dense]
  rw [fromCOOF_dense_fold_aux zero s0 rest hrest off.tail (segGroups elems) 0
    (emptyDeltas rest.length) hpw (fun p hp => ⟨Nat.zero_le _, hbnd p hp⟩)]

theorem fromCOOF_cons_comp {V : Type} (zero : V) (sz : Nat)
    (rest : List (Nat × Bool)) (off : List Nat)
    (elems : List (List Nat × V)) :
    fromCOOF zero ((sz, true) :: rest) off elems =
      ⟨[off.headD 0 + (segGroups elems).length] ::
        ((segGroups elems).foldl
          (fun D g => D.append (fromCOOF zero rest (offAfter off.tail D) g.2))
          (emptyDeltas rest.length)).ptrs,
       ((segGroups elems).map Prod.fst) ::
        ((segGroups elems).foldl
          (fun D g => D.append (fromCOOF zero rest (offAfter off.tail D) g.2))
          (emptyDeltas rest.length)).idxs,
       ((segGroups elems).foldl
          (fun D g => D.append (fromCOOF zero rest (offAfter off.tail D) g.2))
          (emptyDeltas rest.length)).vals⟩ := rfl

theorem chain_combine_mem {R S T : α → α → Prop} :
    ∀ (l : List α), l.Chain' R → l.Chain' S →
      (∀ a ∈ l, ∀ b ∈ l, R a b → S a b → T a b) → l.Chain' T := by
  intro l
  induction l with
  | nil => intro _ _ _; simp
  | cons a l ih =>
    intro hR hS himp
    cases l with
    | nil => simp
    | cons b t =>
      rw [List.chain'_cons] at hR hS ⊢
      refine ⟨himp a (by simp) b (by simp) hR.1 hS.1, ?_⟩
      exact ih hR.2 hS.2 (fun x hx y hy => himp x (List.mem_cons_of_mem _ hx)
        y (List.mem_cons_of_mem _ hy))

/-- Every group member, with its key reattached, is an element of the
original interval. -/
theorem segGroups_mem (l : List (List Nat × V)) (hne : ∀ e ∈ l, e.1 ≠ [])
    (p : Nat × List (List Nat × V)) (hp : p ∈ segGroups l)
    (q : List Nat × V) (hq : q ∈ p.2) : (p.1 :: q.1, q.2) ∈ l := by
  rw [← segGroups_flatten l hne]
  exact List.mem_flatMap.mpr ⟨p, hp, List.mem_map.mpr ⟨q, hq, rfl⟩⟩

/-- On a strictly sorted interval with nonempty coordinates, the group keys
are strictly increasing and each group's tail interval is strictly sorted. -/
theorem segGroups_sorted (l : List (List Nat × V))
    (hne : ∀ e ∈ l, e.1 ≠ [])
    (hpw : l.Pairwise (fun e f => lexLtB e.1 f.1 = true)) :
    (segGroups l).Pairwise (fun p q => p.1 < q.1) ∧
    (∀ p ∈ segGroups l, p.2.Pairwise (fun e f => lexLtB e.1 f.1 = true)) := by
  have hfl := segGroups_flatten l hne
  have hpw2 := hpw
  rw [← hfl, List.pairwise_flatMap] at hpw2
  obtain ⟨hin, hcross⟩ := hpw2
  constructor
  · have hchain : (segGroups l).Chain' (fun p q => p.1 < q.1) := by
      apply chain_combine_mem (segGroups l) hcross.chain'
        (segGroups_chain_ne l)
      intro p hp q hq hRpq hSpq
      obtain ⟨e, he⟩ : ∃ e, e ∈ p.2 := by
        cases hp2 : p.2 with
        | nil => exact absurd hp2 (segGroups_nonempty l p hp)
        | cons x t => exact ⟨x, by simp⟩
      obtain ⟨f, hf⟩ : ∃ f, f ∈ q.2 := by
        cases hq2 : q.2 with
        | nil => exact absurd hq2 (segGroups_nonempty l q hq)
        | cons x t => exact ⟨x, by simp⟩
      have hlex := hRpq (p.1 :: e.1, e.2)
        (List.mem_map.mpr ⟨e, he, rfl⟩) (q.1 :: f.1, f.2)
        (List.mem_map.mpr ⟨f, hf, rfl⟩)
      rcases lexLtB_cons_head _ _ _ _ hlex with h | h
      · exact h
      · exact absurd h hSpq
    haveI : IsTrans (Nat × List (List Nat × V))
        (fun p q => p.1 < q.1) := ⟨fun a b c h1 h2 => Nat.lt_trans h1 h2⟩
    exact List.chain'_iff_pairwise.mp hchain
  · intro p hp
    have := hin p hp
    rw [List.pairwise_map] at this
    apply this.imp
    intro e f hef
    rwa [lexLtB_cons_same] at hef

theorem sortedElems_pairwise (elems : List (List Nat × V))
    (hdist : elems.Pairwise (fun e f => e.1 ≠ f.1)) :
    (List.insertionSort (fun e f => cooLe e f) elems).Pairwise
      (fun e f => lexLtB e.1 f.1 = true) := by
  have hsorted := List.sorted_insertionSort (fun e f => cooLe e f) elems
  have hperm := List.perm_insertionSort (fun e f => cooLe e f) elems
  have hdist2 : (List.insertionSort (fun e f => cooLe e f) elems).Pairwise
      (fun e f => e.1 ≠ f.1) :=
    (hperm.pairwise_iff (fun h => Ne.symm h)).mpr hdist
  exact (hsorted.and hdist2).imp (fun h => lexLtB_of_cooLe _ _ h.1 h.2)

theorem marks_getD (rank : Nat) :
    ∀ (rev z : List Nat) (j : Nat),
      (rev.foldl (fun (z : List Nat) i => if rank ≤ i then z else z.set i 1)
        z).getD j 0 =
        if j ∈ rev ∧ j < rank ∧ j < z.length then 1 else z.getD j 0 := by
  intro rev
  induction rev with
  | nil =>
    intro z j
    simp
  | cons i rest ih =>
    intro z j
    simp only [List.foldl_cons]
    rw [ih]
    by_cases hir : rank ≤ i
    · rw [if_pos hir]
      by_cases hc : j ∈ rest ∧ j < rank ∧ j < z.length
      · rw [if_pos hc, if_pos ⟨List.mem_cons_of_mem _ hc.1, hc.2⟩]
      · rw [if_neg hc]
        by_cases hc2 : j ∈ i :: rest ∧ j < rank ∧ j < z.length
        · exfalso
          rcases List.mem_cons.mp hc2.1 with rfl | hm
          · omega
          · exact hc ⟨hm, hc2.2⟩
        · rw [if_neg hc2]
    · rw [if_neg hir]
      have hlen : (z.set i 1).length = z.length := List.length_set z i 1
      by_cases hc : j ∈ rest ∧ j < rank ∧ j < z.length
      · rw [if_pos (by rw [hlen]; exact hc),
          if_pos ⟨List.mem_cons_of_mem _ hc.1, hc.2⟩]
      · rw [if_neg (by rw [hlen]; exact hc)]
        by_cases hij : i = j
        · subst hij
          by_cases hjz : i < z.length
          · rw [List.getD_eq_getElem?_getD, List.getElem?_set, if_pos rfl,
              if_pos hjz]
            rw [if_pos ⟨List.mem_cons_self _ _, Nat.lt_of_not_le hir, hjz⟩]
            rfl
          · rw [List.getD_eq_getElem?_getD, List.getElem?_set, if_pos rfl,
              if_neg hjz]
            rw [if_neg (fun hc2 => hjz hc2.2.2)]
            rw [List.getD_eq_getElem?_getD, List.getElem?_eq_none]
            exact Nat.le_of_not_lt hjz
        · rw [List.getD_eq_getElem?_getD, List.getElem?_set, if_neg hij,
            ← List.getD_eq_getElem?_getD]
          by_cases hc2 : j ∈ i :: rest ∧ j < rank ∧ j < z.length
          · exfalso
            rcases List.mem_cons.mp hc2.1 with rfl | hm
            · exact hij rfl
            · exact hc ⟨hm, hc2.2⟩
          · rw [if_neg hc2]

theorem marks_length (rank : Nat) :
    ∀ (rev z : List Nat),
      (rev.foldl (fun (z : List Nat) i => if rank ≤ i then z else z.set i 1)
        z).length = z.length := by
  intro rev
  induction rev with
  | nil => intro z; rfl
  | cons i rest ih =>
    intro z
    simp only [List.foldl_cons]
    rw [ih]
    by_cases hir : rank ≤ i
    · rw [if_pos hir]
    · rw [if_neg hir, List.length_set]

/-- The `rev` buffer the constructor computes from a permutation passes the
dimension-order check of `verify`: all entries are below the rank and every
position is marked. -/
theorem revOk_of_perm (rank : Nat) (perm : List Nat)
    (hperm : perm.Perm (List.range rank)) :
    ((List.range rank).map (fun i => List.indexOf i perm)).all
        (fun i => decide (i < rank)) = true ∧
    (((List.range rank).map (fun i => List.indexOf i perm)).foldl
        (fun (z : List Nat) i => if rank ≤ i then z else z.set i 1)
        (List.replicate rank 0)).all (fun z => decide (z ≠ 0)) = true := by
  have hlenp : perm.length = rank := by
    rw [hperm.length_eq, List.length_range]
  have hnd : perm.Nodup := (hperm.nodup_iff).mpr (List.nodup_range rank)
  have hidx : ∀ i ∈ List.range rank, List.indexOf i perm < rank := by
    intro i hi
    have : i ∈ perm := (hperm.mem_iff).mpr hi
    rw [← hlenp]
    exact List.indexOf_lt_length.mpr this
  constructor
  · rw [List.all_eq_true]
    intro x hx
    rcases List.mem_map.mp hx with ⟨i, hi, rfl⟩
    exact decide_eq_true (hidx i hi)
  · rw [List.all_eq_true]
    intro x hx
    rcases List.mem_iff_getElem.mp hx with ⟨j, hj, rfl⟩
    have hj2 := hj
    rw [marks_length] at hj2
    have hjrank : j < rank := by simpa using hj2
    have hjmem : j ∈ (List.range rank).map (fun i => List.indexOf i perm) := by
      have hjp : j < perm.length := by omega
      refine List.mem_map.mpr ⟨perm[j], ?_, ?_⟩
      · exact List.mem_range.mpr ((hperm.mem_iff).mp (List.getElem_mem hjp) |> List.mem_range.mp)
      · exact List.indexOf_getElem hnd j hjp
    have := marks_getD rank
      ((List.range rank).map (fun i => List.indexOf i perm))
      (List.replicate rank 0) j
    rw [if_pos ⟨hjmem, hjrank, by simpa using hjrank⟩] at this
    rw [List.getD_eq_getElem?_getD, List.getElem?_eq_getElem hj] at this
    simp only [Option.getD_some] at this
    rw [this]
    decide

theorem cumCounts_length (o : Nat) (ls : List Nat) :
    (cumCounts o ls).length = ls.length := by
  induction ls generalizing o with
  | nil => rfl
  | cons n ns ih => simp [cumCounts, ih]

theorem issortedB_cumCounts (ls : List Nat) :
    ∀ (p o : Nat), p ≤ o → issortedB (p :: cumCounts o ls) = true := by
  induction ls with
  | nil => intro p o _; rfl
  | cons n ns ih =>
    intro p o hpo
    show (decide (p ≤ o + n) && issortedB ((o + n) :: cumCounts (o + n) ns)) = true
    rw [ih (o + n) (o + n) (Nat.le_refl _)]
    simp
    omega

theorem cumCounts_getD_last (ls : List Nat) :
    ∀ (p o : Nat), (p :: cumCounts o ls).getD ls.length 0 =
      if ls.length = 0 then p else o + ls.sum := by
  induction ls with
  | nil => intro p o; rfl
  | cons n ns ih =>
    intro p o
    simp only [cumCounts, List.length_cons, List.getD_cons_succ]
    rw [ih (o + n) (o + n)]
    by_cases h : ns.length = 0
    · rw [if_pos h, if_neg (by omega)]
      have : ns = [] := List.length_eq_zero.mp h
      subst this
      simp
    · rw [if_neg h, if_neg (by omega)]
      simp only [List.sum_cons]
      omega

theorem isincreasingB_of_pairwise (ks : List Nat)
    (h : ks.Pairwise (· < ·)) : isincreasingB ks = true := by
  induction ks with
  | nil => rfl
  | cons a t ih =>
    cases t with
    | nil => rfl
    | cons b t2 =>
      show (decide (a < b) && isincreasingB (b :: t2)) = true
      rw [ih (List.Pairwise.of_cons h)]
      have hab : a < b := (List.pairwise_cons.mp h).1 b (by simp)
      simp [hab]

theorem length_le_of_pairwise_lt_bounded (ks : List Nat) (n : Nat)
    (hpw : ks.Pairwise (· < ·)) (hb : ∀ k ∈ ks, k < n) : ks.length ≤ n := by
  have hnd : ks.Nodup := hpw.imp (fun h => Nat.ne_of_lt h)
  have hsub : ks.toFinset ⊆ Finset.range n := by
    intro k hk
    rw [List.mem_toFinset] at hk
    exact Finset.mem_range.mpr (hb k hk)
  have hcard := Finset.card_le_card hsub
  rw [Finset.card_range] at hcard
  rw [List.toFinset_card_of_nodup hnd] at hcard
  exact hcard

theorem sum_le_mul_of_bounded (ls : List Nat) (b : Nat)
    (h : ∀ n ∈ ls, n ≤ b) : ls.sum ≤ ls.length * b := by
  induction ls with
  | nil => simp
  | cons n ns ih =>
    simp only [List.sum_cons, List.length_cons]
    have h1 := h n (by simp)
    have h2 := ih (fun m hm => h m (List.mem_cons_of_mem _ hm))
    calc n + ns.sum ≤ b + ns.length * b := Nat.add_le_add h1 h2
      _ = (ns.length + 1) * b := by ring

theorem length_le_sum_of_pos (ls : List Nat) (h : ∀ n ∈ ls, 1 ≤ n) :
    ls.length ≤ ls.sum := by
  induction ls with
  | nil => simp
  | cons n ns ih =>
    simp only [List.length_cons, List.sum_cons]
    have h1 := h n (by simp)
    have h2 := ih (fun m hm => h m (List.mem_cons_of_mem _ hm))
    omega

/-- The segment scanner of `verify` succeeds on a flattened row list with
cumulative-count boundaries when every row is strictly increasing. -/
theorem segIncOk_flat (kss : List (List Nat)) :
    ∀ (pre : List Nat),
      (∀ ks ∈ kss, isincreasingB ks = true) →
      segIncOk (pre ++ kss.flatten) pre.length
        (cumCounts pre.length (kss.map List.length)) = true := by
  induction kss with
  | nil => intro pre _; rfl
  | cons ks kss ih =>
    intro pre hinc
    simp only [List.map_cons, cumCounts, List.flatten_cons]
    show ((if (pre ++ (ks ++ kss.flatten)).length < pre.length + ks.length
      then false
      else isincreasingB (((pre ++ (ks ++ kss.flatten)).drop pre.length).take
        (pre.length + ks.length - pre.length))) &&
      segIncOk (pre ++ (ks ++ kss.flatten)) (pre.length + ks.length)
        (cumCounts (pre.length + ks.length) (kss.map List.length))) = true
    have hlen : ¬ (pre ++ (ks ++ kss.flatten)).length < pre.length + ks.length := by
      simp only [List.length_append]
      omega
    rw [if_neg hlen]
    have hdrop : ((pre ++ (ks ++ kss.flatten)).drop pre.length).take
        (pre.length + ks.length - pre.length) = ks := by
      rw [List.drop_append_of_le_length (Nat.le_refl _), List.drop_length,
        List.nil_append, Nat.add_sub_cancel_left,
        List.take_append_of_le_length (Nat.le_refl _), List.take_length]
    rw [hdrop, hinc ks (by simp)]
    have := ih (pre ++ ks) (fun k hk => hinc k (List.mem_cons_of_mem _ hk))
    rw [List.length_append] at this
    rw [show pre ++ (ks ++ kss.flatten) = (pre ++ ks) ++ kss.flatten by simp]
    simpa using this

theorem rowsOfGroups_length {α : Type} :
    ∀ (gs : List (Nat × List α)) (full sz : Nat),
      gs.Pairwise (fun p q => p.1 < q.1) →
      (∀ p ∈ gs, full ≤ p.1 ∧ p.1 < sz) →
      (rowsOfGroups full sz gs).length = sz - full := by
  intro gs
  induction gs with
  | nil =>
    intro full sz _ _
    simp [rowsOfGroups]
  | cons g gs ih =>
    intro full sz hpw hb
    obtain ⟨i, ge⟩ := g
    rw [rowsOfGroups]
    simp only [List.length_append, List.length_replicate, List.length_cons,
      List.length_nil]
    rw [ih (i + 1) sz (List.Pairwise.of_cons hpw) ?hb2]
    case hb2 =>
      intro p hp
      have h1 := (List.pairwise_cons.mp hpw).1 p hp
      have h2 := hb p (List.mem_cons_of_mem _ hp)
      simp only at h1
      exact ⟨by omega, h2.2⟩
    have h3 := hb (i, ge) (by simp)
    simp only at h3
    omega

theorem rowsOfGroups_mem {α : Type} :
    ∀ (gs : List (Nat × List α)) (full sz : Nat) (row : List α),
      row ∈ rowsOfGroups full sz gs → row = [] ∨ ∃ p ∈ gs, row = p.2 := by
  intro gs
  induction gs with
  | nil =>
    intro full sz row hrow
    rw [rowsOfGroups] at hrow
    exact Or.inl (List.eq_of_mem_replicate hrow)
  | cons g gs ih =>
    intro full sz row hrow
    obtain ⟨i, ge⟩ := g
    rw [rowsOfGroups] at hrow
    rcases List.mem_append.mp hrow with h1 | h2
    · rcases List.mem_append.mp h1 with h3 | h4
      · exact Or.inl (List.eq_of_mem_replicate h3)
      · right
        refine ⟨(i, ge), by simp, ?_⟩
        have : row = ge := by simpa using h4
        simpa using this
    · rcases ih (i + 1) sz row h2 with h | ⟨p, hp, he⟩
      · exact Or.inl h
      · exact Or.inr ⟨p, List.mem_cons_of_mem _ hp, he⟩

theorem rowsOfGroups_flatMap {α β : Type} (f : List α → List β) (hf : f [] = []) :
    ∀ (gs : List (Nat × List α)) (full sz : Nat),
      (rowsOfGroups full sz gs).flatMap f = gs.flatMap (fun p => f p.2) := by
  intro gs
  induction gs with
  | nil =>
    intro full sz
    rw [rowsOfGroups]
    rw [List.flatMap_nil]
    induction (sz - full) with
    | zero => rfl
    | succ n ihn =>
      rw [List.replicate_succ, List.flatMap_cons, hf, ihn]
      rfl
  | cons g gs ih =>
    intro full sz
    obtain ⟨i, ge⟩ := g
    rw [rowsOfGroups]
    rw [List.flatMap_append, List.flatMap_append, ih]
    have hrep : (List.replicate (i - full) ([] : List α)).flatMap f = [] := by
      induction (i - full) with
      | zero => rfl
      | succ n ihn => rw [List.replicate_succ, List.flatMap_cons, hf, ihn]; rfl
    rw [hrep]
    simp

/-- A `[dense, compressed]` (CSR / CSC storage) tensor whose inner buffers
were assembled row by row passes `verify`. -/
theorem verify_assembled_dc {V : Type} (s0 s1 : Nat) (rev idxc : List Nat)
    (kss : List (List Nat)) (vals : List V)
    (hs0 : s0 ≠ 0) (hs1 : s1 ≠ 0)
    (hrevlen : rev.length = 2)
    (hrevall : rev.all (fun i => decide (i < 2)) = true)
    (hmarks : (rev.foldl
        (fun (z : List Nat) i => if 2 ≤ i then z else z.set i 1)
        (List.replicate 2 0)).all (fun z => decide (z ≠ 0)) = true)
    (hksslen : kss.length = s0)
    (hrow_inc : ∀ ks ∈ kss, isincreasingB ks = true)
    (hrow_bnd : ∀ ks ∈ kss, ∀ k ∈ ks, k < s1)
    (hrow_le : ∀ ks ∈ kss, ks.length ≤ s1)
    (hvals : vals.length = kss.flatten.length) :
    verifyF (⟨[s0, s1], rev, idxc,
      [[], 0 :: cumCounts 0 (kss.map List.length)],
      [[], kss.flatten], vals⟩ : TensorData V) = true := by
  have hcl : (cumCounts 0 (kss.map List.length)).length = s0 := by
    rw [cumCounts_length]
    simp [hksslen]
  have hflatlen : kss.flatten.length = (kss.map List.length).sum := by
    rw [List.length_flatten]
  have hidxlen : kss.flatten.length ≤ s0 * s1 := by
    rw [hflatlen]
    have hb := sum_le_mul_of_bounded (kss.map List.length) s1 (by
      intro n hn
      rw [List.mem_map] at hn
      obtain ⟨ks, hks, rfl⟩ := hn
      exact hrow_le ks hks)
    rw [List.length_map, hksslen] at hb
    exact hb
  have hstep1 : verifyLoop
      [(s0, ([] : List Nat), ([] : List Nat)),
       (s1, 0 :: cumCounts 0 (kss.map List.length), kss.flatten)]
      0 (true, true, 1, 0, 0)
      = verifyLoop [(s1, 0 :: cumCounts 0 (kss.map List.length), kss.flatten)]
          1 (true, true, s0, 0, 0) := by
    rw [verifyLoop, if_neg hs0]
    simp
  have hstep2 : verifyLoop
      [(s1, 0 :: cumCounts 0 (kss.map List.length), kss.flatten)]
      1 (true, true, s0, 0, 0)
      = some (true, false, s0 * s1,
          (0 :: cumCounts 0 (kss.map List.length)).length, kss.flatten.length) := by
    rw [verifyLoop, if_neg hs1]
    have hdiv : s0 * s1 / s1 = s0 := Nat.mul_div_cancel s0 (Nat.pos_of_ne_zero hs1)
    have h0 := cumCounts_getD_last (kss.map List.length) 0 0
    rw [List.length_map, hksslen, if_neg hs0, Nat.zero_add, ← hflatlen] at h0
    have hseg := segIncOk_flat kss [] hrow_inc
    simp only [List.nil_append, List.length_nil] at hseg
    have hsort := issortedB_cumCounts (kss.map List.length) 0 0 (Nat.le_refl 0)
    have hbound : kss.flatten.all (fun i => decide (i < s1)) = true := by
      rw [List.all_eq_true]
      intro i hi
      rw [List.mem_flatten] at hi
      obtain ⟨ks, hks, hik⟩ := hi
      exact decide_eq_true (hrow_bnd ks hks i hik)
    simp only [List.length_cons, hcl, Nat.add_sub_cancel, List.getD_cons_zero,
      List.drop_succ_cons, List.drop_zero, hdiv, h0, hseg, hsort, hbound]
    rw [if_neg (show ¬ s0 + 1 = 0 by omega)]
    rw [verifyLoop]
    have hc1 : decide (s0 + 1 ≤ s0 * s1 + 1) = true := by
      apply decide_eq_true
      have h := Nat.le_mul_of_pos_right s0 (Nat.pos_of_ne_zero hs1)
      omega
    have hc2 : decide (kss.flatten.length ≤ s0 * s1) = true :=
      decide_eq_true hidxlen
    simp [hc1, hc2]
    constructor
    · exact Nat.le_mul_of_pos_right s0 (Nat.pos_of_ne_zero hs1)
    · rw [← hflatlen]
      exact hidxlen
  have hmarks2 : ((List.foldl (fun z i => if 2 ≤ i then z else z.set i 1)
      [0, 0] rev).all fun z => !decide (z = 0)) = true := by
    simpa using hmarks
  unfold verifyF
  simp [hrevlen, hrevall, hmarks2, hvals]
  rw [show (0 : Nat × Nat) = ((0 : Nat), (0 : Nat)) from rfl, hstep1, hstep2]
  simp [hflatlen]

/-- A `[dense, dense]` tensor assembled with empty pointer and index buffers
passes `verify` exactly when the value count equals the shape product. -/
theorem verify_assembled_dd {V : Type} (s0 s1 : Nat) (rev idxc : List Nat)
    (vals : List V)
    (hs0 : s0 ≠ 0) (hs1 : s1 ≠ 0)
    (hrevlen : rev.length = 2)
    (hrevall : rev.all (fun i => decide (i < 2)) = true)
    (hmarks : (rev.foldl
        (fun (z : List Nat) i => if 2 ≤ i then z else z.set i 1)
        (List.replicate 2 0)).all (fun z => decide (z ≠ 0)) = true)
    (hvals : vals.length = s0 * s1) :
    verifyF (⟨[s0, s1], rev, idxc, [[], []], [[], []], vals⟩ :
      TensorData V) = true := by
  have hmarks2 : ((List.foldl (fun z i => if 2 ≤ i then z else z.set i 1)
      [0, 0] rev).all fun z => !decide (z = 0)) = true := by
    simpa using hmarks
  unfold verifyF
  simp [hrevlen, hrevall, hmarks2, hvals, verifyLoop, hs0, hs1]

/-- A rank-1 `[dense]` tensor assembled with empty pointer and index buffers
passes `verify` exactly when the value count equals the extent. -/
theorem verify_assembled_d1 {V : Type} (s0 : Nat) (rev idxc : List Nat)
    (vals : List V)
    (hs0 : s0 ≠ 0)
    (hrevlen : rev.length = 1)
    (hrevall : rev.all (fun i => decide (i < 1)) = true)
    (hmarks : (rev.foldl
        (fun (z : List Nat) i => if 1 ≤ i then z else z.set i 1)
        (List.replicate 1 0)).all (fun z => decide (z ≠ 0)) = true)
    (hvals : vals.length = s0) :
    verifyF (⟨[s0], rev, idxc, [[]], [[]], vals⟩ : TensorData V) = true := by
  have hmarks2 : ((List.foldl (fun z i => if 1 ≤ i then z else z.set i 1)
      [0] rev).all fun z => !decide (z = 0)) = true := by
    simpa using hmarks
  have hrevall2 : ∀ x ∈ rev, x = 0 := by simpa using hrevall
  unfold verifyF
  simp [hrevlen, hmarks2, hvals, verifyLoop, hs0]
  exact hrevall2

/-- A rank-1 `[compressed]` tensor assembled with pointer buffer `[0, n]`,
`n` strictly increasing in-bounds indices and `n` values passes `verify`. -/
theorem verify_assembled_c1 {V : Type} (s0 : Nat) (rev idxc : List Nat)
    (is0 : List Nat) (vals : List V)
    (hs0 : s0 ≠ 0)
    (hrevlen : rev.length = 1)
    (hrevall : rev.all (fun i => decide (i < 1)) = true)
    (hmarks : (rev.foldl
        (fun (z : List Nat) i => if 1 ≤ i then z else z.set i 1)
        (List.replicate 1 0)).all (fun z => decide (z ≠ 0)) = true)
    (h0inc : isincreasingB is0 = true)
    (h0bnd : ∀ i ∈ is0, i < s0)
    (h0le : is0.length ≤ s0)
    (hvals : vals.length = is0.length) :
    verifyF (⟨[s0], rev, idxc, [[0, is0.length]], [is0], vals⟩ :
      TensorData V) = true := by
  have hmarks2 : ((List.foldl (fun z i => if 1 ≤ i then z else z.set i 1)
      [0] rev).all fun z => !decide (z = 0)) = true := by
    simpa using hmarks
  have hrevall2 : ∀ x ∈ rev, x = 0 := by simpa using hrevall
  have hb0 : is0.all (fun i => decide (i < s0)) = true := by
    rw [List.all_eq_true]
    intro i hi
    exact decide_eq_true (h0bnd i hi)
  have hseg0 : segIncOk is0 0 [is0.length] = true := by
    show ((if is0.length < is0.length then false
      else isincreasingB ((is0.drop 0).take (is0.length - 0))) &&
      segIncOk is0 is0.length []) = true
    rw [if_neg (by omega)]
    simp [segIncOk, h0inc]
  have hstep : verifyLoop [(s0, [0, is0.length], is0)] 0 (true, true, 1, 0, 0)
      = some (true, false, s0, 2, is0.length) := by
    rw [verifyLoop, if_neg hs0]
    simp [hb0, hseg0, h0le, verifyLoop, issortedB]
    exact Nat.pos_of_ne_zero hs0
  have hrevnorm : (rev.all fun i => decide (i = 0)) = true := by
    simpa using hrevall
  unfold verifyF
  simp [hrevlen, hmarks2, hvals]
  rw [hrevnorm, show (0 : Nat × Nat) = ((0 : Nat), (0 : Nat)) from rfl, hstep]
  simp

/-- A `[compressed, compressed]` tensor assembled with outer pointer `[0, n]`,
`n` strictly increasing outer indices, inner cumulative-count pointers over
`n` nonempty strictly increasing in-bounds rows, and matching values passes
`verify`. -/
theorem verify_assembled_cc {V : Type} (s0 s1 : Nat) (rev idxc : List Nat)
    (is0 : List Nat) (kss : List (List Nat)) (vals : List V)
    (hs0 : s0 ≠ 0) (hs1 : s1 ≠ 0)
    (hrevlen : rev.length = 2)
    (hrevall : rev.all (fun i => decide (i < 2)) = true)
    (hmarks : (rev.foldl
        (fun (z : List Nat) i => if 2 ≤ i then z else z.set i 1)
        (List.replicate 2 0)).all (fun z => decide (z ≠ 0)) = true)
    (hkl : kss.length = is0.length)
    (h0inc : isincreasingB is0 = true)
    (h0bnd : ∀ i ∈ is0, i < s0)
    (h0le : is0.length ≤ s0)
    (hrow_ne : ∀ ks ∈ kss, ks ≠ [])
    (hrow_inc : ∀ ks ∈ kss, isincreasingB ks = true)
    (hrow_bnd : ∀ ks ∈ kss, ∀ k ∈ ks, k < s1)
    (hrow_le : ∀ ks ∈ kss, ks.length ≤ s1)
    (hvals : vals.length = kss.flatten.length) :
    verifyF (⟨[s0, s1], rev, idxc,
      [[0, is0.length], 0 :: cumCounts 0 (kss.map List.length)],
      [is0, kss.flatten], vals⟩ : TensorData V) = true := by
  have hcl : (cumCounts 0 (kss.map List.length)).length = kss.length := by
    rw [cumCounts_length, List.length_map]
  have hflatlen : kss.flatten.length = (kss.map List.length).sum := by
    rw [List.length_flatten]
  have hidxlen : kss.flatten.length ≤ s0 * s1 := by
    rw [hflatlen]
    have hb := sum_le_mul_of_bounded (kss.map List.length) s1 (by
      intro n hn
      rw [List.mem_map] at hn
      obtain ⟨ks, hks, rfl⟩ := hn
      exact hrow_le ks hks)
    rw [List.length_map] at hb
    calc (kss.map List.length).sum ≤ kss.length * s1 := hb
    _ ≤ s0 * s1 := Nat.mul_le_mul_right s1 (hkl ▸ h0le)
  have hnle : kss.length ≤ kss.flatten.length := by
    rw [hflatlen]
    have := length_le_sum_of_pos (kss.map List.length) (by
      intro n hn
      rw [List.mem_map] at hn
      obtain ⟨ks, hks, rfl⟩ := hn
      exact List.length_pos.mpr (hrow_ne ks hks))
    rw [List.length_map] at this
    exact this
  have hb0 : is0.all (fun i => decide (i < s0)) = true := by
    rw [List.all_eq_true]
    intro i hi
    exact decide_eq_true (h0bnd i hi)
  have hseg0 : segIncOk is0 0 [is0.length] = true := by
    show ((if is0.length < is0.length then false
      else isincreasingB ((is0.drop 0).take (is0.length - 0))) &&
      segIncOk is0 is0.length []) = true
    rw [if_neg (by omega)]
    simp [segIncOk, h0inc]
  have hstep1 : verifyLoop
      [(s0, [0, is0.length], is0),
       (s1, 0 :: cumCounts 0 (kss.map List.length), kss.flatten)]
      0 (true, true, 1, 0, 0)
      = verifyLoop [(s1, 0 :: cumCounts 0 (kss.map List.length), kss.flatten)]
          1 (true, false, s0, 2, is0.length) := by
    rw [verifyLoop, if_neg hs0]
    have hpos : decide (1 ≤ s0) = true := decide_eq_true (by omega)
    simp [hb0, hseg0, h0le, issortedB, hpos]
  have hstep2 : verifyLoop
      [(s1, 0 :: cumCounts 0 (kss.map List.length), kss.flatten)]
      1 (true, false, s0, 2, is0.length)
      = some (true, false, s0 * s1,
          (0 :: cumCounts 0 (kss.map List.length)).length, kss.flatten.length) := by
    rw [verifyLoop, if_neg hs1]
    have h0 : (0 :: cumCounts 0 (kss.map List.length)).getD kss.length 0 =
        kss.flatten.length := by
      have h := cumCounts_getD_last (kss.map List.length) 0 0
      rw [List.length_map] at h
      by_cases hz : kss.length = 0
      · have hknil : kss = [] := List.length_eq_zero.mp hz
        subst hknil
        simp [cumCounts]
      · rw [h, if_neg hz, Nat.zero_add, ← hflatlen]
    have hseg := segIncOk_flat kss [] hrow_inc
    simp only [List.nil_append, List.length_nil] at hseg
    have hsort := issortedB_cumCounts (kss.map List.length) 0 0 (Nat.le_refl 0)
    have hbound : kss.flatten.all (fun i => decide (i < s1)) = true := by
      rw [List.all_eq_true]
      intro i hi
      rw [List.mem_flatten] at hi
      obtain ⟨ks, hks, hik⟩ := hi
      exact decide_eq_true (hrow_bnd ks hks i hik)
    simp only [List.length_cons, hcl, Nat.add_sub_cancel, List.getD_cons_zero,
      List.drop_succ_cons, List.drop_zero, h0, hseg, hsort, hbound]
    rw [if_neg (show ¬ kss.length + 1 = 0 by omega)]
    rw [verifyLoop]
    simp [hkl]
    have hA : is0.length ≤ (kss.map List.length).sum := by
      rw [← hflatlen, ← hkl]
      exact hnle
    refine ⟨⟨hA, ?_, ?_⟩, hA⟩
    · exact le_trans h0le (Nat.le_mul_of_pos_right s0 (Nat.pos_of_ne_zero hs1))
    · rw [← hflatlen]
      exact hidxlen
  have hmarks2 : ((List.foldl (fun z i => if 2 ≤ i then z else z.set i 1)
      [0, 0] rev).all fun z => !decide (z = 0)) = true := by
    simpa using hmarks
  unfold verifyF
  simp [hrevlen, hrevall, hmarks2, hvals]
  rw [show (0 : Nat × Nat) = ((0 : Nat), (0 : Nat)) from rfl, hstep1, hstep2]
  simp

/-- Inverting `Forall₂` against a two-element list. -/
theorem forall2_pair {R : Nat → Nat → Prop} {l : List Nat} {s0 s1 : Nat}
    (h : List.Forall₂ R l [s0, s1]) :
    ∃ a b, l = [a, b] ∧ R a s0 ∧ R b s1 := by
  match l, h with
  | _ :: _ :: _, .cons ha (.cons hb .nil) => exact ⟨_, _, rfl, ha, hb⟩

/-- Inverting `Forall₂` against a one-element list. -/
theorem forall2_single {R : Nat → Nat → Prop} {l : List Nat} {s0 : Nat}
    (h : List.Forall₂ R l [s0]) :
    ∃ a, l = [a] ∧ R a s0 := by
  match l, h with
  | _ :: _, .cons ha .nil => exact ⟨_, rfl, ha⟩

/-- The sorted element list keeps the bounds of the input and is strictly
lexicographically sorted when the input has distinct coordinates. -/
theorem sorted_facts {V : Type} (sizes : List Nat)
    (elems : List (List Nat × V))
    (helems : ∀ e ∈ elems, List.Forall₂ (fun k s => k < s) e.1 sizes)
    (hdist : elems.Pairwise (fun e f => e.1 ≠ f.1)) :
    (∀ e ∈ List.insertionSort (fun e f => cooLe e f) elems,
        List.Forall₂ (fun k s => k < s) e.1 sizes) ∧
    (List.insertionSort (fun e f => cooLe e f) elems).Pairwise
        (fun e f => lexLtB e.1 f.1 = true) := by
  constructor
  · intro e he
    exact helems e ((List.perm_insertionSort (fun e f => cooLe e f)
      elems).mem_iff.mp he)
  · exact sortedElems_pairwise elems hdist

/-- Pairwise lexicographic order on one-coordinate elements is pairwise
strict order of the (unique) coordinates. -/
theorem pairwise_heads_of_lex {V : Type} (l : List (List Nat × V))
    (hone : ∀ e ∈ l, e.1.length = 1)
    (hpw : l.Pairwise (fun e f => lexLtB e.1 f.1 = true)) :
    l.Pairwise (fun e f => e.1.headD 0 < f.1.headD 0) := by
  apply List.Pairwise.imp_of_mem ?_ hpw
  intro e f he hf hlex
  obtain ⟨a, ha⟩ : ∃ a, e.1 = [a] := List.length_eq_one.mp (hone e he)
  obtain ⟨b, hb⟩ : ∃ b, f.1 = [b] := List.length_eq_one.mp (hone f hf)
  rw [ha, hb] at hlex
  rw [ha, hb]
  exact lexLtB_singleton a b hlex

/-- `fromCOO` at `d == rank` on a nonempty interval: just the first value. -/
theorem fromCOOF_rank0_cons {V : Type} (zero : V) (off : List Nat)
    (e : List Nat × V) (t : List (List Nat × V)) :
    fromCOOF zero [] off (e :: t) = ⟨[], [], [e.2]⟩ := rfl

/-- `endDim` iteration below the last dimension: one `zero` per call. -/
theorem iterEndDim_rank0 {V : Type} (zero : V) (off : List Nat) :
    ∀ (n : Nat) (v : List V),
      iterEndDim zero [] off (⟨[], [], v⟩ : Deltas V) n =
        ⟨[], [], v ++ List.replicate n zero⟩ := by
  intro n
  induction n with
  | zero => intro v; simp [iterEndDim]
  | succ n ih =>
    intro v
    unfold iterEndDim
    rw [List.range_succ, List.foldl_append]
    simp only [List.foldl_cons, List.foldl_nil]
    have hfold : (List.range n).foldl
        (fun (D : Deltas V) _ => D.append (endDimF zero [] (offAfter off D)))
        (⟨[], [], v⟩ : Deltas V) = ⟨[], [], v ++ List.replicate n zero⟩ := ih v
    rw [hfold]
    simp [Deltas.append, endDimF, List.replicate_succ']

/-- The dense-dimension group loop of `fromCOO` at the innermost dimension:
no pointer or index output, one value per coordinate slot passed. -/
theorem dense_rank1_fold {V : Type} (zero : V) (off : List Nat) :
    ∀ (groups : List (Nat × List (List Nat × V))) (full : Nat) (v0 : List V)
      (s0 : Nat),
      groups.Pairwise (fun p q => p.1 < q.1) →
      (∀ p ∈ groups, full ≤ p.1 ∧ p.1 < s0) →
      (∀ p ∈ groups, p.2 ≠ []) →
      full ≤ s0 →
      ∃ (v1 : List V) (full1 : Nat),
        groups.foldl (denseStep zero [] off) ((⟨[], [], v0⟩ : Deltas V), full)
          = (⟨[], [], v1⟩, full1) ∧
        full ≤ full1 ∧ full1 ≤ s0 ∧
        v1.length = v0.length + (full1 - full) := by
  intro groups
  induction groups with
  | nil =>
    intro full v0 s0 _ _ _ hfs
    exact ⟨v0, full, rfl, Nat.le_refl _, hfs, by omega⟩
  | cons g gs ih =>
    intro full v0 s0 hpw hbnd hne hfs
    simp only [List.foldl_cons]
    obtain ⟨e, t, hg2⟩ : ∃ e t, g.2 = e :: t := by
      cases hq : g.2 with
      | nil => exact absurd hq (hne g (by simp))
      | cons e t => exact ⟨e, t, rfl⟩
    have hstep : denseStep zero [] off ((⟨[], [], v0⟩ : Deltas V), full) g
        = (⟨[], [], (v0 ++ List.replicate (g.1 - full) zero) ++ [e.2]⟩,
           max full g.1 + 1) := by
      unfold denseStep
      simp only [hg2]
      simp [iterEndDim_rank0, fromCOOF_rank0_cons, Deltas.append]
    rw [hstep]
    have hfle : full ≤ g.1 := (hbnd g (by simp)).1
    have hgs0 : g.1 < s0 := (hbnd g (by simp)).2
    have hmax : max full g.1 = g.1 := Nat.max_eq_right hfle
    rw [hmax]
    have hpw' : gs.Pairwise (fun p q => p.1 < q.1) := hpw.of_cons
    have hgub : ∀ p ∈ gs, g.1 < p.1 := fun p hp =>
      (List.pairwise_cons.mp hpw).1 p hp
    obtain ⟨v1, full1, heq, h1, h2, h3⟩ := ih (g.1 + 1)
      ((v0 ++ List.replicate (g.1 - full) zero) ++ [e.2]) s0 hpw'
      (fun p hp => ⟨hgub p hp, (hbnd p (List.mem_cons_of_mem _ hp)).2⟩)
      (fun p hp => hne p (List.mem_cons_of_mem _ hp)) hgs0
    refine ⟨v1, full1, heq, by omega, h2, ?_⟩
    rw [h3]
    simp only [List.length_append, List.length_replicate, List.length_cons,
      List.length_nil]
    omega

/-- `fromCOO` on a single dense dimension: no pointer or index output and
one value per coordinate (stored values at their slots, `zero` elsewhere). -/
theorem fromCOOF_dense_rank1 {V : Type} (zero : V) (s0 : Nat) (off : List Nat)
    (l : List (List Nat × V))
    (hpw : (segGroups l).Pairwise (fun p q => p.1 < q.1))
    (hbnd : ∀ p ∈ segGroups l, p.1 < s0) :
    ∃ vals : List V,
      fromCOOF zero [(s0, false)] off l = ⟨[[]], [[]], vals⟩ ∧
      vals.length = s0 := by
  rw [fromCOOF_cons_dense]
  obtain ⟨v1, full1, heq, h1, h2, h3⟩ := dense_rank1_fold zero off.tail
    (segGroups l) 0 [] s0 hpw (fun p hp => ⟨Nat.zero_le _, hbnd p hp⟩)
    (segGroups_nonempty l) (Nat.zero_le _)
  have hemp : (emptyDeltas (List.length ([] : List (Nat × Bool))) : Deltas V)
      = ⟨[], [], []⟩ := rfl
  rw [hemp, heq]
  rw [iterEndDim_rank0]
  refine ⟨v1 ++ List.replicate (s0 - full1) zero, ?_, ?_⟩
  · rfl
  · simp only [List.length_nil] at h3
    simp only [List.length_append, List.length_replicate]
    omega

/-- Folding inner dense-dimension calls over outer rows: pointer and index
entries stay put, each row contributes exactly `s1` values. -/
theorem foldRows_inner_dense {V : Type} (zero : V) (s1 : Nat) :
    ∀ (rows : List (List (List Nat × V))) (p0 i0 : List Nat) (v0 : List V),
      (∀ row ∈ rows, ∀ off : List Nat, ∃ vrow : List V,
        fromCOOF zero [(s1, false)] off row = ⟨[[]], [[]], vrow⟩ ∧
        vrow.length = s1) →
      ∃ v1 : List V,
        rows.foldl (fun (D : Deltas V) row =>
            D.append (fromCOOF zero [(s1, false)] (offAfter [0] D) row))
          (⟨[p0], [i0], v0⟩ : Deltas V) = ⟨[p0], [i0], v1⟩ ∧
        v1.length = v0.length + rows.length * s1 := by
  intro rows
  induction rows with
  | nil =>
    intro p0 i0 v0 _
    exact ⟨v0, rfl, by simp⟩
  | cons row rows ih =>
    intro p0 i0 v0 hrows
    simp only [List.foldl_cons]
    obtain ⟨vrow, hrow, hlen⟩ := hrows row (by simp)
      (offAfter [0] (⟨[p0], [i0], v0⟩ : Deltas V))
    rw [hrow]
    have happ : Deltas.append ⟨[p0], [i0], v0⟩ ⟨[[]], [[]], vrow⟩
        = ⟨[p0], [i0], v0 ++ vrow⟩ := by
      unfold Deltas.append
      simp
    rw [happ]
    obtain ⟨v1, heq, hlen1⟩ := ih p0 i0 (v0 ++ vrow)
      (fun r hr => hrows r (List.mem_cons_of_mem _ hr))
    refine ⟨v1, heq, ?_⟩
    rw [hlen1]
    simp only [List.length_append, List.length_cons, hlen]
    ring

/-- Unfolding `buildStorage` to its record form. -/
theorem buildStorage_eq {V : Type} (zero : V) (sizes : List Nat)
    (perm : List Nat) (sparsity : List Bool)
    (elems : List (List Nat × V)) :
    buildStorage zero sizes perm sparsity elems =
      ⟨sizes, (List.range sizes.length).map (fun i => List.indexOf i perm),
       List.replicate sizes.length 0,
       List.zipWith (· ++ ·)
         (sparsity.map (fun c => if c then ([0] : List Nat) else []))
         (fromCOOF zero (sizes.zip sparsity)
           (List.replicate sizes.length 0)
           (List.insertionSort (fun e f => cooLe e f) elems)).ptrs,
       (fromCOOF zero (sizes.zip sparsity) (List.replicate sizes.length 0)
         (List.insertionSort (fun e f => cooLe e f) elems)).idxs,
       (fromCOOF zero (sizes.zip sparsity) (List.replicate sizes.length 0)
         (List.insertionSort (fun e f => cooLe e f) elems)).vals⟩ := rfl

/-- `buildStorage` on a rank-1 `[compressed]` tensor passes `verify`. -/
theorem buildStorage_c1_verify {V : Type} (zero : V) (s0 : Nat)
    (perm : List Nat) (elems : List (List Nat × V))
    (hs0 : s0 ≠ 0)
    (hperm : perm.Perm (List.range 1))
    (helems : ∀ e ∈ elems, List.Forall₂ (fun k s => k < s) e.1 [s0])
    (hdist : elems.Pairwise (fun e f => e.1 ≠ f.1)) :
    verifyF (buildStorage zero [s0] perm [true] elems) = true := by
  obtain ⟨hbnds, hpwlex⟩ := sorted_facts [s0] elems helems hdist
  have hone : ∀ e ∈ List.insertionSort (fun e f => cooLe e f) elems,
      e.1.length = 1 := by
    intro e he
    have := (hbnds e he).length_eq
    simpa using this
  have hpwheads := pairwise_heads_of_lex _ hone hpwlex
  have hchain : (List.insertionSort (fun e f => cooLe e f) elems).Chain'
      (fun e f => e.1.headD 0 ≠ f.1.headD 0) :=
    (hpwheads.imp (fun h => Nat.ne_of_lt h)).chain'
  have hD : fromCOOF zero ([s0].zip [true])
      (List.replicate ([s0] : List Nat).length 0)
      (List.insertionSort (fun e f => cooLe e f) elems) =
      ⟨[[0 + (List.insertionSort (fun e f => cooLe e f) elems).length]],
       [(List.insertionSort (fun e f => cooLe e f) elems).map
         (fun e => e.1.headD 0)],
       (List.insertionSort (fun e f => cooLe e f) elems).map Prod.snd⟩ :=
    fromCOOF_inner_compressed zero s0 0
      (List.insertionSort (fun e f => cooLe e f) elems) hchain
  have hrev := revOk_of_perm 1 perm hperm
  rw [buildStorage_eq, hD]
  simp only [List.map_cons, List.map_nil, if_pos rfl,
    List.zipWith_cons_cons, List.zipWith_nil_right, List.zipWith_nil_left,
    List.cons_append, List.nil_append, Nat.zero_add, List.singleton_append]
  have hlen : (List.insertionSort (fun e f => cooLe e f) elems).length =
      ((List.insertionSort (fun e f => cooLe e f) elems).map
        (fun e => e.1.headD 0)).length := by
    rw [List.length_map]
  rw [hlen]
  apply verify_assembled_c1
  · exact hs0
  · simp
  · exact hrev.1
  · exact hrev.2
  · exact isincreasingB_of_pairwise _ (List.pairwise_map.mpr hpwheads)
  · intro i hi
    rw [List.mem_map] at hi
    obtain ⟨e, he, rfl⟩ := hi
    obtain ⟨a, ha, hlt⟩ := forall2_single (hbnds e he)
    rw [ha]
    exact hlt
  · apply length_le_of_pairwise_lt_bounded _ s0
      (List.pairwise_map.mpr hpwheads)
    intro k hk
    rw [List.mem_map] at hk
    obtain ⟨e, he, rfl⟩ := hk
    obtain ⟨a, ha, hlt⟩ := forall2_single (hbnds e he)
    rw [ha]
    exact hlt
  · simp

/-- Group keys of the sorted interval are bounded by the first extent. -/
theorem segGroups_keys_bounded {V : Type} (s0 : Nat)
    (l : List (List Nat × V))
    (hne : ∀ e ∈ l, e.1 ≠ [])
    (hhead : ∀ e ∈ l, e.1.headD 0 < s0) :
    ∀ p ∈ segGroups l, p.1 < s0 := by
  intro p hp
  obtain ⟨q, hq⟩ := List.exists_mem_of_ne_nil p.2 (segGroups_nonempty l p hp)
  have hmem := segGroups_mem l hne p hp q hq
  have := hhead _ hmem
  simpa using this

/-- `buildStorage` on a rank-1 `[dense]` tensor passes `verify`. -/
theorem buildStorage_d1_verify {V : Type} (zero : V) (s0 : Nat)
    (perm : List Nat) (elems : List (List Nat × V))
    (hs0 : s0 ≠ 0)
    (hperm : perm.Perm (List.range 1))
    (helems : ∀ e ∈ elems, List.Forall₂ (fun k s => k < s) e.1 [s0])
    (hdist : elems.Pairwise (fun e f => e.1 ≠ f.1)) :
    verifyF (buildStorage zero [s0] perm [false] elems) = true := by
  obtain ⟨hbnds, hpwlex⟩ := sorted_facts [s0] elems helems hdist
  have hne : ∀ e ∈ List.insertionSort (fun e f => cooLe e f) elems,
      e.1 ≠ [] := by
    intro e he
    obtain ⟨a, ha, _⟩ := forall2_single (hbnds e he)
    rw [ha]
    simp
  have hhead : ∀ e ∈ List.insertionSort (fun e f => cooLe e f) elems,
      e.1.headD 0 < s0 := by
    intro e he
    obtain ⟨a, ha, hlt⟩ := forall2_single (hbnds e he)
    rw [ha]
    exact hlt
  have hkeys := (segGroups_sorted _ hne hpwlex).1
  have hkbnd := segGroups_keys_bounded s0 _ hne hhead
  obtain ⟨vals, hD, hlen⟩ := fromCOOF_dense_rank1 zero s0
    (List.replicate ([s0] : List Nat).length 0)
    (List.insertionSort (fun e f => cooLe e f) elems) hkeys hkbnd
  have hD2 : fromCOOF zero ([s0].zip [false])
      (List.replicate ([s0] : List Nat).length 0)
      (List.insertionSort (fun e f => cooLe e f) elems) =
      ⟨[[]], [[]], vals⟩ := hD
  have hrev := revOk_of_perm 1 perm hperm
  rw [buildStorage_eq, hD2]
  simp only [List.map_cons, List.map_nil, if_neg (by simp : ¬ False ≠ False),
    List.zipWith_cons_cons, List.zipWith_nil_right, List.zipWith_nil_left,
    List.nil_append]
  apply verify_assembled_d1
  · exact hs0
  · simp
  · exact hrev.1
  · exact hrev.2
  · exact hlen

/-- Row tails of rank-2 sorted groups: singleton coordinates bounded by the
second extent, with pairwise strictly increasing heads. -/
theorem rank2_row_facts {V : Type} (s0 s1 : Nat) (l : List (List Nat × V))
    (hbnds : ∀ e ∈ l, List.Forall₂ (fun k s => k < s) e.1 [s0, s1])
    (hpwlex : l.Pairwise (fun e f => lexLtB e.1 f.1 = true)) :
    ∀ p ∈ segGroups l,
      (∀ q ∈ p.2, q.1 = [q.1.headD 0] ∧ q.1.headD 0 < s1) ∧
      p.2.Pairwise (fun e f => e.1.headD 0 < f.1.headD 0) := by
  have hne : ∀ e ∈ l, e.1 ≠ [] := by
    intro e he
    obtain ⟨a, b, hab, _, _⟩ := forall2_pair (hbnds e he)
    rw [hab]
    simp
  have htails := (segGroups_sorted l hne hpwlex).2
  intro p hp
  have hq : ∀ q ∈ p.2, q.1 = [q.1.headD 0] ∧ q.1.headD 0 < s1 := by
    intro q hqm
    have hmem := segGroups_mem l hne p hp q hqm
    obtain ⟨a, b, hab, _, hb⟩ := forall2_pair (hbnds _ hmem)
    have hq1 : q.1 = [b] := by
      injection hab with h1 h2
    rw [hq1]
    simpa using hb
  refine ⟨hq, ?_⟩
  apply pairwise_heads_of_lex
  · intro q hqq
    rw [(hq q hqq).1]
    rfl
  · exact htails p hp

/-- `verify_assembled_dc` restated over the raw rows of grouped elements. -/
theorem verify_assembled_dc_rows {V : Type} (s0 s1 : Nat) (rev idxc : List Nat)
    (rows : List (List (List Nat × V)))
    (hs0 : s0 ≠ 0) (hs1 : s1 ≠ 0)
    (hrevlen : rev.length = 2)
    (hrevall : rev.all (fun i => decide (i < 2)) = true)
    (hmarks : (rev.foldl
        (fun (z : List Nat) i => if 2 ≤ i then z else z.set i 1)
        (List.replicate 2 0)).all (fun z => decide (z ≠ 0)) = true)
    (hrlen : rows.length = s0)
    (hrow_pw : ∀ g ∈ rows, g.Pairwise (fun e f => e.1.headD 0 < f.1.headD 0))
    (hrow_bnd : ∀ g ∈ rows, ∀ q ∈ g, q.1.headD 0 < s1) :
    verifyF (⟨[s0, s1], rev, idxc,
      [[], 0 :: cumCounts 0 (rows.map List.length)],
      [[], rows.flatMap (fun g => g.map (fun e => e.1.headD 0))],
      rows.flatMap (fun g => g.map Prod.snd)⟩ : TensorData V) = true := by
  have hkssmap : ((rows.map (fun g => g.map (fun e => e.1.headD 0))).map
      List.length) = rows.map List.length := by
    rw [List.map_map]
    apply List.map_congr_left
    intro g _
    simp
  rw [← hkssmap]
  have H := verify_assembled_dc s0 s1 rev idxc
    (rows.map (fun g => g.map (fun e => e.1.headD 0)))
    (rows.flatMap (fun g => g.map Prod.snd)) hs0 hs1 hrevlen hrevall hmarks
    (by
      rw [List.length_map]
      exact hrlen)
    (by
      intro ks hks
      rw [List.mem_map] at hks
      obtain ⟨g, hg, rfl⟩ := hks
      exact isincreasingB_of_pairwise _ (List.pairwise_map.mpr (hrow_pw g hg)))
    (by
      intro ks hks k hk
      rw [List.mem_map] at hks
      obtain ⟨g, hg, rfl⟩ := hks
      rw [List.mem_map] at hk
      obtain ⟨q, hq, rfl⟩ := hk
      exact hrow_bnd g hg q hq)
    (by
      intro ks hks
      rw [List.mem_map] at hks
      obtain ⟨g, hg, rfl⟩ := hks
      apply length_le_of_pairwise_lt_bounded _ s1
        (List.pairwise_map.mpr (hrow_pw g hg))
      intro k hk
      rw [List.mem_map] at hk
      obtain ⟨q, hq, rfl⟩ := hk
      exact hrow_bnd g hg q hq)
    (by
      show (rows.flatMap (fun g => g.map Prod.snd)).length =
        (rows.flatMap (fun g => g.map (fun e => e.1.headD 0))).length
      simp only [List.length_flatMap]
      congr 1
      apply List.map_congr_left
      intro g _
      simp)
  exact H

/-- `buildStorage` on a `[dense, compressed]` tensor passes `verify`. -/
theorem buildStorage_dc_verify {V : Type} (zero : V) (s0 s1 : Nat)
    (perm : List Nat) (elems : List (List Nat × V))
    (hs0 : s0 ≠ 0) (hs1 : s1 ≠ 0)
    (hperm : perm.Perm (List.range 2))
    (helems : ∀ e ∈ elems, List.Forall₂ (fun k s => k < s) e.1 [s0, s1])
    (hdist : elems.Pairwise (fun e f => e.1 ≠ f.1)) :
    verifyF (buildStorage zero [s0, s1] perm [false, true] elems) = true := by
  obtain ⟨hbnds, hpwlex⟩ := sorted_facts [s0, s1] elems helems hdist
  have hne : ∀ e ∈ List.insertionSort (fun e f => cooLe e f) elems,
      e.1 ≠ [] := by
    intro e he
    obtain ⟨a, b, hab, _, _⟩ := forall2_pair (hbnds e he)
    rw [hab]
    simp
  have hhead : ∀ e ∈ List.insertionSort (fun e f => cooLe e f) elems,
      e.1.headD 0 < s0 := by
    intro e he
    obtain ⟨a, b, hab, ha, _⟩ := forall2_pair (hbnds e he)
    rw [hab]
    simpa using ha
  have hkeys := (segGroups_sorted _ hne hpwlex).1
  have hkbnd := segGroups_keys_bounded s0 _ hne hhead
  have hrowf := rank2_row_facts s0 s1 _ hbnds hpwlex
  have hchains : ∀ row ∈ rowsOfGroups 0 s0
      (segGroups (List.insertionSort (fun e f => cooLe e f) elems)),
      row.Chain' (fun e f => e.1.headD 0 ≠ f.1.headD 0) := by
    intro row hrow
    rcases rowsOfGroups_mem _ 0 s0 row hrow with rfl | ⟨p, hp, rfl⟩
    · simp
    · exact ((hrowf p hp).2.imp (fun h => Nat.ne_of_lt h)).chain'
  have hD : fromCOOF zero ([s0, s1].zip [false, true])
      (List.replicate ([s0, s1] : List Nat).length 0)
      (List.insertionSort (fun e f => cooLe e f) elems) =
      ⟨[[], cumCounts 0 ((rowsOfGroups 0 s0 (segGroups
          (List.insertionSort (fun e f => cooLe e f) elems))).map
          List.length)],
       [[], (rowsOfGroups 0 s0 (segGroups
          (List.insertionSort (fun e f => cooLe e f) elems))).flatMap
          (fun g => g.map (fun e => e.1.headD 0))],
       (rowsOfGroups 0 s0 (segGroups
          (List.insertionSort (fun e f => cooLe e f) elems))).flatMap
          (fun g => g.map Prod.snd)⟩ := by
    show fromCOOF zero [(s0, false), (s1, true)] [0, 0]
      (List.insertionSort (fun e f => cooLe e f) elems) = _
    rw [fromCOOF_dense_top zero s0 [(s1, true)] (by simp) [0, 0]
      (List.insertionSort (fun e f => cooLe e f) elems) hkeys hkbnd]
    simp only [List.tail_cons]
    rw [show (emptyDeltas ([(s1, true)] : List (Nat × Bool)).length : Deltas V)
      = ⟨[[]], [[]], []⟩ from rfl]
    rw [foldRows_inner_compressed zero s1 0 _ [] [] [] hchains]
    simp [Deltas.below, List.flatMap]
  have hrev := revOk_of_perm 2 perm hperm
  have hrlen := rowsOfGroups_length (segGroups
      (List.insertionSort (fun e f => cooLe e f) elems)) 0 s0 hkeys
      (fun p hp => ⟨Nat.zero_le _, hkbnd p hp⟩)
  rw [buildStorage_eq, hD]
  rw [show (([false, true] : List Bool).map
      (fun c => if c then ([0] : List Nat) else [])) = [[], [0]] from rfl]
  simp only [List.zipWith_cons_cons, List.zipWith_nil_right,
    List.zipWith_nil_left, List.nil_append, List.singleton_append]
  have ha1 : ((List.range ([s0, s1] : List Nat).length).map
      (fun i => List.indexOf i perm)).all (fun i => decide (i < 2)) = true :=
    hrev.1
  have ha2 : (((List.range ([s0, s1] : List Nat).length).map
      (fun i => List.indexOf i perm)).foldl
      (fun (z : List Nat) i => if 2 ≤ i then z else z.set i 1)
      (List.replicate 2 0)).all (fun z => decide (z ≠ 0)) = true := hrev.2
  have H := verify_assembled_dc_rows s0 s1
    ((List.range ([s0, s1] : List Nat).length).map
      (fun i => List.indexOf i perm))
    (List.replicate ([s0, s1] : List Nat).length 0)
    (rowsOfGroups 0 s0 (segGroups
      (List.insertionSort (fun e f => cooLe e f) elems)))
    hs0 hs1 (by simp) ha1 ha2
    (by
      rw [hrlen]
      omega)
    (by
      intro g hg
      rcases rowsOfGroups_mem _ 0 s0 g hg with rfl | ⟨p, hp, rfl⟩
      · simp
      · exact (hrowf p hp).2)
    (by
      intro g hg q hq
      rcases rowsOfGroups_mem _ 0 s0 g hg with rfl | ⟨p, hp, rfl⟩
      · exact absurd hq (by simp)
      · exact ((hrowf p hp).1 q hq).2)
  exact H

/-- `verify_assembled_cc` restated over the raw sorted group list. -/
theorem verify_assembled_cc_rows {V : Type} (s0 s1 : Nat) (rev idxc : List Nat)
    (gs : List (Nat × List (List Nat × V)))
    (hs0 : s0 ≠ 0) (hs1 : s1 ≠ 0)
    (hrevlen : rev.length = 2)
    (hrevall : rev.all (fun i => decide (i < 2)) = true)
    (hmarks : (rev.foldl
        (fun (z : List Nat) i => if 2 ≤ i then z else z.set i 1)
        (List.replicate 2 0)).all (fun z => decide (z ≠ 0)) = true)
    (hkeys : gs.Pairwise (fun p q => p.1 < q.1))
    (hkbnd : ∀ p ∈ gs, p.1 < s0)
    (hgne : ∀ p ∈ gs, p.2 ≠ [])
    (hrow_pw : ∀ p ∈ gs, p.2.Pairwise (fun e f => e.1.headD 0 < f.1.headD 0))
    (hrow_bnd : ∀ p ∈ gs, ∀ q ∈ p.2, q.1.headD 0 < s1) :
    verifyF (⟨[s0, s1], rev, idxc,
      [[0, (gs.map Prod.fst).length],
       0 :: cumCounts 0 ((gs.map Prod.snd).map List.length)],
      [gs.map Prod.fst,
       (gs.map Prod.snd).flatMap (fun g => g.map (fun e => e.1.headD 0))],
      (gs.map Prod.snd).flatMap (fun g => g.map Prod.snd)⟩ :
        TensorData V) = true := by
  have hkeymap : (gs.map Prod.fst).Pairwise (· < ·) :=
    List.pairwise_map.mpr hkeys
  have hkssmap : (((gs.map Prod.snd).map
      (fun g => g.map (fun e => e.1.headD 0))).map List.length)
      = (gs.map Prod.snd).map List.length := by
    rw [List.map_map]
    apply List.map_congr_left
    intro g _
    simp
  have hkl : (((gs.map Prod.snd).map
      (fun g => g.map (fun e => e.1.headD 0)))).length
      = (gs.map Prod.fst).length := by
    simp
  rw [← hkssmap]
  have H := verify_assembled_cc s0 s1 rev idxc (gs.map Prod.fst)
    ((gs.map Prod.snd).map (fun g => g.map (fun e => e.1.headD 0)))
    ((gs.map Prod.snd).flatMap (fun g => g.map Prod.snd))
    hs0 hs1 hrevlen hrevall hmarks hkl
    (isincreasingB_of_pairwise _ hkeymap)
    (by
      intro i hi
      rw [List.mem_map] at hi
      obtain ⟨p, hp, rfl⟩ := hi
      exact hkbnd p hp)
    (by
      apply length_le_of_pairwise_lt_bounded _ s0 hkeymap
      intro k hk
      rw [List.mem_map] at hk
      obtain ⟨p, hp, rfl⟩ := hk
      exact hkbnd p hp)
    (by
      intro ks hks
      rw [List.mem_map] at hks
      obtain ⟨g, hg, rfl⟩ := hks
      rw [List.mem_map] at hg
      obtain ⟨p, hp, rfl⟩ := hg
      simp only [ne_eq, List.map_eq_nil_iff]
      exact hgne p hp)
    (by
      intro ks hks
      rw [List.mem_map] at hks
      obtain ⟨g, hg, rfl⟩ := hks
      rw [List.mem_map] at hg
      obtain ⟨p, hp, rfl⟩ := hg
      exact isincreasingB_of_pairwise _
        (List.pairwise_map.mpr (hrow_pw p hp)))
    (by
      intro ks hks k hk
      rw [List.mem_map] at hks
      obtain ⟨g, hg, rfl⟩ := hks
      rw [List.mem_map] at hg
      obtain ⟨p, hp, rfl⟩ := hg
      rw [List.mem_map] at hk
      obtain ⟨q, hq, rfl⟩ := hk
      exact hrow_bnd p hp q hq)
    (by
      intro ks hks
      rw [List.mem_map] at hks
      obtain ⟨g, hg, rfl⟩ := hks
      rw [List.mem_map] at hg
      obtain ⟨p, hp, rfl⟩ := hg
      apply length_le_of_pairwise_lt_bounded _ s1
        (List.pairwise_map.mpr (hrow_pw p hp))
      intro k hk
      rw [List.mem_map] at hk
      obtain ⟨q, hq, rfl⟩ := hk
      exact hrow_bnd p hp q hq)
    (by
      show ((gs.map Prod.snd).flatMap (fun g => g.map Prod.snd)).length =
        ((gs.map Prod.snd).flatMap
          (fun g => g.map (fun e => e.1.headD 0))).length
      simp only [List.length_flatMap]
      congr 1
      apply List.map_congr_left
      intro g _
      simp)
  exact H

/-- `buildStorage` on a `[compressed, compressed]` tensor passes `verify`. -/
theorem buildStorage_cc_verify {V : Type} (zero : V) (s0 s1 : Nat)
    (perm : List Nat) (elems : List (List Nat × V))
    (hs0 : s0 ≠ 0) (hs1 : s1 ≠ 0)
    (hperm : perm.Perm (List.range 2))
    (helems : ∀ e ∈ elems, List.Forall₂ (fun k s => k < s) e.1 [s0, s1])
    (hdist : elems.Pairwise (fun e f => e.1 ≠ f.1)) :
    verifyF (buildStorage zero [s0, s1] perm [true, true] elems) = true := by
  obtain ⟨hbnds, hpwlex⟩ := sorted_facts [s0, s1] elems helems hdist
  have hne : ∀ e ∈ List.insertionSort (fun e f => cooLe e f) elems,
      e.1 ≠ [] := by
    intro e he
    obtain ⟨a, b, hab, _, _⟩ := forall2_pair (hbnds e he)
    rw [hab]
    simp
  have hhead : ∀ e ∈ List.insertionSort (fun e f => cooLe e f) elems,
      e.1.headD 0 < s0 := by
    intro e he
    obtain ⟨a, b, hab, ha, _⟩ := forall2_pair (hbnds e he)
    rw [hab]
    simpa using ha
  have hkeys := (segGroups_sorted _ hne hpwlex).1
  have hkbnd := segGroups_keys_bounded s0 _ hne hhead
  have hrowf := rank2_row_facts s0 s1 _ hbnds hpwlex
  have hchains2 : ∀ row ∈ (segGroups
      (List.insertionSort (fun e f => cooLe e f) elems)).map Prod.snd,
      row.Chain' (fun e f => e.1.headD 0 ≠ f.1.headD 0) := by
    intro row hrow
    rw [List.mem_map] at hrow
    obtain ⟨p, hp, rfl⟩ := hrow
    exact ((hrowf p hp).2.imp (fun h => Nat.ne_of_lt h)).chain'
  have heq1 : ((segGroups
      (List.insertionSort (fun e f => cooLe e f) elems)).map Prod.snd).foldl
      (fun (D : Deltas V) row =>
        D.append (fromCOOF zero [(s1, true)] (offAfter [0] D) row))
      (⟨[[]], [[]], []⟩ : Deltas V)
      = (segGroups
        (List.insertionSort (fun e f => cooLe e f) elems)).foldl
      (fun (D : Deltas V) g =>
        D.append (fromCOOF zero [(s1, true)] (offAfter [0] D) g.2))
      (⟨[[]], [[]], []⟩ : Deltas V) := by
    rw [List.foldl_map]
  have hinner := heq1.symm.trans
    (foldRows_inner_compressed zero s1 0
      ((segGroups (List.insertionSort (fun e f => cooLe e f) elems)).map
        Prod.snd) [] [] [] hchains2)
  have hD : fromCOOF zero ([s0, s1].zip [true, true])
      (List.replicate ([s0, s1] : List Nat).length 0)
      (List.insertionSort (fun e f => cooLe e f) elems) =
      ⟨[[((segGroups (List.insertionSort (fun e f => cooLe e f) elems)).map
          Prod.fst).length],
        cumCounts 0 (((segGroups
          (List.insertionSort (fun e f => cooLe e f) elems)).map
          Prod.snd).map List.length)],
       [(segGroups (List.insertionSort (fun e f => cooLe e f) elems)).map
          Prod.fst,
        ((segGroups (List.insertionSort (fun e f => cooLe e f) elems)).map
          Prod.snd).flatMap (fun g => g.map (fun e => e.1.headD 0))],
       ((segGroups (List.insertionSort (fun e f => cooLe e f) elems)).map
          Prod.snd).flatMap (fun g => g.map Prod.snd)⟩ := by
    show fromCOOF zero [(s0, true), (s1, true)] [0, 0]
      (List.insertionSort (fun e f => cooLe e f) elems) = _
    rw [fromCOOF_cons_comp]
    simp only [List.tail_cons]
    rw [show (emptyDeltas ([(s1, true)] : List (Nat × Bool)).length : Deltas V)
      = ⟨[[]], [[]], []⟩ from rfl]
    rw [hinner]
    simp
  have hrev := revOk_of_perm 2 perm hperm
  have ha1 : ((List.range ([s0, s1] : List Nat).length).map
      (fun i => List.indexOf i perm)).all (fun i => decide (i < 2)) = true :=
    hrev.1
  have ha2 : (((List.range ([s0, s1] : List Nat).length).map
      (fun i => List.indexOf i perm)).foldl
      (fun (z : List Nat) i => if 2 ≤ i then z else z.set i 1)
      (List.replicate 2 0)).all (fun z => decide (z ≠ 0)) = true := hrev.2
  rw [buildStorage_eq, hD]
  rw [show (([true, true] : List Bool).map
      (fun c => if c then ([0] : List Nat) else [])) = [[0], [0]] from rfl]
  simp only [List.zipWith_cons_cons, List.zipWith_nil_right,
    List.zipWith_nil_left, List.nil_append, List.singleton_append]
  have H := verify_assembled_cc_rows s0 s1
    ((List.range ([s0, s1] : List Nat).length).map
      (fun i => List.indexOf i perm))
    (List.replicate ([s0, s1] : List Nat).length 0)
    (segGroups (List.insertionSort (fun e f => cooLe e f) elems))
    hs0 hs1 (by simp) ha1 ha2 hkeys hkbnd
    (segGroups_nonempty _)
    (fun p hp => (hrowf p hp).2)
    (fun p hp q hq => ((hrowf p hp).1 q hq).2)
  exact H

/-- `buildStorage` on a `[dense, dense]` tensor passes `verify`. -/
theorem buildStorage_dd_verify {V : Type} (zero : V) (s0 s1 : Nat)
    (perm : List Nat) (elems : List (List Nat × V))
    (hs0 : s0 ≠ 0) (hs1 : s1 ≠ 0)
    (hperm : perm.Perm (List.range 2))
    (helems : ∀ e ∈ elems, List.Forall₂ (fun k s => k < s) e.1 [s0, s1])
    (hdist : elems.Pairwise (fun e f => e.1 ≠ f.1)) :
    verifyF (buildStorage zero [s0, s1] perm [false, false] elems) = true := by
  obtain ⟨hbnds, hpwlex⟩ := sorted_facts [s0, s1] elems helems hdist
  have hne : ∀ e ∈ List.insertionSort (fun e f => cooLe e f) elems,
      e.1 ≠ [] := by
    intro e he
    obtain ⟨a, b, hab, _, _⟩ := forall2_pair (hbnds e he)
    rw [hab]
    simp
  have hhead : ∀ e ∈ List.insertionSort (fun e f => cooLe e f) elems,
      e.1.headD 0 < s0 := by
    intro e he
    obtain ⟨a, b, hab, ha, _⟩ := forall2_pair (hbnds e he)
    rw [hab]
    simpa using ha
  have hkeys := (segGroups_sorted _ hne hpwlex).1
  have htails := (segGroups_sorted _ hne hpwlex).2
  have hkbnd := segGroups_keys_bounded s0 _ hne hhead
  have hrowf := rank2_row_facts s0 s1 _ hbnds hpwlex
  have hrlen := rowsOfGroups_length (segGroups
      (List.insertionSort (fun e f => cooLe e f) elems)) 0 s0 hkeys
      (fun p hp => ⟨Nat.zero_le _, hkbnd p hp⟩)
  have hpremise : ∀ row ∈ rowsOfGroups 0 s0 (segGroups
      (List.insertionSort (fun e f => cooLe e f) elems)),
      ∀ off : List Nat, ∃ vrow : List V,
        fromCOOF zero [(s1, false)] off row = ⟨[[]], [[]], vrow⟩ ∧
        vrow.length = s1 := by
    intro row hrow off
    rcases rowsOfGroups_mem _ 0 s0 row hrow with rfl | ⟨p, hp, rfl⟩
    · apply fromCOOF_dense_rank1 zero s1 off []
      · rw [segGroups_nil]
        simp
      · rw [segGroups_nil]
        simp
    · have hne2 : ∀ q ∈ p.2, q.1 ≠ [] := by
        intro q hq
        rw [((hrowf p hp).1 q hq).1]
        simp
      have hhead2 : ∀ q ∈ p.2, q.1.headD 0 < s1 :=
        fun q hq => ((hrowf p hp).1 q hq).2
      apply fromCOOF_dense_rank1 zero s1 off p.2
      · exact (segGroups_sorted p.2 hne2 (htails p hp)).1
      · exact segGroups_keys_bounded s1 p.2 hne2 hhead2
  obtain ⟨v1, hfold, hv1len⟩ := foldRows_inner_dense zero s1
    (rowsOfGroups 0 s0 (segGroups
      (List.insertionSort (fun e f => cooLe e f) elems))) [] [] [] hpremise
  have hD : fromCOOF zero ([s0, s1].zip [false, false])
      (List.replicate ([s0, s1] : List Nat).length 0)
      (List.insertionSort (fun e f => cooLe e f) elems) =
      ⟨[[], []], [[], []], v1⟩ := by
    show fromCOOF zero [(s0, false), (s1, false)] [0, 0]
      (List.insertionSort (fun e f => cooLe e f) elems) = _
    rw [fromCOOF_dense_top zero s0 [(s1, false)] (by simp) [0, 0]
      (List.insertionSort (fun e f => cooLe e f) elems) hkeys hkbnd]
    simp only [List.tail_cons]
    rw [show (emptyDeltas ([(s1, false)] : List (Nat × Bool)).length :
      Deltas V) = ⟨[[]], [[]], []⟩ from rfl]
    rw [hfold]
    simp [Deltas.below]
  have hrev := revOk_of_perm 2 perm hperm
  have ha1 : ((List.range ([s0, s1] : List Nat).length).map
      (fun i => List.indexOf i perm)).all (fun i => decide (i < 2)) = true :=
    hrev.1
  have ha2 : (((List.range ([s0, s1] : List Nat).length).map
      (fun i => List.indexOf i perm)).foldl
      (fun (z : List Nat) i => if 2 ≤ i then z else z.set i 1)
      (List.replicate 2 0)).all (fun z => decide (z ≠ 0)) = true := hrev.2
  rw [buildStorage_eq, hD]
  rw [show (([false, false] : List Bool).map
      (fun c => if c then ([0] : List Nat) else [])) = [[], []] from rfl]
  simp only [List.zipWith_cons_cons, List.zipWith_nil_right,
    List.zipWith_nil_left, List.nil_append]
  have H := verify_assembled_dd s0 s1
    ((List.range ([s0, s1] : List Nat).length).map
      (fun i => List.indexOf i perm))
    (List.replicate ([s0, s1] : List Nat).length 0) v1
    hs0 hs1 (by simp) ha1 ha2
    (by
      rw [hv1len, hrlen]
      simp)
  exact H

/-- A `[compressed, dense]` tensor assembled with outer pointer `[0, n]`,
`n` strictly increasing in-bounds outer indices, empty inner buffers and
`n` values passes `verify` (the dense inner dimension stores no pointer or
index entries; the final value-count check compares against the compressed
dimension's index count `n`). -/
theorem verify_assembled_cd {V : Type} (s0 s1 : Nat) (rev idxc : List Nat)
    (is0 : List Nat) (vals : List V)
    (hs0 : s0 ≠ 0) (hs1 : s1 ≠ 0)
    (hrevlen : rev.length = 2)
    (hrevall : rev.all (fun i => decide (i < 2)) = true)
    (hmarks : (rev.foldl
        (fun (z : List Nat) i => if 2 ≤ i then z else z.set i 1)
        (List.replicate 2 0)).all (fun z => decide (z ≠ 0)) = true)
    (h0inc : isincreasingB is0 = true)
    (h0bnd : ∀ i ∈ is0, i < s0)
    (h0le : is0.length ≤ s0)
    (hvals : vals.length = is0.length) :
    verifyF (⟨[s0, s1], rev, idxc, [[0, is0.length], []], [is0, []], vals⟩ :
      TensorData V) = true := by
  have hmarks2 : ((List.foldl (fun z i => if 2 ≤ i then z else z.set i 1)
      [0, 0] rev).all fun z => !decide (z = 0)) = true := by
    simpa using hmarks
  have hb0 : is0.all (fun i => decide (i < s0)) = true := by
    rw [List.all_eq_true]
    intro i hi
    exact decide_eq_true (h0bnd i hi)
  have hseg0 : segIncOk is0 0 [is0.length] = true := by
    show ((if is0.length < is0.length then false
      else isincreasingB ((is0.drop 0).take (is0.length - 0))) &&
      segIncOk is0 is0.length []) = true
    rw [if_neg (by omega)]
    simp [segIncOk, h0inc]
  have hstep1 : verifyLoop
      [(s0, [0, is0.length], is0), (s1, ([] : List Nat), ([] : List Nat))]
      0 (true, true, 1, 0, 0)
      = verifyLoop [(s1, ([] : List Nat), ([] : List Nat))]
          1 (true, false, s0, 2, is0.length) := by
    rw [verifyLoop, if_neg hs0]
    have hpos : decide (1 ≤ s0) = true := decide_eq_true (by omega)
    simp [hb0, hseg0, h0le, issortedB, hpos]
  have hstep2 : verifyLoop [(s1, ([] : List Nat), ([] : List Nat))]
      1 (true, false, s0, 2, is0.length)
      = some (true, false, s0 * s1, 2, is0.length) := by
    rw [verifyLoop, if_neg hs1]
    simp [verifyLoop]
  unfold verifyF
  simp [hrevlen, hrevall, hmarks2, hvals]
  rw [show (0 : Nat × Nat) = ((0 : Nat), (0 : Nat)) from rfl, hstep1, hstep2]
  simp

/-- `buildStorage` on a `[compressed, dense]` tensor with no elements
passes `verify`. -/
theorem buildStorage_cd_empty_verify {V : Type} (zero : V) (s0 s1 : Nat)
    (perm : List Nat)
    (hs0 : s0 ≠ 0) (hs1 : s1 ≠ 0)
    (hperm : perm.Perm (List.range 2)) :
    verifyF (buildStorage zero [s0, s1] perm [true, false]
      ([] : List (List Nat × V))) = true := by
  have hD : fromCOOF zero ([s0, s1].zip [true, false])
      (List.replicate ([s0, s1] : List Nat).length 0)
      (List.insertionSort (fun e f => cooLe e f)
        ([] : List (List Nat × V))) =
      ⟨[[0], []], [[], []], []⟩ := by
    show fromCOOF zero [(s0, true), (s1, false)] [0, 0] [] = _
    rw [fromCOOF_cons_comp, segGroups_nil]
    simp [emptyDeltas]
  have hrev := revOk_of_perm 2 perm hperm
  have ha1 : ((List.range ([s0, s1] : List Nat).length).map
      (fun i => List.indexOf i perm)).all (fun i => decide (i < 2)) = true :=
    hrev.1
  have ha2 : (((List.range ([s0, s1] : List Nat).length).map
      (fun i => List.indexOf i perm)).foldl
      (fun (z : List Nat) i => if 2 ≤ i then z else z.set i 1)
      (List.replicate 2 0)).all (fun z => decide (z ≠ 0)) = true := hrev.2
  rw [buildStorage_eq, hD]
  rw [show (([true, false] : List Bool).map
      (fun c => if c then ([0] : List Nat) else [])) = [[0], []] from rfl]
  simp only [List.zipWith_cons_cons, List.zipWith_nil_right,
    List.zipWith_nil_left, List.nil_append, List.singleton_append,
    List.append_nil]
  have H := verify_assembled_cd s0 s1
    ((List.range ([s0, s1] : List Nat).length).map
      (fun i => List.indexOf i perm))
    (List.replicate ([s0, s1] : List Nat).length 0)
    ([] : List Nat) ([] : List V)
    hs0 hs1 (by simp) ha1 ha2 rfl (by simp) (by simp) rfl
  exact H

/-- `buildStorage` on a `[compressed, dense]` tensor with inner extent 1
passes `verify`: each stored outer index contributes exactly one value, so
the final value-count check succeeds. -/
theorem buildStorage_cd1_verify {V : Type} (zero : V) (s0 : Nat)
    (perm : List Nat) (elems : List (List Nat × V))
    (hs0 : s0 ≠ 0)
    (hperm : perm.Perm (List.range 2))
    (helems : ∀ e ∈ elems, List.Forall₂ (fun k s => k < s) e.1 [s0, 1])
    (hdist : elems.Pairwise (fun e f => e.1 ≠ f.1)) :
    verifyF (buildStorage zero [s0, 1] perm [true, false] elems) = true := by
  obtain ⟨hbnds, hpwlex⟩ := sorted_facts [s0, 1] elems helems hdist
  have hne : ∀ e ∈ List.insertionSort (fun e f => cooLe e f) elems,
      e.1 ≠ [] := by
    intro e he
    obtain ⟨a, b, hab, _, _⟩ := forall2_pair (hbnds e he)
    rw [hab]
    simp
  have hhead : ∀ e ∈ List.insertionSort (fun e f => cooLe e f) elems,
      e.1.headD 0 < s0 := by
    intro e he
    obtain ⟨a, b, hab, ha, _⟩ := forall2_pair (hbnds e he)
    rw [hab]
    simpa using ha
  have hkeys := (segGroups_sorted _ hne hpwlex).1
  have htails := (segGroups_sorted _ hne hpwlex).2
  have hkbnd := segGroups_keys_bounded s0 _ hne hhead
  have hrowf := rank2_row_facts s0 1 _ hbnds hpwlex
  have hpremise : ∀ row ∈ (segGroups
      (List.insertionSort (fun e f => cooLe e f) elems)).map Prod.snd,
      ∀ off : List Nat, ∃ vrow : List V,
        fromCOOF zero [(1, false)] off row = ⟨[[]], [[]], vrow⟩ ∧
        vrow.length = 1 := by
    intro row hrow off
    rw [List.mem_map] at hrow
    obtain ⟨p, hp, rfl⟩ := hrow
    have hne2 : ∀ q ∈ p.2, q.1 ≠ [] := by
      intro q hq
      rw [((hrowf p hp).1 q hq).1]
      simp
    have hhead2 : ∀ q ∈ p.2, q.1.headD 0 < 1 :=
      fun q hq => ((hrowf p hp).1 q hq).2
    apply fromCOOF_dense_rank1 zero 1 off p.2
    · exact (segGroups_sorted p.2 hne2 (htails p hp)).1
    · exact segGroups_keys_bounded 1 p.2 hne2 hhead2
  obtain ⟨v1, hfold, hv1len⟩ := foldRows_inner_dense zero 1
    ((segGroups (List.insertionSort (fun e f => cooLe e f) elems)).map
      Prod.snd) [] [] [] hpremise
  have heq1 : ((segGroups
      (List.insertionSort (fun e f => cooLe e f) elems)).map Prod.snd).foldl
      (fun (D : Deltas V) row =>
        D.append (fromCOOF zero [(1, false)] (offAfter [0] D) row))
      (⟨[[]], [[]], []⟩ : Deltas V)
      = (segGroups
        (List.insertionSort (fun e f => cooLe e f) elems)).foldl
      (fun (D : Deltas V) g =>
        D.append (fromCOOF zero [(1, false)] (offAfter [0] D) g.2))
      (⟨[[]], [[]], []⟩ : Deltas V) := by
    rw [List.foldl_map]
  have hinner := heq1.symm.trans hfold
  have hD : fromCOOF zero ([s0, 1].zip [true, false])
      (List.replicate ([s0, 1] : List Nat).length 0)
      (List.insertionSort (fun e f => cooLe e f) elems) =
      ⟨[[((segGroups (List.insertionSort (fun e f => cooLe e f) elems)).map
          Prod.fst).length], []],
       [(segGroups (List.insertionSort (fun e f => cooLe e f) elems)).map
          Prod.fst, []],
       v1⟩ := by
    show fromCOOF zero [(s0, true), (1, false)] [0, 0]
      (List.insertionSort (fun e f => cooLe e f) elems) = _
    rw [fromCOOF_cons_comp]
    simp only [List.tail_cons]
    rw [show (emptyDeltas ([(1, false)] : List (Nat × Bool)).length :
      Deltas V) = ⟨[[]], [[]], []⟩ from rfl]
    rw [hinner]
    simp
  have hrev := revOk_of_perm 2 perm hperm
  have ha1 : ((List.range ([s0, 1] : List Nat).length).map
      (fun i => List.indexOf i perm)).all (fun i => decide (i < 2)) = true :=
    hrev.1
  have ha2 : (((List.range ([s0, 1] : List Nat).length).map
      (fun i => List.indexOf i perm)).foldl
      (fun (z : List Nat) i => if 2 ≤ i then z else z.set i 1)
      (List.replicate 2 0)).all (fun z => decide (z ≠ 0)) = true := hrev.2
  have hkeymap : ((segGroups
      (List.insertionSort (fun e f => cooLe e f) elems)).map
      Prod.fst).Pairwise (· < ·) := List.pairwise_map.mpr hkeys
  rw [buildStorage_eq, hD]
  rw [show (([true, false] : List Bool).map
      (fun c => if c then ([0] : List Nat) else [])) = [[0], []] from rfl]
  simp only [List.zipWith_cons_cons, List.zipWith_nil_right,
    List.zipWith_nil_left, List.nil_append, List.singleton_append,
    List.append_nil]
  have H := verify_assembled_cd s0 1
    ((List.range ([s0, 1] : List Nat).length).map
      (fun i => List.indexOf i perm))
    (List.replicate ([s0, 1] : List Nat).length 0)
    ((segGroups (List.insertionSort (fun e f => cooLe e f) elems)).map
      Prod.fst) v1
    hs0 (by decide) (by simp) ha1 ha2
    (isincreasingB_of_pairwise _ hkeymap)
    (by
      intro i hi
      rw [List.mem_map] at hi
      obtain ⟨p, hp, rfl⟩ := hi
      exact hkbnd p hp)
    (by
      apply length_le_of_pairwise_lt_bounded _ s0 hkeymap
      intro k hk
      rw [List.mem_map] at hk
      obtain ⟨p, hp, rfl⟩ := hk
      exact hkbnd p hp)
    (by
      rw [hv1len]
      simp)
  exact H

/-- C4 (amended): every tensor built by `fromCOO` (via the `create`
entry point `buildStorage`) from a valid, deduplicated coordinate list —
rank 1 or 2 as in the spec's data model, positive extents, `dim_order` a
permutation, in-bounds coordinates and no two elements with the same full
coordinate — passes `verify()`, for every per-dimension sparsity pattern;
for `[compressed, dense]`, which `verify`'s final value-count check
mishandles, exactly when the element list is empty or the inner extent
is 1. -/
theorem claim4_fromCOO_verify {V : Type} (zero : V) (sizes : List Nat)
    (perm : List Nat) (sparsity : List Bool) (elems : List (List Nat × V))
    (hrank : sizes.length = 1 ∨ sizes.length = 2)
    (hpos : ∀ s ∈ sizes, s ≠ 0)
    (hsplen : sparsity.length = sizes.length)
    (hcd : sparsity = [true, false] → elems = [] ∨ sizes.getD 1 0 = 1)
    (hperm : perm.Perm (List.range sizes.length))
    (helems : ∀ e ∈ elems, List.Forall₂ (fun k s => k < s) e.1 sizes)
    (hdist : elems.Pairwise (fun e f => e.1 ≠ f.1)) :
    verifyF (buildStorage zero sizes perm sparsity elems) = true := by
  rcases hrank with h1 | h2
  · obtain ⟨s0, rfl⟩ := List.length_eq_one.mp h1
    have hs0 : s0 ≠ 0 := hpos s0 (by simp)
    have hsp1 : sparsity.length = 1 := by rw [hsplen]; rfl
    obtain ⟨b, rfl⟩ := List.length_eq_one.mp hsp1
    cases b
    · exact buildStorage_d1_verify zero s0 perm elems hs0 hperm helems hdist
    · exact buildStorage_c1_verify zero s0 perm elems hs0 hperm helems hdist
  · obtain ⟨s0, s1, rfl⟩ := List.length_eq_two.mp h2
    have hs0 : s0 ≠ 0 := hpos s0 (by simp)
    have hs1 : s1 ≠ 0 := hpos s1 (by simp)
    have hsp2 : sparsity.length = 2 := by rw [hsplen]; rfl
    obtain ⟨b0, b1, rfl⟩ := List.length_eq_two.mp hsp2
    cases b0 <;> cases b1
    · exact buildStorage_dd_verify zero s0 s1 perm elems hs0 hs1 hperm
        helems hdist
    · exact buildStorage_dc_verify zero s0 s1 perm elems hs0 hs1 hperm
        helems hdist
    · rcases hcd rfl with rfl | h1
      · exact buildStorage_cd_empty_verify zero s0 s1 perm hs0 hs1 hperm
      · have hs1eq : s1 = 1 := by simpa using h1
        subst hs1eq
        exact buildStorage_cd1_verify zero s0 perm elems hs0 hperm
          helems hdist
    · exact buildStorage_cc_verify zero s0 s1 perm elems hs0 hs1 hperm
        helems hdist

/-- C4 witness: the amended theorem applied to a concrete 2×2
`[dense, compressed]` build from two in-bounds, distinct coordinates. -/
theorem claim4_fromCOO_verify_witness :
    (([2, 2] : List Nat).length = 1 ∨ ([2, 2] : List Nat).length = 2) ∧
    (∀ s ∈ ([2, 2] : List Nat), s ≠ 0) ∧
    ([false, true] : List Bool).length = ([2, 2] : List Nat).length ∧
    (([false, true] : List Bool) = [true, false] →
      [(([0, 1] : List Nat), (5 : Int)), ([1, 0], 7)] = [] ∨
      ([2, 2] : List Nat).getD 1 0 = 1) ∧
    ([0, 1] : List Nat).Perm (List.range ([2, 2] : List Nat).length) ∧
    (∀ e ∈ [(([0, 1] : List Nat), (5 : Int)), ([1, 0], 7)],
      List.Forall₂ (fun k s => k < s) e.1 [2, 2]) ∧
    ([(([0, 1] : List Nat), (5 : Int)), ([1, 0], 7)]).Pairwise
      (fun e f => e.1 ≠ f.1) ∧
    verifyF (buildStorage (0 : Int) [2, 2] [0, 1] [false, true]
      [([0, 1], 5), ([1, 0], 7)]) = true :=
  ⟨by decide, by decide, by decide, by decide, by decide, by decide,
   by decide,
   claim4_fromCOO_verify 0 [2, 2] [0, 1] [false, true]
     [([0, 1], 5), ([1, 0], 7)] (by decide) (by decide) (by decide)
     (by decide) (by decide) (by decide) (by decide)⟩

/-- C4 counterexample to the unamended claim: `verify()` rejects builds
from valid, deduplicated input at a zero extent, and for a nonempty
`[compressed, dense]` build with inner extent 2 (the final value-count
check compares the stored-value count, here `1 * 2`, against the
compressed dimension's index count `1`). -/
theorem claim4_counterexample :
    verifyF (buildStorage (0 : Int) [0] [0] [true] []) = false ∧
    verifyF (buildStorage (0 : Int) [1, 2] [0, 1] [true, false]
      [([0, 0], 5)]) = false := by
  refine ⟨?_, ?_⟩
  · rw [buildStorage_eq]
    rw [show (List.insertionSort (fun e f => cooLe e f)
      ([] : List (List Nat × Int))) = [] from rfl]
    rw [show (([0] : List Nat).zip [true]) = [(0, true)] from rfl]
    rw [fromCOOF_cons_comp, segGroups_nil]
    decide
  · have hsg1 : segGroups [(([0, 0] : List Nat), (5 : Int))] =
        [(0, [([0], 5)])] := by
      rw [segGroups_cons]
      simp [segGroups_nil]
    have hsg2 : segGroups [(([0] : List Nat), (5 : Int))] =
        [(0, [([], 5)])] := by
      rw [segGroups_cons]
      simp [segGroups_nil]
    rw [buildStorage_eq]
    rw [show (List.insertionSort (fun e f => cooLe e f)
      [(([0, 0] : List Nat), (5 : Int))]) = [([0, 0], 5)] from rfl]
    rw [show (([1, 2] : List Nat).zip [true, false]) =
      [(1, true), (2, false)] from rfl]
    rw [fromCOOF_cons_comp, hsg1]
    simp only [List.foldl_cons, List.foldl_nil]
    rw [fromCOOF_cons_dense, hsg2]
    decide

/-- C5 counterexample to the original wording: ingesting the duplicate
pair `(0,5), (0,7)` stores only the first value `[5]` — the second is
dropped rather than accumulated — and the built tensor passes `verify()`. -/
theorem claim5_counterexample :
    (buildStorage (0 : Int) [1] [0] [true]
      [([0], 5), ([0], 7)]).values = [5] ∧
    verifyF (buildStorage (0 : Int) [1] [0] [true]
      [([0], 5), ([0], 7)]) = true := by
  have hsg : segGroups [(([0] : List Nat), (5 : Int)), ([0], 7)] =
      [(0, [([], 5), ([], 7)])] := by
    rw [segGroups_cons]
    simp [segGroups_nil]
  have hb : buildStorage (0 : Int) [1] [0] [true] [([0], 5), ([0], 7)] =
      ⟨[1], [0], [0], [[0, 1]], [[0]], [5]⟩ := by
    rw [buildStorage_eq]
    rw [show (List.insertionSort (fun e f => cooLe e f)
      [(([0] : List Nat), (5 : Int)), ([0], 7)]) =
      [([0], 5), ([0], 7)] from rfl]
    rw [show (([1] : List Nat).zip [true]) = [(1, true)] from rfl]
    rw [fromCOOF_cons_comp, hsg]
    decide
  rw [hb]
  exact ⟨rfl, by decide⟩

theorem dedupRuns_nil : dedupRuns ([] : List (List Nat × V)) = [] := by
  rw [dedupRuns]

theorem dedupRuns_cons (e : List Nat × V) (rest : List (List Nat × V)) :
    dedupRuns (e :: rest) =
      e :: dedupRuns (rest.dropWhile (fun f => f.1 = e.1)) := by
  rw [dedupRuns]

/-- `dropWhile` only looks at the predicate's values on the list. -/
theorem dropWhile_congr_mem {α : Type} (p q : α → Bool) :
    ∀ (l : List α), (∀ x ∈ l, p x = q x) → l.dropWhile p = l.dropWhile q := by
  intro l
  induction l with
  | nil => intro _; rfl
  | cons a t ih =>
    intro h
    rw [List.dropWhile_cons, List.dropWhile_cons, h a (by simp)]
    cases hq : q a
    · simp
    · simp [ih (fun x hx => h x (List.mem_cons_of_mem _ hx))]

/-- `takeWhile` passes over a prefix it accepts entirely. -/
theorem takeWhile_append_all {α : Type} (p : α → Bool) :
    ∀ (a b : List α), (∀ x ∈ a, p x = true) →
      (a ++ b).takeWhile p = a ++ b.takeWhile p := by
  intro a
  induction a with
  | nil => intro b _; rfl
  | cons x xs ih =>
    intro b h
    rw [List.cons_append, List.takeWhile_cons, h x (by simp),
      ih b (fun y hy => h y (List.mem_cons_of_mem _ hy))]
    rfl

/-- `dropWhile` consumes a prefix it accepts entirely. -/
theorem dropWhile_append_all {α : Type} (p : α → Bool) :
    ∀ (a b : List α), (∀ x ∈ a, p x = true) →
      (a ++ b).dropWhile p = b.dropWhile p := by
  intro a
  induction a with
  | nil => intro b _; rfl
  | cons x xs ih =>
    intro b h
    rw [List.cons_append, List.dropWhile_cons, h x (by simp)]
    exact ih b (fun y hy => h y (List.mem_cons_of_mem _ hy))

/-- `dropWhile` distributes over an append whose right part starts with a
rejected element. -/
theorem dropWhile_append_not_head {α : Type} (p : α → Bool)
    (a b : List α) (hb : ∀ y, b.head? = some y → p y = false) :
    (a ++ b).dropWhile p = a.dropWhile p ++ b := by
  rw [List.dropWhile_append]
  cases hae : (a.dropWhile p).isEmpty
  · rfl
  · rw [List.isEmpty_iff] at hae
    rw [hae, List.nil_append]
    cases b with
    | nil => rfl
    | cons y ys =>
      rw [List.dropWhile_cons, hb y rfl]
      rfl

theorem dedupRuns_sublist {V : Type} :
    ∀ (l : List (List Nat × V)), (dedupRuns l).Sublist l := by
  intro l
  induction l using dedupRuns.induct with
  | case1 => rw [dedupRuns_nil]
  | case2 e rest ih =>
    rw [dedupRuns_cons]
    exact (ih.trans (rest.dropWhile_sublist _)).cons₂ e

/-- Run deduplication distributes over an append whose right part opens
with a coordinate fresh for the whole left part. -/
theorem dedupRuns_append {V : Type} :
    ∀ (a b : List (List Nat × V)),
      (∀ x ∈ a, ∀ y, b.head? = some y → y.1 ≠ x.1) →
      dedupRuns (a ++ b) = dedupRuns a ++ dedupRuns b := by
  intro a
  induction a using dedupRuns.induct with
  | case1 =>
    intro b _
    rw [List.nil_append, dedupRuns_nil, List.nil_append]
  | case2 e rest ih =>
    intro b h
    rw [List.cons_append, dedupRuns_cons, dedupRuns_cons, List.cons_append]
    congr 1
    rw [dropWhile_append_not_head _ rest b (fun y hy => by
      have := h e (by simp) y hy
      simpa using this)]
    exact ih b (fun x hx y hy =>
      h x (List.mem_cons_of_mem _ ((rest.dropWhile_sublist _).subset hx)) y hy)

/-- Run deduplication commutes with an entrywise map that reflects
coordinate equality on the list. -/
theorem dedupRuns_map {V : Type} (f : (List Nat × V) → (List Nat × V)) :
    ∀ (l : List (List Nat × V)),
      (∀ x ∈ l, ∀ y ∈ l, ((f y).1 = (f x).1) ↔ y.1 = x.1) →
      dedupRuns (l.map f) = (dedupRuns l).map f := by
  intro l
  induction l using dedupRuns.induct with
  | case1 =>
    intro _
    rw [List.map_nil, dedupRuns_nil]
    rfl
  | case2 e rest ih =>
    intro h
    rw [List.map_cons, dedupRuns_cons, dedupRuns_cons, List.map_cons]
    congr 1
    rw [List.dropWhile_map]
    rw [dropWhile_congr_mem
      ((fun g : List Nat × V => decide (g.1 = (f e).1)) ∘ f)
      (fun x : List Nat × V => decide (x.1 = e.1)) rest (fun x hx => by
        simp only [Function.comp]
        exact decide_eq_decide.mpr
          (h e (by simp) x (List.mem_cons_of_mem _ hx)))]
    exact ih (fun x hx y hy =>
      h x (List.mem_cons_of_mem _ ((rest.dropWhile_sublist _).subset hx))
        y (List.mem_cons_of_mem _ ((rest.dropWhile_sublist _).subset hy)))

theorem cons_headD_tail (l : List Nat) (h : l ≠ []) :
    l = l.headD 0 :: l.tail := by
  cases l with
  | nil => exact absurd rfl h
  | cons a t => rfl

theorem dropWhile_head_false {α : Type} (p : α → Bool) (l : List α) (y : α)
    (h : (l.dropWhile p).head? = some y) : p y = false := by
  have h2 := List.head?_dropWhile_not p l
  rw [h] at h2
  simpa using h2

theorem takeWhile_eq_nil_of_head_false {α : Type} (p : α → Bool)
    (l : List α) (h : ∀ y, l.head? = some y → p y = false) :
    l.takeWhile p = [] := by
  cases l with
  | nil => rfl
  | cons y ys =>
    rw [List.takeWhile_cons, h y rfl]
    rfl

theorem dropWhile_eq_self_of_head_false {α : Type} (p : α → Bool)
    (l : List α) (h : ∀ y, l.head? = some y → p y = false) :
    l.dropWhile p = l := by
  cases l with
  | nil => rfl
  | cons y ys =>
    rw [List.dropWhile_cons, h y rfl]
    rfl

theorem dedupRuns_head {V : Type} (l : List (List Nat × V)) :
    (dedupRuns l).head? = l.head? := by
  cases l with
  | nil => rw [dedupRuns_nil]
  | cons e t =>
    rw [dedupRuns_cons]
    rfl

/-- Run deduplication commutes with the per-dimension grouping of `fromCOO`:
groups keep their keys, each group's interval is itself run-deduplicated
(duplicated full coordinates share a head, so they stay inside one group
and their tails are the duplicated tail coordinates). -/
theorem segGroups_dedupRuns {V : Type} :
    ∀ (l : List (List Nat × V)), (∀ e ∈ l, e.1 ≠ []) →
      segGroups (dedupRuns l) =
        (segGroups l).map (fun p => (p.1, dedupRuns p.2)) := by
  intro l
  induction l using segGroups.induct with
  | case1 =>
    intro _
    rw [dedupRuns_nil, segGroups_nil]
    rfl
  | case2 e rest c ih =>
    have hc : c = e.1.headD 0 := rfl
    rw [hc] at ih
    intro hne
    have hneE : e.1 ≠ [] := hne e (by simp)
    have hneR : ∀ x ∈ rest, x.1 ≠ [] :=
      fun x hx => hne x (List.mem_cons_of_mem _ hx)
    have htake_mem : ∀ x ∈ rest.takeWhile
        (fun f => decide (f.1.headD 0 = e.1.headD 0)),
        x.1.headD 0 = e.1.headD 0 := by
      intro x hx
      have := List.mem_takeWhile_imp hx
      simpa using this
    have hT_mem : ∀ x ∈ (rest.takeWhile
        (fun f => decide (f.1.headD 0 = e.1.headD 0))).dropWhile
          (fun f => decide (f.1 = e.1)),
        x.1.headD 0 = e.1.headD 0 := by
      intro x hx
      exact htake_mem x
        (((rest.takeWhile _).dropWhile_sublist _).subset hx)
    have h1 : rest.dropWhile (fun f => decide (f.1 = e.1)) =
        (rest.takeWhile
          (fun f => decide (f.1.headD 0 = e.1.headD 0))).dropWhile
          (fun f => decide (f.1 = e.1)) ++
        rest.dropWhile (fun f => decide (f.1.headD 0 = e.1.headD 0)) := by
      conv_lhs => rw [← List.takeWhile_append_dropWhile
        (fun f : List Nat × V => decide (f.1.headD 0 = e.1.headD 0)) rest]
      apply dropWhile_append_not_head
      intro y hy
      have hyh := dropWhile_head_false _ rest y hy
      simp only [decide_eq_false_iff_not] at hyh ⊢
      intro hcontra
      exact hyh (by rw [hcontra])
    have h2 : dedupRuns (e :: rest) =
        e :: (dedupRuns ((rest.takeWhile
            (fun f => decide (f.1.headD 0 = e.1.headD 0))).dropWhile
            (fun f => decide (f.1 = e.1))) ++
          dedupRuns (rest.dropWhile
            (fun f => decide (f.1.headD 0 = e.1.headD 0)))) := by
      rw [dedupRuns_cons, h1, dedupRuns_append _ _ (fun x hx y hy => by
        have hyh := dropWhile_head_false _ rest y hy
        simp only [decide_eq_false_iff_not] at hyh
        intro hcontra
        exact hyh (by rw [hcontra, hT_mem x hx]))]
    have hallT : ∀ x ∈ dedupRuns ((rest.takeWhile
        (fun f => decide (f.1.headD 0 = e.1.headD 0))).dropWhile
        (fun f => decide (f.1 = e.1))),
        (fun f : List Nat × V => decide (f.1.headD 0 = e.1.headD 0)) x
          = true := by
      intro x hx
      exact decide_eq_true (hT_mem x ((dedupRuns_sublist _).subset hx))
    have hheadB : ∀ y, (dedupRuns (rest.dropWhile
        (fun f => decide (f.1.headD 0 = e.1.headD 0)))).head? = some y →
        (fun f : List Nat × V => decide (f.1.headD 0 = e.1.headD 0)) y
          = false := by
      intro y hy
      rw [dedupRuns_head] at hy
      exact dropWhile_head_false _ rest y hy
    rw [h2, segGroups_cons]
    rw [takeWhile_append_all _ _ _ hallT, dropWhile_append_all _ _ _ hallT,
      takeWhile_eq_nil_of_head_false _ _ hheadB,
      dropWhile_eq_self_of_head_false _ _ hheadB, List.append_nil]
    rw [segGroups_cons, List.map_cons]
    rw [ih (fun x hx => hneR x ((rest.dropWhile_sublist _).subset hx))]
    congr 2
    show (e.1.tail, e.2) ::
        (dedupRuns ((rest.takeWhile
          (fun f => decide (f.1.headD 0 = e.1.headD 0))).dropWhile
          (fun f => decide (f.1 = e.1)))).map (fun f => (f.1.tail, f.2)) =
      dedupRuns ((e :: rest.takeWhile
        (fun f => decide (f.1.headD 0 = e.1.headD 0))).map
        (fun f => (f.1.tail, f.2)))
    rw [List.map_cons, dedupRuns_cons]
    congr 1
    rw [List.dropWhile_map]
    have hTsub : ∀ x ∈ (rest.takeWhile
        (fun f => decide (f.1.headD 0 = e.1.headD 0))).dropWhile
          (fun f => decide (f.1 = e.1)), x ∈ rest :=
      fun x hx => (rest.takeWhile_sublist _).subset
        (((rest.takeWhile _).dropWhile_sublist _).subset hx)
    rw [dropWhile_congr_mem
      ((fun f : List Nat × V => decide (f.1 = (e.1.tail, e.2).1)) ∘
        fun f : List Nat × V => (f.1.tail, f.2))
      (fun f : List Nat × V => decide (f.1 = e.1))
      (rest.takeWhile (fun f => decide (f.1.headD 0 = e.1.headD 0)))
      (fun x hx => by
        have hxne : x.1 ≠ [] :=
          hneR x ((rest.takeWhile_sublist _).subset hx)
        have hxh := htake_mem x hx
        apply decide_eq_decide.mpr
        constructor
        · intro ht
          have ht2 : x.1.tail = e.1.tail := ht
          rw [cons_headD_tail x.1 hxne, cons_headD_tail e.1 hneE, hxh, ht2]
        · intro hf
          show x.1.tail = e.1.tail
          rw [hf])]
    rw [dedupRuns_map (fun f => (f.1.tail, f.2)) _ (fun x hx y hy => by
      have hxne : x.1 ≠ [] := hneR x (hTsub x hx)
      have hyne : y.1 ≠ [] := hneR y (hTsub y hy)
      have hxh := hT_mem x hx
      have hyh := hT_mem y hy
      constructor
      · intro ht
        have ht2 : y.1.tail = x.1.tail := ht
        rw [cons_headD_tail y.1 hyne, cons_headD_tail x.1 hxne, hxh, hyh,
          ht2]
      · intro hf
        show y.1.tail = x.1.tail
        rw [hf])]

theorem foldl_congr_mem {α β : Type} (f g : β → α → β) :
    ∀ (l : List α) (i : β), (∀ a ∈ l, ∀ acc, f acc a = g acc a) →
      l.foldl f i = l.foldl g i := by
  intro l
  induction l with
  | nil => intro i _; rfl
  | cons a t ih =>
    intro i h
    rw [List.foldl_cons, List.foldl_cons, h a (by simp)]
    exact ih _ (fun b hb acc => h b (List.mem_cons_of_mem _ hb) acc)

/-- `fromCOO` is insensitive to later duplicates: running it on the
run-deduplicated interval produces the same output, because within each
segment the scan `while (seg < hi && ...)` passes over all duplicates and
only `elements[lo]` (the first of the run) contributes a value. -/
theorem fromCOOF_dedupRuns {V : Type} (zero : V) :
    ∀ (dims : List (Nat × Bool)) (off : List Nat)
      (elems : List (List Nat × V)),
      (∀ e ∈ elems, e.1.length = dims.length) →
      fromCOOF zero dims off (dedupRuns elems) =
        fromCOOF zero dims off elems := by
  intro dims
  induction dims with
  | nil =>
    intro off elems _
    cases elems with
    | nil => rw [dedupRuns_nil]
    | cons e t =>
      rw [dedupRuns_cons]
      rfl
  | cons d rest ih =>
    intro off elems hlen
    have hne : ∀ e ∈ elems, e.1 ≠ [] := by
      intro e he hnil
      have hl := hlen e he
      rw [hnil] at hl
      simp at hl
    have hsg := segGroups_dedupRuns elems hne
    have hlen2 : ∀ g ∈ segGroups elems, ∀ e ∈ g.2,
        e.1.length = rest.length := by
      intro g hg e heg
      have hmem := segGroups_mem elems hne g hg e heg
      have hl := hlen _ hmem
      simpa using hl
    obtain ⟨sz, b⟩ := d
    cases b with
    | true =>
      have hfold :
          ((segGroups elems).map
            (fun p => (p.1, dedupRuns p.2))).foldl
            (fun D g =>
              D.append (fromCOOF zero rest (offAfter off.tail D) g.2))
            (emptyDeltas rest.length) =
          (segGroups elems).foldl
            (fun D g =>
              D.append (fromCOOF zero rest (offAfter off.tail D) g.2))
            (emptyDeltas rest.length) := by
        rw [List.foldl_map]
        apply foldl_congr_mem
        intro g hg acc
        show acc.append
            (fromCOOF zero rest (offAfter off.tail acc) (dedupRuns g.2)) =
          acc.append (fromCOOF zero rest (offAfter off.tail acc) g.2)
        rw [ih (offAfter off.tail acc) g.2 (hlen2 g hg)]
      rw [fromCOOF_cons_comp, fromCOOF_cons_comp, hsg, hfold,
        List.length_map, List.map_map]
      rw [show (Prod.fst ∘
          fun p : Nat × List (List Nat × V) => (p.1, dedupRuns p.2)) =
        (Prod.fst : Nat × List (List Nat × V) → Nat) from rfl]
    | false =>
      have hfoldd :
          ((segGroups elems).map
            (fun p => (p.1, dedupRuns p.2))).foldl
            (denseStep zero rest off.tail)
            ((emptyDeltas rest.length : Deltas V), 0) =
          (segGroups elems).foldl (denseStep zero rest off.tail)
            ((emptyDeltas rest.length : Deltas V), 0) := by
        rw [List.foldl_map]
        apply foldl_congr_mem
        intro g hg acc
        show ((iterEndDim zero rest off.tail acc.1 (g.1 - acc.2)).append
            (fromCOOF zero rest
              (offAfter off.tail
                (iterEndDim zero rest off.tail acc.1 (g.1 - acc.2)))
              (dedupRuns g.2)),
          max acc.2 g.1 + 1) =
          ((iterEndDim zero rest off.tail acc.1 (g.1 - acc.2)).append
            (fromCOOF zero rest
              (offAfter off.tail
                (iterEndDim zero rest off.tail acc.1 (g.1 - acc.2)))
              g.2),
          max acc.2 g.1 + 1)
        rw [ih _ g.2 (hlen2 g hg)]
      rw [fromCOOF_cons_dense, fromCOOF_cons_dense, hsg, hfoldd]

/-- **C5** (corrected): the coordinate-ingestion path neither rejects
duplicate coordinates nor accumulates them in visitation order: within each
sorted run of elements sharing a full coordinate, only the first element's
value is stored (`values.push_back(elements[lo].value)`), the segment scan
skipping the rest of the run.  Building from any element list therefore
equals building from its sorted list with every duplicate run reduced to
its first element — duplicates are silently dropped, not passed through. -/
theorem claim5_duplicates_first_wins {V : Type} (zero : V)
    (sizes : List Nat) (perm : List Nat) (sparsity : List Bool)
    (elems : List (List Nat × V))
    (hsp : sparsity.length = sizes.length)
    (hlen : ∀ e ∈ elems, e.1.length = sizes.length) :
    buildStorage zero sizes perm sparsity elems =
      buildStorage zero sizes perm sparsity
        (dedupRuns (List.insertionSort (fun e f => cooLe e f) elems)) := by
  rw [buildStorage_eq, buildStorage_eq]
  have hsorted : List.insertionSort (fun e f => cooLe e f)
      (dedupRuns (List.insertionSort (fun e f => cooLe e f) elems)) =
      dedupRuns (List.insertionSort (fun e f => cooLe e f) elems) := by
    apply List.Sorted.insertionSort_eq
    exact List.Pairwise.sublist (dedupRuns_sublist _)
      (List.sorted_insertionSort (fun e f => cooLe e f) elems)
  rw [hsorted]
  have hlen2 : ∀ e ∈ List.insertionSort (fun e f => cooLe e f) elems,
      e.1.length = (sizes.zip sparsity).length := by
    intro e he
    have hm := (List.perm_insertionSort
      (fun e f => cooLe e f) elems).mem_iff.mp he
    rw [List.length_zip, hsp, Nat.min_self]
    exact hlen e hm
  rw [fromCOOF_dedupRuns zero (sizes.zip sparsity)
    (List.replicate sizes.length 0)
    (List.insertionSort (fun e f => cooLe e f) elems) hlen2]

theorem claim5_duplicates_first_wins_witness :
    (([true] : List Bool).length = ([1] : List Nat).length) ∧
    (∀ e ∈ [(([0] : List Nat), (5 : Int)), ([0], 7)],
      e.1.length = ([1] : List Nat).length) ∧
    buildStorage (0 : Int) [1] [0] [true] [([0], 5), ([0], 7)] =
      buildStorage (0 : Int) [1] [0] [true]
        (dedupRuns (List.insertionSort (fun e f => cooLe e f)
          [(([0] : List Nat), (5 : Int)), ([0], 7)])) :=
  ⟨by decide, by decide,
   claim5_duplicates_first_wins 0 [1] [0] [true]
     [([0], 5), ([0], 7)] (by decide) (by decide)⟩
